import Mathlib

/-!
Verification of the upf-tools parsing and serialisation core.

This file shallowly embeds the parsing/serialisation logic of the
`upf_tools` Python package: the ONCV input-file model (`oncv.py`), the UPF
v1 tagged-text decomposer and its sanitisers (`v1.py`), the UPF v2
XML-tree decomposer (`v2.py`), the scalar sanitiser and version sniffing
(`utils.py`), the canonical container's `.dat` generator (`upfdict.py`
and the legacy `pseudopotential.py`), and the projector `.dat` model
(`projectors.py`).

Modelling conventions:
* Python strings are embedded as `List Char` (`PyStr`); a Python document
  is the string fed to the corresponding `from_str`/`*_to_dict` function.
* Python machine floats are modelled as exact decimal numbers
  (`Dec`: a mantissa/exponent pair denoting `m * 10^e`).  Python's
  `repr`/`float` pair round-trips every finite float exactly, which is the
  behaviour the decimal model reproduces; IEEE-754 rounding of excess
  digits is not modelled, and non-finite literals (`NaN`, `Infinity`) as
  well as JSON composite literals (arrays, objects) are outside the model
  (the scalar sanitiser leaves such tokens as strings).
* Fallible Python code (IndexError, KeyError, TypeError, ValueError,
  AssertionError) is embedded in an `Except Err` monad.
-/

/-- Errors raised by the embedded Python code. -/
inductive Err where
  | indexError
  | keyError (k : List Char)
  | typeError
  | valueError (msg : List Char)
  | assertionError
  deriving DecidableEq, Repr

instance {ε α : Type} [DecidableEq ε] [DecidableEq α] : DecidableEq (Except ε α) :=
  fun x y =>
  match x, y with
  | .ok a, .ok b => if h : a = b then .isTrue (by rw [h]) else .isFalse (by simp [h])
  | .error a, .error b => if h : a = b then .isTrue (by rw [h]) else .isFalse (by simp [h])
  | .ok _, .error _ => .isFalse (by simp)
  | .error _, .ok _ => .isFalse (by simp)

/-- Embedded Python strings: a list of characters. -/
abbrev PyStr := List Char

/-- Coerce a Lean string literal into the embedding. -/
def pystr (s : String) : PyStr := s.data

/-- Python `str.isspace` on one character, restricted to the ASCII
whitespace actually occurring in these file formats. -/
def isSpaceC (c : Char) : Bool :=
  c = ' ' || c = '\t' || c = '\n' || c = '\r' || c = '\x0b' || c = '\x0c'

/-- Python `str.strip()`: drop leading and trailing whitespace. -/
def pyStrip (s : PyStr) : PyStr :=
  ((s.dropWhile isSpaceC).reverse.dropWhile isSpaceC).reverse

/-- Does `s` start with `p` (Python `str.startswith`)? -/
def startsW (p s : PyStr) : Bool :=
  match p, s with
  | [], _ => true
  | _ :: _, [] => false
  | a :: p, b :: s => a = b && startsW p s

/-- Python `in` on strings: does `pat` occur as a contiguous substring? -/
def hasSub (pat s : PyStr) : Bool :=
  startsW pat s || match s with
    | [] => false
    | _ :: t => hasSub pat t

/-- Python `str.split(sep)` for a single-character separator (used for
`"\n"`): split at every occurrence, keeping empty pieces. -/
def splitOnC (sep : Char) (s : PyStr) : List PyStr :=
  match s with
  | [] => [[]]
  | c :: t =>
    let r := splitOnC sep t
    if c = sep then [] :: r
    else match r with
      | [] => [[c]]
      | h :: t => (c :: h) :: t

/-- Python `str.split()` with no argument: split on runs of whitespace,
discarding empty tokens. -/
def splitWS (s : PyStr) : List PyStr :=
  match s with
  | [] => []
  | c :: t =>
    if isSpaceC c then splitWS t
    else match splitWS t with
      | [] => [[c]]
      | h :: r =>
        match t with
        | [] => [[c]]
        | d :: _ => if isSpaceC d then [c] :: h :: r else (c :: h) :: r

/-- Python `sep.join(parts)`. -/
def pyJoin (sep : PyStr) (parts : List PyStr) : PyStr :=
  match parts with
  | [] => []
  | [p] => p
  | p :: rest => p ++ sep ++ pyJoin sep rest

/-- Python `str.lower()` restricted to ASCII (tags in these formats are
ASCII). -/
def lowerC (c : Char) : Char :=
  if 'A' ≤ c && c ≤ 'Z' then Char.ofNat (c.toNat + 32) else c

/-- Lower-case a Python string. -/
def pyLower (s : PyStr) : PyStr := s.map lowerC

/-- Structural worker for `removeAll` (the fuel argument only serves to
make the recursion structural; it is always ample). -/
def removeAllGo (fuel : Nat) (pat : PyStr) (s : PyStr) : PyStr :=
  match fuel with
  | 0 => s
  | fuel + 1 =>
    match pat, s with
    | [], s => s
    | _ :: _, [] => []
    | p :: pt, c :: t =>
      if startsW (p :: pt) (c :: t) then removeAllGo fuel (p :: pt) ((c :: t).drop (p :: pt).length)
      else c :: removeAllGo fuel (p :: pt) t

/-- Python `str.replace(pat, "")` for the specific pattern `"PP_"`,
written for a general pattern: remove every occurrence of `pat`. -/
def removeAll (pat : PyStr) (s : PyStr) : PyStr :=
  removeAllGo (s.length + 1) pat s

/-- Decimal digit test (Python `str.isdigit` on ASCII). -/
def isDigitC (c : Char) : Bool := '0' ≤ c && c ≤ '9'

/-- Numeric value of a decimal digit character. -/
def digVal (c : Char) : Nat := c.toNat - '0'.toNat

/-- Character for a digit value below 10 (values ten and above, which the
code never produces, map to the digit nine). -/
def digChar (n : Nat) : Char :=
  match n with
  | 0 => '0' | 1 => '1' | 2 => '2' | 3 => '3' | 4 => '4'
  | 5 => '5' | 6 => '6' | 7 => '7' | 8 => '8' | _ => '9'

/-- Value of a string of decimal digits (most significant first). -/
def natOfDigits (ds : List Char) : Nat :=
  ds.foldl (fun a c => a * 10 + digVal c) 0

/-- Structural worker for `natDigits` (the fuel is always ample). -/
def natDigitsGo (fuel : Nat) (n : Nat) : List Char :=
  match fuel with
  | 0 => []
  | fuel + 1 =>
    if n < 10 then [digChar n]
    else natDigitsGo fuel (n / 10) ++ [digChar (n % 10)]

/-- Decimal digit string of a natural number (no sign, no leading zeros
except for `0` itself). -/
def natDigits (n : Nat) : List Char := natDigitsGo (n + 1) n

theorem natDigitsGo_congr : ∀ f1 f2 n, n < f1 → n < f2 →
    natDigitsGo f1 n = natDigitsGo f2 n := by
  intro f1 f2 n
  induction n using Nat.strong_induction_on generalizing f1 f2 with
  | _ n ih =>
    intro h1 h2
    match f1, f2 with
    | g1 + 1, g2 + 1 =>
      simp only [natDigitsGo]
      by_cases h : n < 10
      · simp [h]
      · simp only [h, ite_false]
        rw [ih (n / 10) (by omega) g1 g2 (by omega) (by omega)]

theorem natDigits_eq (n : Nat) :
    natDigits n = if n < 10 then [digChar n]
      else natDigits (n / 10) ++ [digChar (n % 10)] := by
  show natDigitsGo (n + 1) n = _
  rw [natDigitsGo]
  by_cases h : n < 10
  · simp [h]
  · simp only [h, ite_false]
    rw [natDigitsGo_congr n (n / 10 + 1) (n / 10) (by omega) (by omega)]
    rfl

/-- Python `str(z)` for an integer. -/
def intStr (z : Int) : PyStr :=
  if z < 0 then '-' :: natDigits z.natAbs else natDigits z.natAbs

theorem digVal_digChar {n : Nat} (h : n < 10) : digVal (digChar n) = n := by
  interval_cases n <;> rfl

theorem isDigitC_digChar (n : Nat) : isDigitC (digChar n) = true := by
  rcases n with _ | _ | _ | _ | _ | _ | _ | _ | _ | n <;> rfl

theorem natOfDigits_snoc (a : List Char) (c : Char) :
    natOfDigits (a ++ [c]) = natOfDigits a * 10 + digVal c := by
  simp [natOfDigits, List.foldl_append]

theorem natOfDigits_append (a b : List Char) :
    natOfDigits (a ++ b) = natOfDigits a * 10 ^ b.length + natOfDigits b := by
  induction b using List.reverseRecOn with
  | nil => simp [natOfDigits]
  | append_singleton b c ih =>
    rw [← List.append_assoc, natOfDigits_snoc, natOfDigits_snoc, ih]
    simp only [List.length_append, List.length_cons, List.length_nil]
    ring

theorem natOfDigits_natDigits (n : Nat) : natOfDigits (natDigits n) = n := by
  induction n using Nat.strong_induction_on with
  | _ n ih =>
    rw [natDigits_eq]
    by_cases h : n < 10
    · simp [h, natOfDigits, digVal_digChar h]
    · simp only [h, ite_false]
      rw [natOfDigits_snoc, ih (n / 10) (by omega),
        digVal_digChar (show n % 10 < 10 by omega)]
      omega

theorem natDigits_ne_nil (n : Nat) : natDigits n ≠ [] := by
  rw [natDigits_eq]
  split <;> simp

theorem natDigits_all_digits (n : Nat) : ∀ c ∈ natDigits n, isDigitC c = true := by
  induction n using Nat.strong_induction_on with
  | _ n ih =>
    rw [natDigits_eq]
    by_cases h : n < 10
    · simp only [h, ite_true, List.mem_singleton]
      rintro c rfl
      exact isDigitC_digChar n
    · simp only [h, ite_false, List.mem_append, List.mem_singleton]
      rintro c (hc | rfl)
      · exact ih (n / 10) (by omega) c hc
      · exact isDigitC_digChar (n % 10)

/-- Exact decimal number `m * 10^e`, modelling a finite Python float.
Python floats parsed from the decimal literals in these file formats
round-trip through `repr`, which the exact decimal model reproduces. -/
structure Dec where
  m : Int
  e : Int
  deriving DecidableEq, Repr

/-- Structural worker stripping factors of ten out of the mantissa
(the fuel is always ample). -/
def decNormGo (fuel : Nat) (m : Int) (e : Int) : Dec :=
  match fuel with
  | 0 => ⟨m, e⟩
  | fuel + 1 =>
    if m = 0 then ⟨0, 0⟩
    else if m % 10 = 0 then decNormGo fuel (m / 10) (e + 1) else ⟨m, e⟩

/-- Canonical form of a decimal: strip all factors of ten out of the
mantissa into the exponent. -/
def Dec.norm (d : Dec) : Dec := decNormGo (d.m.natAbs + 1) d.m d.e

theorem natAbs_ediv_ten_lt {m : Int} (hm : m ≠ 0) (h10 : m % 10 = 0) :
    (m / 10).natAbs < m.natAbs := by
  have hdvd : (10 : Int) ∣ m := Int.dvd_of_emod_eq_zero h10
  have hmul : m / 10 * 10 = m := Int.ediv_mul_cancel hdvd
  have habs : (m / 10).natAbs * 10 = m.natAbs := by
    simpa [Int.natAbs_mul] using congrArg Int.natAbs hmul
  have : m.natAbs ≠ 0 := by simpa using hm
  omega

theorem decNormGo_congrAux : ∀ (n : Nat) f1 f2 (m e : Int), m.natAbs = n →
    m.natAbs < f1 → m.natAbs < f2 → decNormGo f1 m e = decNormGo f2 m e := by
  intro n
  induction n using Nat.strong_induction_on with
  | _ n ih =>
    intro f1 f2 m e hn h1 h2
    match f1, f2 with
    | g1 + 1, g2 + 1 =>
      simp only [decNormGo]
      by_cases hm : m = 0
      · simp [hm]
      · simp only [hm, ite_false]
        by_cases h10 : m % 10 = 0
        · simp only [h10, ite_true]
          have hlt := natAbs_ediv_ten_lt hm h10
          exact ih (m / 10).natAbs (hn ▸ hlt) g1 g2 (m / 10) (e + 1) rfl
            (by omega) (by omega)
        · simp [h10]

theorem decNormGo_congr (f1 f2 : Nat) (m e : Int) (h1 : m.natAbs < f1)
    (h2 : m.natAbs < f2) : decNormGo f1 m e = decNormGo f2 m e :=
  decNormGo_congrAux m.natAbs f1 f2 m e rfl h1 h2

theorem Dec.norm_eq (m e : Int) :
    Dec.norm ⟨m, e⟩ = if m = 0 then ⟨0, 0⟩
      else if m % 10 = 0 then Dec.norm ⟨m / 10, e + 1⟩ else ⟨m, e⟩ := by
  show decNormGo (m.natAbs + 1) m e = _
  rw [decNormGo]
  by_cases hm : m = 0
  · simp [hm]
  · simp only [hm, ite_false]
    by_cases h10 : m % 10 = 0
    · simp only [h10, ite_true]
      have hlt := natAbs_ediv_ten_lt hm h10
      exact decNormGo_congr m.natAbs ((m / 10).natAbs + 1) (m / 10) (e + 1) hlt (by omega)
    · simp [h10]

/-- Canonicity predicate for `Dec`. -/
def Dec.Normal (d : Dec) : Prop :=
  (d.m = 0 → d.e = 0) ∧ (d.m % 10 = 0 → d.m = 0)

/-- Rational value denoted by a decimal. -/
def Dec.toRat (d : Dec) : ℚ := (d.m : ℚ) * (10 : ℚ) ^ d.e

/-- Mantissa of `d` rescaled to exponent `k` (meaningful for `k ≤ d.e`). -/
def decScale (d : Dec) (k : Int) : Int := d.m * (10 : Int) ^ (d.e - k).toNat

/-- Python `<` on floats. -/
def decLt (a b : Dec) : Bool :=
  decScale a (min a.e b.e) < decScale b (min a.e b.e)

/-- Python `<=` on floats. -/
def decLe (a b : Dec) : Bool :=
  decScale a (min a.e b.e) ≤ decScale b (min a.e b.e)

/-- Exact difference of two decimals. -/
def decSub (a b : Dec) : Dec :=
  ⟨decScale a (min a.e b.e) - decScale b (min a.e b.e), min a.e b.e⟩

/-- Absolute value of a decimal. -/
def decAbs (a : Dec) : Dec := ⟨(a.m.natAbs : Int), a.e⟩

/-- Python `max(a, b)` (returns the first argument on ties). -/
def pyMax (a b : Dec) : Dec := if decLt a b then b else a

/-- Scalar values produced by the scalar sanitiser (`utils.sanitise`):
Python int, float, bool, str or None. -/
inductive PyVal where
  | int (z : Int)
  | float (d : Dec)
  | bool (b : Bool)
  | str (s : PyStr)
  | pynone
  deriving DecidableEq, Repr

/-- Take the maximal run of decimal digits off the front of a string. -/
def spanDigits (s : PyStr) : PyStr × PyStr :=
  (s.takeWhile isDigitC, s.dropWhile isDigitC)

/-- Parse the exponent suffix of a JSON number (everything after the
`e`/`E`): an optional sign followed by one or more digits. -/
def parseExpTail (s : PyStr) : Option Int :=
  let (neg, r) : Bool × PyStr := match s with
    | c :: cs => if c = '+' then (false, cs) else if c = '-' then (true, cs) else (false, s)
    | [] => (false, s)
  if r ≠ [] ∧ r.all isDigitC then
    some (if neg then -(natOfDigits r : Int) else (natOfDigits r : Int))
  else none

/-- Parse a complete JSON number token (the number grammar used by
`json.loads`): `-? (0 | [1-9][0-9]*) (\.[0-9]+)? ([eE][+-]?[0-9]+)?`.
Returns a Python int when neither fraction nor exponent is present, and
a float otherwise.  Python non-finite extensions (`NaN`, `Infinity`) are
not modelled. -/
def parseNum (t : PyStr) : Option PyVal :=
  let (neg, s1) : Bool × PyStr := match t with
    | c :: cs => if c = '-' then (true, cs) else (false, t)
    | [] => (false, t)
  let (ip, r1) := spanDigits s1
  if ip = [] then none
  else if 1 < ip.length ∧ ip.head? = some '0' then none
  else
    let (fp, r2) : Option PyStr × PyStr := match r1 with
      | '.' :: rr => (some (spanDigits rr).1, (spanDigits rr).2)
      | _ => (none, r1)
    if fp = some [] then none
    else
      match r2 with
      | [] =>
        match fp with
        | none => some (.int (if neg then -(natOfDigits ip : Int) else (natOfDigits ip : Int)))
        | some fd =>
          let mant : Int := natOfDigits (ip ++ fd)
          some (.float (Dec.norm ⟨if neg then -mant else mant, -(fd.length : Int)⟩))
      | c :: rr =>
        if c = 'e' ∨ c = 'E' then
          match parseExpTail rr with
          | some ev =>
            let fd := fp.getD []
            let mant : Int := natOfDigits (ip ++ fd)
            some (.float (Dec.norm ⟨if neg then -mant else mant, ev - (fd.length : Int)⟩))
          | none => none
        else none

/-- Parse a JSON string token without escape sequences (escape sequences
never arise in these formats and are left unmodelled: such tokens fall
back to plain strings). -/
def parseQuoted (t : PyStr) : Option PyStr :=
  match t with
  | '"' :: rest =>
    if rest.getLast? = some '"' &&
        rest.dropLast.all (fun c => c ≠ '"' && c ≠ '\\') then
      some rest.dropLast
    else none
  | _ => none

/-- Embedding of `upf_tools.utils.sanitise`: attempt `json.loads` on the
token (literal ints, floats, booleans, null and simple quoted strings)
and fall back to the original string on failure. -/
def sanitise (s : PyStr) : PyVal :=
  let t := pyStrip s
  if t = pystr "true" then .bool true
  else if t = pystr "false" then .bool false
  else if t = pystr "null" then .pynone
  else match parseNum t with
    | some v => v
    | none =>
      match parseQuoted t with
      | some u => .str u
      | none => .str s

/-- Run of zero characters. -/
def zeros (k : Nat) : PyStr := List.replicate k '0'

/-- Python `repr` of a positive decimal `m * 10^e` (`m ≥ 1`): positional
notation when the scientific exponent lies in `[-4, 16)`, scientific
notation otherwise, exactly as CPython formats floats. -/
def posDecRepr (m : Nat) (e : Int) : PyStr :=
  let ds := natDigits m
  let n := ds.length
  let sexp : Int := (n : Int) - 1 + e
  if -4 ≤ sexp ∧ sexp < 16 then
    if 0 ≤ e then ds ++ zeros e.toNat ++ pystr ".0"
    else
      let k := (-e).toNat
      if k < n then ds.take (n - k) ++ '.' :: ds.drop (n - k)
      else '0' :: '.' :: (zeros (k - n) ++ ds)
  else
    let mant := if ds.drop 1 = [] then ds.take 1 else ds.take 1 ++ '.' :: ds.drop 1
    let esign := if sexp < 0 then '-' else '+'
    let edigs := natDigits sexp.natAbs
    let edigs2 := if edigs.length < 2 then '0' :: edigs else edigs
    mant ++ 'e' :: esign :: edigs2

/-- Python `str`/`repr` of a float. -/
def pyFloatRepr (d : Dec) : PyStr :=
  if d.m = 0 then pystr "0.0"
  else if d.m < 0 then '-' :: posDecRepr d.m.natAbs d.e
  else posDecRepr d.m.natAbs d.e

/-- Python `str(v)` for a sanitised scalar. -/
def pyValStr (v : PyVal) : PyStr :=
  match v with
  | .int z => intStr z
  | .float d => pyFloatRepr d
  | .bool b => if b then pystr "True" else pystr "False"
  | .str s => s
  | .pynone => pystr "None"

/-- Python `float(tok)`: like the JSON number grammar but tolerant of
leading zeros, a leading `+`, surrounding whitespace, and a dangling
integer or fractional part (`"5."`, `".5"`).  Non-finite spellings
(`inf`, `nan`) are not modelled. -/
def parseFloatTok (s : PyStr) : Except Err Dec :=
  let t := pyStrip s
  let (neg, s1) : Bool × PyStr := match t with
    | c :: cs => if c = '-' then (true, cs) else if c = '+' then (false, cs) else (false, t)
    | [] => (false, t)
  let (ip, r1) := spanDigits s1
  let (fp, r2) : PyStr × PyStr := match r1 with
    | c :: rr => if c = '.' then spanDigits rr else ([], r1)
    | [] => ([], r1)
  let hasDot : Bool := match r1 with
    | c :: _ => c = '.'
    | [] => false
  if ip = [] ∧ fp = [] then .error (.valueError s)
  else
    let mant : Int := natOfDigits (ip ++ fp)
    let mkv (ev : Int) : Dec :=
      Dec.norm ⟨if neg then -mant else mant, ev - (fp.length : Int)⟩
    match r2 with
    | [] => if hasDot ∨ ip ≠ [] then .ok (mkv 0) else .error (.valueError s)
    | c :: rr =>
      if c = 'e' ∨ c = 'E' then
        match parseExpTail rr with
        | some ev => .ok (mkv ev)
        | none => .error (.valueError s)
      else .error (.valueError s)

/-- Python `int(tok)`: optional whitespace and sign around a nonempty
digit string. -/
def pyIntParse (s : PyStr) : Except Err Int :=
  let t := pyStrip s
  let (neg, s1) : Bool × PyStr := match t with
    | c :: cs => if c = '-' then (true, cs) else if c = '+' then (false, cs) else (false, t)
    | [] => (false, t)
  if s1 ≠ [] ∧ s1.all isDigitC then
    .ok (if neg then -(natOfDigits s1 : Int) else (natOfDigits s1 : Int))
  else .error (.valueError s)

/-- Pad a string on the left with spaces to the given width (Python
`f"{v: >w}"`). -/
def padTo (w : Nat) (s : PyStr) : PyStr :=
  List.replicate (w - s.length) ' ' ++ s

/-- Python `xs[i]` for a list with an integer index (negative indices
count from the end; out of range raises IndexError). -/
def pyIdx {α : Type} (xs : List α) (i : Int) : Except Err α :=
  let j : Int := if i < 0 then (xs.length : Int) + i else i
  if 0 ≤ j then
    match xs.get? j.toNat with
    | some x => .ok x
    | none => .error .indexError
  else .error .indexError

/-- Python `xs[a:b]` (step one): clamped, with negative indices counting
from the end. -/
def pySlice {α : Type} (xs : List α) (a b : Int) : List α :=
  let n : Int := (xs.length : Int)
  let a2 : Int := if a < 0 then max (n + a) 0 else min a n
  let b2 : Int := if b < 0 then max (n + b) 0 else min b n
  (xs.drop a2.toNat).take (b2.toNat - a2.toNat)

/-- Use a sanitised scalar as a Python integer (as list indices and
arithmetic do): ints are ints, bools coerce, anything else raises a
TypeError at the surrounding operation. -/
def pyValInt (v : PyVal) : Except Err Int :=
  match v with
  | .int z => .ok z
  | .bool b => .ok (if b then 1 else 0)
  | _ => .error .typeError

/-- Left-to-right fail-fast effectful map (the semantics of a Python list
comprehension whose body may raise). -/
def mapExcept {α β : Type} (f : α → Except Err β) : List α → Except Err (List β)
  | [] => .ok []
  | x :: xs => do
    let y ← f x
    let ys ← mapExcept f xs
    .ok (y :: ys)

namespace ONCV

/-- Fields of the `ONCVAtom` dataclass (all dynamically typed: `sanitise`
assigns whatever type the token parses to). -/
structure ONCVAtom where
  atsym : PyVal
  z : PyVal
  nc : PyVal
  nv : PyVal
  iexc : PyVal
  psfile : PyVal
  deriving DecidableEq, Repr

/-- Fields of `ONCVConfigurationSubshell`. -/
structure ONCVConfigurationSubshell where
  n : PyVal
  l : PyVal
  f : PyVal
  deriving DecidableEq, Repr

/-- Fields of `ONCVOptimizationChannel`. -/
structure ONCVOptimizationChannel where
  l : PyVal
  rc : PyVal
  ep : PyVal
  ncon : PyVal
  nbas : PyVal
  qcut : PyVal
  deriving DecidableEq, Repr

/-- Fields of `ONCVLocalPotential`. -/
structure ONCVLocalPotential where
  lloc : PyVal
  lpopt : PyVal
  rc : PyVal
  dvloc0 : PyVal
  deriving DecidableEq, Repr

/-- Fields of `ONCVVKBProjector`. -/
structure ONCVVKBProjector where
  l : PyVal
  nproj : PyVal
  debl : PyVal
  deriving DecidableEq, Repr

/-- Fields of `ONCVModelCoreCharge` (`rcfact` is optional, defaulting to
Python `None`). -/
structure ONCVModelCoreCharge where
  icmod : PyVal
  fcfact : PyVal
  rcfact : Option PyVal
  deriving DecidableEq, Repr

/-- Fields of `ONCVLogDerivativeAnalysis`. -/
structure ONCVLogDerivativeAnalysis where
  epsh1 : PyVal
  epsh2 : PyVal
  depsh : PyVal
  deriving DecidableEq, Repr

/-- Fields of `ONCVOutputGrid`. -/
structure ONCVOutputGrid where
  rlmax : PyVal
  drl : PyVal
  deriving DecidableEq, Repr

/-- Dataclass construction `ONCVAtom(*args)`: exactly six positional
arguments, otherwise Python raises a TypeError. -/
def mkAtom (args : List PyVal) : Except Err ONCVAtom :=
  match args with
  | [a, b, c, d, e, f] => .ok ⟨a, b, c, d, e, f⟩
  | _ => .error .typeError

/-- Dataclass construction `ONCVConfigurationSubshell(*args)`. -/
def mkSubshell (args : List PyVal) : Except Err ONCVConfigurationSubshell :=
  match args with
  | [a, b, c] => .ok ⟨a, b, c⟩
  | _ => .error .typeError

/-- Dataclass construction `ONCVOptimizationChannel(*args)`. -/
def mkOptimization (args : List PyVal) : Except Err ONCVOptimizationChannel :=
  match args with
  | [a, b, c, d, e, f] => .ok ⟨a, b, c, d, e, f⟩
  | _ => .error .typeError

/-- Dataclass construction `ONCVLocalPotential(*args)`. -/
def mkLocalPotential (args : List PyVal) : Except Err ONCVLocalPotential :=
  match args with
  | [a, b, c, d] => .ok ⟨a, b, c, d⟩
  | _ => .error .typeError

/-- Dataclass construction `ONCVVKBProjector(*args)`. -/
def mkVKB (args : List PyVal) : Except Err ONCVVKBProjector :=
  match args with
  | [a, b, c] => .ok ⟨a, b, c⟩
  | _ => .error .typeError

/-- Dataclass construction `ONCVModelCoreCharge(*args)` (two or three
arguments thanks to the optional `rcfact`). -/
def mkMCC (args : List PyVal) : Except Err ONCVModelCoreCharge :=
  match args with
  | [a, b] => .ok ⟨a, b, none⟩
  | [a, b, c] => .ok ⟨a, b, some c⟩
  | _ => .error .typeError

/-- Dataclass construction `ONCVLogDerivativeAnalysis(*args)`. -/
def mkLDA (args : List PyVal) : Except Err ONCVLogDerivativeAnalysis :=
  match args with
  | [a, b, c] => .ok ⟨a, b, c⟩
  | _ => .error .typeError

/-- Dataclass construction `ONCVOutputGrid(*args)`. -/
def mkOutputGrid (args : List PyVal) : Except Err ONCVOutputGrid :=
  match args with
  | [a, b] => .ok ⟨a, b⟩
  | _ => .error .typeError

/-- Embedding of `ONCVInput`: the parsed contents of an ONCV input file.
`ONCVList` wrappers compare by their underlying lists (Python `UserList`
equality), so they are embedded as plain lists. -/
structure ONCVInput where
  atom : ONCVAtom
  reference_configuration : List ONCVConfigurationSubshell
  lmax : Int
  optimization : List ONCVOptimizationChannel
  local_potential : ONCVLocalPotential
  vkb_projectors : List ONCVVKBProjector
  model_core_charge : ONCVModelCoreCharge
  log_derivative_analysis : ONCVLogDerivativeAnalysis
  output_grid : ONCVOutputGrid
  test_configurations : List (List ONCVConfigurationSubshell)
  deriving DecidableEq, Repr

/-- Loop over `range(ncnf)` in `ONCVInput.from_str`, accumulating the
test configurations (faithful to the source: the line after the current
position is skipped, `atom.nv` is re-read as an integer each iteration,
and the row slice is clamped like a Python slice). -/
def testLoop (content : List PyStr) (nvVal : PyVal) :
    Nat → Int → Except Err (List (List ONCVConfigurationSubshell) × Int)
  | 0, iend => .ok ([], iend)
  | k + 1, iend => do
    let nv ← pyValInt nvVal
    let istart := iend + 1
    let iend2 := istart + nv
    let rows := pySlice content istart iend2
    let cfg ← mapExcept (fun line => mkSubshell ((splitWS line).map sanitise)) rows
    let (rest, iendf) ← testLoop content nvVal k iend2
    .ok (cfg :: rest, iendf)

/-- Body of `ONCVInput.from_str` after the initial strip and comment
filter: the strictly positional walk over the content lines. -/
def parseContent (content : List PyStr) : Except Err ONCVInput := do
  let atomLine ← pyIdx content 0
  let atom ← mkAtom ((splitWS atomLine).map sanitise)
  let ncI ← pyValInt atom.nc
  let nvI ← pyValInt atom.nv
  let ntot := ncI + nvI
  let refcfg ← mapExcept
    (fun line => mkSubshell (((splitWS line).take 3).map sanitise))
    (pySlice content 1 (ntot + 1))
  let lmaxLine ← pyIdx content (ntot + 1)
  let lmax ← pyIntParse lmaxLine
  let istart := ntot + 2
  let iend := istart + lmax + 1
  let optimization ← mapExcept
    (fun line => mkOptimization ((splitWS line).map sanitise))
    (pySlice content istart iend)
  let lpLine ← pyIdx content iend
  let local_potential ← mkLocalPotential ((splitWS lpLine).map sanitise)
  let istart2 := iend + 1
  let iend2 := istart2 + lmax + 1
  let vkb ← mapExcept
    (fun line => mkVKB ((splitWS line).map sanitise))
    (pySlice content istart2 iend2)
  let mccLine ← pyIdx content iend2
  let mcc ← mkMCC ((splitWS mccLine).map sanitise)
  let iend3 := iend2 + 1
  let ldaLine ← pyIdx content iend3
  let lda ← mkLDA ((splitWS ldaLine).map sanitise)
  let iend4 := iend3 + 1
  let ogLine ← pyIdx content iend4
  let og ← mkOutputGrid ((splitWS ogLine).map sanitise)
  let iend5 := iend4 + 1
  let ncvfLine ← pyIdx content iend5
  let ncvf ← pyIntParse ncvfLine
  let iend6 := iend5 + 1
  let res ← testLoop content atom.nv ncvf.toNat iend6
  .ok ⟨atom, refcfg, lmax, optimization, local_potential, vkb, mcc, lda, og, res.1⟩

/-- Embedding of `ONCVInput.from_str` applied to the line list of the
document (the Python function first splits its argument on newlines). -/
def fromLines (lines0 : List PyStr) : Except Err ONCVInput :=
  let lines := lines0.map pyStrip
  let content := lines.filter (fun l => ¬ startsW (pystr "#") l)
  parseContent content

/-- Embedding of `ONCVInput.from_str`. -/
def from_str (txt : PyStr) : Except Err ONCVInput :=
  fromLines (splitOnC '\n' txt)

/-- Column-header line of an `ONCVEntry` (`"# " + " ".join(...)[2:]`):
always a comment line. -/
def entryColumns (keys : List PyStr) : PyStr :=
  pystr "# " ++ (pyJoin [' '] (keys.map (padTo 8))).drop 2

/-- Content line of an `ONCVEntry`: the eight-wide right-aligned `str`
of every field that is not `None`, joined by single spaces. -/
def entryContentOf (vals : List PyVal) : PyStr :=
  pyJoin [' ']
    ((vals.filter (fun v => v ≠ PyVal.pynone)).map (fun v => padTo 8 (pyValStr v)))

/-- The `to_str` of a single `ONCVEntry`. -/
def entryToStr (keys : List PyStr) (vals : List PyVal) : PyStr :=
  entryColumns keys ++ '\n' :: entryContentOf vals

/-- Field names of each record type, in dataclass (`__dict__`) order. -/
def atomKeys : List PyStr :=
  [pystr "atsym", pystr "z", pystr "nc", pystr "nv", pystr "iexc", pystr "psfile"]

/-- Field names of a configuration subshell. -/
def subKeys : List PyStr := [pystr "n", pystr "l", pystr "f"]

/-- Field names of an optimization channel. -/
def optKeys : List PyStr :=
  [pystr "l", pystr "rc", pystr "ep", pystr "ncon", pystr "nbas", pystr "qcut"]

/-- Field names of the local potential record. -/
def lpKeys : List PyStr := [pystr "lloc", pystr "lpopt", pystr "rc", pystr "dvloc0"]

/-- Field names of a VKB projector record. -/
def vkbKeys : List PyStr := [pystr "l", pystr "nproj", pystr "debl"]

/-- Field names of the model core charge record. -/
def mccKeys : List PyStr := [pystr "icmod", pystr "fcfact", pystr "rcfact"]

/-- Field names of the log-derivative-analysis record. -/
def ldaKeys : List PyStr := [pystr "epsh1", pystr "epsh2", pystr "depsh"]

/-- Field names of the output grid record. -/
def ogKeys : List PyStr := [pystr "rlmax", pystr "drl"]

/-- Field values of the atom record, in order. -/
def atomVals (a : ONCVAtom) : List PyVal :=
  [a.atsym, a.z, a.nc, a.nv, a.iexc, a.psfile]

/-- Field values of a subshell record. -/
def subVals (s : ONCVConfigurationSubshell) : List PyVal := [s.n, s.l, s.f]

/-- Field values of an optimization channel. -/
def optVals (o : ONCVOptimizationChannel) : List PyVal :=
  [o.l, o.rc, o.ep, o.ncon, o.nbas, o.qcut]

/-- Field values of the local potential record. -/
def lpVals (o : ONCVLocalPotential) : List PyVal := [o.lloc, o.lpopt, o.rc, o.dvloc0]

/-- Field values of a VKB projector record. -/
def vkbVals (o : ONCVVKBProjector) : List PyVal := [o.l, o.nproj, o.debl]

/-- Field values of the model core charge record (`None` when `rcfact`
is absent, skipped by the content serialiser). -/
def mccVals (o : ONCVModelCoreCharge) : List PyVal :=
  [o.icmod, o.fcfact, match o.rcfact with | some v => v | none => PyVal.pynone]

/-- Field values of the log-derivative-analysis record. -/
def ldaVals (o : ONCVLogDerivativeAnalysis) : List PyVal := [o.epsh1, o.epsh2, o.depsh]

/-- Field values of the output grid record. -/
def ogVals (o : ONCVOutputGrid) : List PyVal := [o.rlmax, o.drl]

/-- The `to_str` of an `ONCVList` of records: the column header of the
first element (empty when the list is empty), a newline, then the joined
content lines. -/
def listToStr {α : Type} (keys : List PyStr) (vals : α → List PyVal)
    (data : List α) : PyStr :=
  (match data with
   | [] => []
   | _ :: _ => entryColumns keys) ++
  '\n' :: pyJoin ['\n'] (data.map (fun d => entryContentOf (vals d)))

/-- The `content` of an inner test-configuration `ONCVList` (which is
constructed with `print_length=True`): the eight-wide length, a newline,
then the joined subshell content lines. -/
def testInnerContent (c : List ONCVConfigurationSubshell) : PyStr :=
  padTo 8 (intStr (c.length : Int)) ++ '\n' ::
    pyJoin ['\n'] (c.map (fun s => entryContentOf (subVals s)))

/-- The `to_str` of the outer test-configurations `ONCVList`: its column
header is the first inner list's column header (empty when there is
none), followed by the newline-joined inner contents. -/
def testOuterToStr (tcs : List (List ONCVConfigurationSubshell)) : PyStr :=
  (match tcs with
   | [] => []
   | c :: _ => match c with
     | [] => []
     | _ :: _ => entryColumns subKeys) ++
  '\n' :: pyJoin ['\n'] (tcs.map testInnerContent)

/-- Embedding of `ONCVInput.to_str`. -/
def to_str (P : ONCVInput) : PyStr :=
  pyJoin ['\n']
    [ pystr "# ATOM AND REFERENCE CONFIGURATION",
      entryToStr atomKeys (atomVals P.atom),
      listToStr subKeys subVals P.reference_configuration,
      pystr "# PSEUDOPOTENTIAL AND OPTIMIZATION",
      pystr "#   lmax",
      padTo 8 (intStr P.lmax),
      listToStr optKeys optVals P.optimization,
      pystr "# LOCAL POTENTIAL",
      entryToStr lpKeys (lpVals P.local_potential),
      pystr "# VANDERBILT-KLEINMAN-BYLANDER PROJECTORS",
      listToStr vkbKeys vkbVals P.vkb_projectors,
      pystr "# MODEL CORE CHARGE",
      entryToStr mccKeys (mccVals P.model_core_charge),
      pystr "# LOG DERIVATIVE ANALYSIS",
      entryToStr ldaKeys (ldaVals P.log_derivative_analysis),
      pystr "# OUTPUT GRID",
      entryToStr ogKeys (ogVals P.output_grid),
      pystr "# TEST CONFIGURATIONS",
      pystr "# ncnf",
      padTo 8 (intStr (P.test_configurations.length : Int)),
      testOuterToStr P.test_configurations ]

end ONCV

theorem splitOnC_ne_nil (sep : Char) (s : PyStr) : splitOnC sep s ≠ [] := by
  induction s with
  | nil => simp [splitOnC]
  | cons c t ih =>
    rw [splitOnC]
    by_cases h : c = sep
    · simp [h]
    · simp only [h, ite_false]
      rcases hs : splitOnC sep t with _ | ⟨a, b⟩
      · exact absurd hs ih
      · simp

theorem splitOnC_sep (sep : Char) (x y : PyStr) :
    splitOnC sep (x ++ sep :: y) = splitOnC sep x ++ splitOnC sep y := by
  induction x with
  | nil => simp [splitOnC]
  | cons c t ih =>
    rw [List.cons_append, splitOnC, splitOnC]
    by_cases h : c = sep
    · simp [h, ih]
    · simp only [h, ite_false]
      rw [ih]
      rcases hs : splitOnC sep t with _ | ⟨a, b⟩
      · exact absurd hs (splitOnC_ne_nil sep t)
      · simp

theorem splitOnC_no_sep (sep : Char) (s : PyStr) (h : sep ∉ s) :
    splitOnC sep s = [s] := by
  induction s with
  | nil => rfl
  | cons c t ih =>
    rw [splitOnC]
    have hc : ¬ c = sep := fun hh => h (hh ▸ List.mem_cons_self c t)
    simp only [hc, ite_false]
    rw [ih (fun hm => h (List.mem_cons_of_mem c hm))]

/-- Splitting a newline-join on newlines yields the concatenation of the
splits of the parts. -/
theorem splitOnC_join (sep : Char) (parts : List PyStr) (h : parts ≠ []) :
    splitOnC sep (pyJoin [sep] parts) = (parts.map (splitOnC sep)).flatten := by
  induction parts with
  | nil => exact absurd rfl h
  | cons p rest ih =>
    rcases rest with _ | ⟨q, qs⟩
    · simp [pyJoin, splitOnC]
    · have hj : pyJoin [sep] (p :: q :: qs) = p ++ sep :: pyJoin [sep] (q :: qs) := by
        rw [pyJoin]
        · simp
        · intro hh
          exact absurd hh (List.cons_ne_nil q qs)
      rw [hj, splitOnC_sep, ih (List.cons_ne_nil q qs)]
      simp

theorem dropWhile_replicate_space (k : Nat) (s : PyStr) :
    (List.replicate k ' ' ++ s).dropWhile isSpaceC = s.dropWhile isSpaceC := by
  induction k with
  | zero => simp
  | succ k ih => simpa [List.replicate_succ, List.dropWhile] using ih

theorem dropWhile_of_head {s : PyStr} {c : Char} (h : s.head? = some c)
    (hc : isSpaceC c = false) : s.dropWhile isSpaceC = s := by
  cases s with
  | nil => rfl
  | cons a t =>
    simp only [List.head?_cons, Option.some_inj] at h
    subst h
    simp [List.dropWhile, hc]

/-- Strip of left-padded text whose payload neither begins nor ends with
whitespace. -/
theorem pyStrip_pad (k : Nat) (s : PyStr) (c d : Char)
    (h1 : s.head? = some c) (hc : isSpaceC c = false)
    (h2 : s.getLast? = some d) (hd : isSpaceC d = false) :
    pyStrip (List.replicate k ' ' ++ s) = s := by
  unfold pyStrip
  rw [dropWhile_replicate_space, dropWhile_of_head h1 hc]
  have hrev : s.reverse.head? = some d := by
    rwa [List.head?_reverse]
  rw [dropWhile_of_head hrev hd, List.reverse_reverse]

theorem dropWhile_ne_nil_of_mem {p : Char → Bool} {u : PyStr} {c : Char}
    (hc : c ∈ u) (h : p c = false) : u.dropWhile p ≠ [] := by
  induction u with
  | nil => simp at hc
  | cons a v ih =>
    rw [List.dropWhile]
    by_cases ha : p a
    · simp only [ha, ite_true]
      rcases List.mem_cons.mp hc with rfl | hm
      · rw [h] at ha; exact absurd ha (by simp)
      · exact ih hm
    · simp [ha]

theorem getLast?_dropWhile (p : Char → Bool) (u : PyStr)
    (h : u.dropWhile p ≠ []) : (u.dropWhile p).getLast? = u.getLast? := by
  induction u with
  | nil => simp at h
  | cons a v ih =>
    rw [List.dropWhile] at h ⊢
    by_cases ha : p a
    · simp only [ha, ite_true] at h ⊢
      rcases hv : v with _ | ⟨x, xs⟩
      · rw [hv] at h; simp at h
      · rw [← hv, ih (hv ▸ h), hv, List.getLast?_cons_cons]
    · simp [ha]

/-- Strip keeps a leading non-whitespace character in place. -/
theorem pyStrip_head {s : PyStr} {c : Char} (h : s.head? = some c)
    (hc : isSpaceC c = false) : (pyStrip s).head? = some c := by
  unfold pyStrip
  rw [dropWhile_of_head h hc]
  have hmem : c ∈ s.reverse := by
    cases s with
    | nil => simp at h
    | cons a t =>
      simp only [List.head?_cons, Option.some_inj] at h
      subst h
      simp
  have hne := dropWhile_ne_nil_of_mem hmem hc
  rw [List.head?_reverse, getLast?_dropWhile _ _ hne, List.getLast?_reverse]
  exact h

theorem isSpaceC_space : isSpaceC ' ' = true := rfl

theorem splitWS_spaces (k : Nat) (r : PyStr) :
    splitWS (List.replicate k ' ' ++ r) = splitWS r := by
  induction k with
  | zero => simp
  | succ k ih =>
    rw [List.replicate_succ, List.cons_append, splitWS]
    simp [isSpaceC_space, ih]

theorem splitWS_token_nil (a : PyStr) (hne : a ≠ [])
    (hns : ∀ c ∈ a, isSpaceC c = false) : splitWS a = [a] := by
  induction a with
  | nil => exact absurd rfl hne
  | cons x t ih =>
    rw [splitWS]
    have hx : isSpaceC x = false := hns x (List.mem_cons_self x t)
    simp only [hx, Bool.false_eq_true, ite_false]
    rcases t with _ | ⟨y, u⟩
    · simp [splitWS]
    · have hrec : splitWS (y :: u) = [y :: u] :=
        ih (List.cons_ne_nil y u) (fun c hc => hns c (List.mem_cons_of_mem x hc))
      have hy : isSpaceC y = false :=
        hns y (List.mem_cons_of_mem x (List.mem_cons_self y u))
      rw [hrec]
      simp [hy]

theorem splitWS_token_space (a r : PyStr) (hne : a ≠ [])
    (hns : ∀ c ∈ a, isSpaceC c = false) :
    splitWS (a ++ ' ' :: r) = a :: splitWS r := by
  induction a with
  | nil => exact absurd rfl hne
  | cons x t ih =>
    have hx : isSpaceC x = false := hns x (List.mem_cons_self x t)
    rcases t with _ | ⟨y, u⟩
    · rw [List.cons_append, List.nil_append, splitWS]
      simp only [hx, Bool.false_eq_true, ite_false]
      have : splitWS (' ' :: r) = splitWS r := by rw [splitWS]; simp [isSpaceC_space]
      rw [this]
      rcases hs : splitWS r with _ | ⟨h1, r1⟩
      · simp
      · simp [isSpaceC_space]
    · have hrec : splitWS ((y :: u) ++ ' ' :: r) = (y :: u) :: splitWS r :=
        ih (List.cons_ne_nil y u) (fun c hc => hns c (List.mem_cons_of_mem x hc))
      have hy : isSpaceC y = false :=
        hns y (List.mem_cons_of_mem x (List.mem_cons_self y u))
      rw [List.cons_append, splitWS]
      simp only [hx, Bool.false_eq_true, ite_false]
      rw [hrec]
      simp [hy]

/-- Tail of a `" ".join` of eight-wide right-aligned tokens, after the
first token. -/
def joinTail (ts : List PyStr) : PyStr :=
  match ts with
  | [] => []
  | u :: us => ' ' :: (padTo 8 u ++ joinTail us)

theorem pyJoin_pad_eq (toks : List PyStr) :
    pyJoin [' '] (toks.map (padTo 8)) =
      match toks with
      | [] => []
      | t :: ts => padTo 8 t ++ joinTail ts := by
  induction toks with
  | nil => rfl
  | cons t ts ih =>
    rcases ts with _ | ⟨u, us⟩
    · simp [pyJoin, joinTail]
    · show padTo 8 t ++ [' '] ++ pyJoin [' '] ((u :: us).map (padTo 8)) = _
      rw [ih]
      simp [joinTail]

/-- Well-formedness of the tokens on one serialised content line: at
least one token, each nonempty and whitespace-free. -/
def LineTokensOK (toks : List PyStr) : Prop :=
  toks ≠ [] ∧ ∀ t ∈ toks, t ≠ [] ∧ ∀ c ∈ t, isSpaceC c = false

theorem splitWS_payload (t : PyStr) (ts : List PyStr)
    (ht : t ≠ [] ∧ ∀ c ∈ t, isSpaceC c = false)
    (hts : ∀ u ∈ ts, u ≠ [] ∧ ∀ c ∈ u, isSpaceC c = false) :
    splitWS (t ++ joinTail ts) = t :: ts := by
  induction ts generalizing t with
  | nil =>
    show splitWS (t ++ []) = [t]
    rw [List.append_nil]
    exact splitWS_token_nil t ht.1 ht.2
  | cons u us ih =>
    show splitWS (t ++ ' ' :: (padTo 8 u ++ joinTail us)) = t :: u :: us
    rw [splitWS_token_space t _ ht.1 ht.2]
    unfold padTo
    rw [List.append_assoc, splitWS_spaces,
      ih u (hts u (List.mem_cons_self u us)) (fun v hv => hts v (List.mem_cons_of_mem u hv))]

theorem getLast?_append_of_ne_nil {a b : PyStr} (hb : b ≠ []) :
    (a ++ b).getLast? = b.getLast? := by
  induction a with
  | nil => rfl
  | cons x t ih =>
    rw [List.cons_append]
    rcases ht : t ++ b with _ | ⟨y, u⟩
    · exact absurd (List.append_eq_nil.mp ht).2 hb
    · rw [List.getLast?_cons_cons, ← ht, ih]

theorem getLast?_cons_of_ne_nil {x : Char} {l : PyStr} (h : l ≠ []) :
    (x :: l).getLast? = l.getLast? :=
  @getLast?_append_of_ne_nil [x] l h

theorem payload_last (t : PyStr) (ts : List PyStr)
    (ht : t ≠ [] ∧ ∀ c ∈ t, isSpaceC c = false)
    (hts : ∀ u ∈ ts, u ≠ [] ∧ ∀ c ∈ u, isSpaceC c = false) :
    ∃ d, (t ++ joinTail ts).getLast? = some d ∧ isSpaceC d = false := by
  induction ts generalizing t with
  | nil =>
    refine ⟨t.getLast ht.1, ?_, ht.2 _ (List.getLast_mem ht.1)⟩
    rw [show joinTail [] = [] from rfl, List.append_nil]
    exact List.getLast?_eq_getLast t ht.1
  | cons u us ih =>
    obtain ⟨d, hd, hdn⟩ := ih u (hts u (List.mem_cons_self u us))
      (fun v hv => hts v (List.mem_cons_of_mem u hv))
    refine ⟨d, ?_, hdn⟩
    have hu : u ≠ [] := (hts u (List.mem_cons_self u us)).1
    have hne2 : u ++ joinTail us ≠ [] := by
      intro hh
      exact hu (List.append_eq_nil.mp hh).1
    have hne : padTo 8 u ++ joinTail us ≠ [] := by
      intro hh
      have h2 := (List.append_eq_nil.mp hh).1
      unfold padTo at h2
      exact hu (List.append_eq_nil.mp h2).2
    show (t ++ ' ' :: (padTo 8 u ++ joinTail us)).getLast? = some d
    rw [getLast?_append_of_ne_nil (List.cons_ne_nil _ _),
      getLast?_cons_of_ne_nil hne]
    unfold padTo
    rw [List.append_assoc, getLast?_append_of_ne_nil hne2]
    exact hd

theorem head?_append_left {t x : PyStr} (h : t ≠ []) :
    (t ++ x).head? = t.head? := by
  cases t with
  | nil => exact absurd rfl h
  | cons a b => rfl

/-- A sanitised scalar that survives the serialise/re-parse cycle: its
Python string form re-sanitises to the same value, is nonempty, contains
no whitespace, and does not begin with the comment character. -/
def TokenOK (v : PyVal) : Prop :=
  sanitise (pyValStr v) = v ∧
  pyValStr v ≠ [] ∧
  (∀ c ∈ pyValStr v, isSpaceC c = false) ∧
  (pyValStr v).head? ≠ some '#'

instance (v : PyVal) : Decidable (TokenOK v) := by
  unfold TokenOK
  infer_instance

theorem stripContentLine (t : PyStr) (ts : List PyStr)
    (ht : t ≠ [] ∧ ∀ c ∈ t, isSpaceC c = false)
    (hts : ∀ u ∈ ts, u ≠ [] ∧ ∀ c ∈ u, isSpaceC c = false) :
    pyStrip (pyJoin [' '] ((t :: ts).map (padTo 8))) = t ++ joinTail ts := by
  rw [pyJoin_pad_eq]
  show pyStrip (padTo 8 t ++ joinTail ts) = t ++ joinTail ts
  unfold padTo
  rw [List.append_assoc]
  obtain ⟨d, hd, hdn⟩ := payload_last t ts ht hts
  obtain ⟨c, hc⟩ : ∃ c, t.head? = some c := by
    cases t with
    | nil => exact absurd rfl ht.1
    | cons a b => exact ⟨a, rfl⟩
  have hcn : isSpaceC c = false := by
    apply ht.2
    cases t with
    | nil => simp at hc
    | cons a b =>
      simp only [List.head?_cons, Option.some_inj] at hc
      exact hc ▸ List.mem_cons_self a b
  exact pyStrip_pad _ _ c d (by rw [head?_append_left ht.1]; exact hc) hcn hd hdn

/-- Newline-freeness of a serialised string. -/
def NoNL (s : PyStr) : Prop := '\n' ∉ s

theorem noNL_payload (t : PyStr) (ts : List PyStr)
    (ht : ∀ c ∈ t, isSpaceC c = false)
    (hts : ∀ u ∈ ts, ∀ c ∈ u, isSpaceC c = false) :
    NoNL (t ++ joinTail ts) := by
  induction ts generalizing t with
  | nil =>
    intro hmem
    rw [show joinTail [] = [] from rfl, List.append_nil] at hmem
    exact absurd (ht _ hmem) (by simp [isSpaceC])
  | cons u us ih =>
    intro hmem
    rw [show joinTail (u :: us) = ' ' :: (padTo 8 u ++ joinTail us) from rfl] at hmem
    rcases List.mem_append.mp hmem with hm | hm
    · exact absurd (ht _ hm) (by simp [isSpaceC])
    · rcases List.mem_cons.mp hm with hnl | hm2
      · simp at hnl
      · unfold padTo at hm2
        rw [List.append_assoc] at hm2
        rcases List.mem_append.mp hm2 with hm3 | hm3
        · exact absurd (List.eq_of_mem_replicate hm3) (by decide)
        · exact ih u (fun c hc => hts u (List.mem_cons_self u us) c hc)
            (fun v hv c hc => hts v (List.mem_cons_of_mem u hv) c hc) hm3

theorem noNL_contentLine (t : PyStr) (ts : List PyStr)
    (ht : ∀ c ∈ t, isSpaceC c = false)
    (hts : ∀ u ∈ ts, ∀ c ∈ u, isSpaceC c = false) :
    NoNL (pyJoin [' '] ((t :: ts).map (padTo 8))) := by
  rw [pyJoin_pad_eq]
  show NoNL (padTo 8 t ++ joinTail ts)
  intro hmem
  unfold padTo at hmem
  rw [List.append_assoc] at hmem
  rcases List.mem_append.mp hmem with hm | hm
  · exact absurd (List.eq_of_mem_replicate hm) (by decide)
  · exact noNL_payload t ts ht hts hm

theorem splitOnC_single {s : PyStr} (h : NoNL s) : splitOnC '\n' s = [s] :=
  splitOnC_no_sep '\n' s h

theorem pyIdx_spec {α : Type} (pre : List α) (x : α) (post : List α) (i : Int)
    (hi : i = (pre.length : Int)) :
    pyIdx (pre ++ x :: post) i = .ok x := by
  subst hi
  unfold pyIdx
  dsimp only
  have hj : (if (pre.length : Int) < 0
      then ((pre ++ x :: post).length : Int) + pre.length else (pre.length : Int))
      = (pre.length : Int) := if_neg (by omega)
  rw [hj, if_pos (by omega)]
  have htn : ((pre.length : Int)).toNat = pre.length := by omega
  rw [htn]
  have hget : (pre ++ x :: post).get? pre.length = some x := by
    rw [List.get?_eq_getElem?, List.getElem?_append_right (Nat.le_refl _)]
    simp
  rw [hget]

theorem pySlice_spec {α : Type} (pre mid post : List α) (a b : Int)
    (ha : a = (pre.length : Int)) (hb : b = (pre.length : Int) + mid.length) :
    pySlice (pre ++ mid ++ post) a b = mid := by
  subst ha hb
  unfold pySlice
  dsimp only
  have hlen : (((pre ++ mid ++ post).length : Int)) = pre.length + mid.length + post.length := by
    simp
    omega
  rw [if_neg (by omega), if_neg (by omega)]
  have h1 : min ((pre.length : Int)) ((pre ++ mid ++ post).length : Int) = (pre.length : Int) := by
    rw [hlen]; omega
  have h2 : min ((pre.length : Int) + mid.length) ((pre ++ mid ++ post).length : Int)
      = (pre.length : Int) + mid.length := by
    rw [hlen]; omega
  rw [h1, h2]
  have h3 : ((pre.length : Int)).toNat = pre.length := by omega
  have h4 : (((pre.length : Int) + mid.length)).toNat = pre.length + mid.length := by omega
  rw [h3, h4, List.append_assoc, List.drop_left]
  have h5 : pre.length + mid.length - pre.length = mid.length := by omega
  rw [h5, List.take_left]

theorem digit_not_space {c : Char} (h : isDigitC c = true) : isSpaceC c = false := by
  by_contra hs
  have hs2 : isSpaceC c = true := by
    cases hh : isSpaceC c
    · exact absurd hh hs
    · rfl
  unfold isSpaceC at hs2
  simp only [Bool.or_eq_true, decide_eq_true_eq] at hs2
  rcases hs2 with ((((rfl | rfl) | rfl) | rfl) | rfl) | rfl <;> exact absurd h (by decide)

theorem digit_ne_of_not_digit {c x : Char} (h : isDigitC c = true)
    (hx : isDigitC x = false) : c ≠ x := by
  intro hcx
  rw [hcx, hx] at h
  exact absurd h (by simp)

theorem startsW_hash_false {s : PyStr} (h : s.head? ≠ some '#') :
    startsW (pystr "#") s = false := by
  cases s with
  | nil => rfl
  | cons c r =>
    show (decide ('#' = c) && startsW [] r) = false
    have hne : ¬ ('#' = c) := by
      intro hh
      subst hh
      exact h rfl
    simp [hne]

theorem startsW_hash_true {s : PyStr} (h : s.head? = some '#') :
    startsW (pystr "#") s = true := by
  cases s with
  | nil => simp at h
  | cons c r =>
    simp only [List.head?_cons, Option.some_inj] at h
    subst h
    rfl

/-- String tokens of the non-`None` values of a record, as serialised
onto one content line. -/
def lineToks (vals : List PyVal) : List PyStr :=
  (vals.filter (fun v => v ≠ PyVal.pynone)).map pyValStr

theorem entryContentOf_eq (vals : List PyVal) :
    ONCV.entryContentOf vals = pyJoin [' '] ((lineToks vals).map (padTo 8)) := by
  unfold ONCV.entryContentOf lineToks
  rw [List.map_map]
  rfl

theorem contentLine_facts (vals : List PyVal)
    (hne : vals.filter (fun v => v ≠ PyVal.pynone) ≠ [])
    (hok : ∀ v ∈ vals.filter (fun v => v ≠ PyVal.pynone), TokenOK v) :
    NoNL (ONCV.entryContentOf vals) ∧
    startsW (pystr "#") (pyStrip (ONCV.entryContentOf vals)) = false ∧
    (splitWS (pyStrip (ONCV.entryContentOf vals))).map sanitise
      = vals.filter (fun v => v ≠ PyVal.pynone) := by
  rw [entryContentOf_eq]
  rcases hlt : lineToks vals with _ | ⟨t, ts⟩
  · unfold lineToks at hlt
    rw [List.map_eq_nil_iff] at hlt
    exact absurd hlt hne
  · have htoks : ∀ u ∈ lineToks vals, u ≠ [] ∧ ∀ c ∈ u, isSpaceC c = false := by
      intro u hu
      unfold lineToks at hu
      obtain ⟨v, hv, rfl⟩ := List.mem_map.mp hu
      exact ⟨(hok v hv).2.1, (hok v hv).2.2.1⟩
    have ht : t ≠ [] ∧ ∀ c ∈ t, isSpaceC c = false :=
      htoks t (hlt ▸ List.mem_cons_self t ts)
    have hts : ∀ u ∈ ts, u ≠ [] ∧ ∀ c ∈ u, isSpaceC c = false := by
      intro u hu
      exact htoks u (hlt ▸ List.mem_cons_of_mem t hu)
    refine ⟨noNL_contentLine t ts ht.2 (fun u hu c hc => (hts u hu).2 c hc), ?_, ?_⟩
    · rw [stripContentLine t ts ht hts]
      apply startsW_hash_false
      rw [head?_append_left ht.1]
      have hmem : t ∈ lineToks vals := hlt ▸ List.mem_cons_self t ts
      unfold lineToks at hmem
      obtain ⟨v, hv, heq⟩ := List.mem_map.mp hmem
      rw [← heq]
      exact (hok v hv).2.2.2
    · rw [stripContentLine t ts ht hts, splitWS_payload t ts ht hts, ← hlt]
      unfold lineToks
      rw [List.map_map]
      have : ∀ v ∈ vals.filter (fun v => v ≠ PyVal.pynone),
          (sanitise ∘ pyValStr) v = v := by
        intro v hv
        exact (hok v hv).1
      calc (vals.filter (fun v => v ≠ PyVal.pynone)).map (sanitise ∘ pyValStr)
          = (vals.filter (fun v => v ≠ PyVal.pynone)).map id := List.map_congr_left this
        _ = _ := List.map_id _

theorem intStr_nonneg (z : Int) (hz : 0 ≤ z) : intStr z = natDigits z.toNat := by
  unfold intStr
  rw [if_neg (by omega)]
  congr 1
  omega

theorem natDigits_facts (n : Nat) :
    natDigits n ≠ [] ∧ (∀ c ∈ natDigits n, isSpaceC c = false) ∧
    (∀ c ∈ natDigits n, isDigitC c = true) := by
  refine ⟨natDigits_ne_nil n, ?_, natDigits_all_digits n⟩
  intro c hc
  exact digit_not_space (natDigits_all_digits n c hc)

theorem pyStrip_eq_self_of (s : PyStr) (hne : s ≠ [])
    (hns : ∀ c ∈ s, isSpaceC c = false) : pyStrip s = s := by
  have := pyStrip_pad 0 s (s.head hne) (s.getLast hne) ?_ ?_ ?_ ?_
  · simpa using this
  · rw [List.head?_eq_head]
  · exact hns _ (List.head_mem hne)
  · exact List.getLast?_eq_getLast s hne
  · exact hns _ (List.getLast_mem hne)

theorem intLine_facts (z : Int) (hz : 0 ≤ z) :
    NoNL (padTo 8 (intStr z)) ∧
    startsW (pystr "#") (pyStrip (padTo 8 (intStr z))) = false ∧
    pyIntParse (pyStrip (padTo 8 (intStr z))) = .ok z := by
  rw [intStr_nonneg z hz]
  obtain ⟨hne, hns, hdig⟩ := natDigits_facts z.toNat
  have hstrip : pyStrip (padTo 8 (natDigits z.toNat)) = natDigits z.toNat := by
    unfold padTo
    exact pyStrip_pad _ _ _ _ (List.head?_eq_head hne)
      (hns _ (List.head_mem hne)) (List.getLast?_eq_getLast _ hne)
      (hns _ (List.getLast_mem hne))
  refine ⟨?_, ?_, ?_⟩
  · intro hmem
    unfold padTo at hmem
    rcases List.mem_append.mp hmem with hm | hm
    · exact absurd (List.eq_of_mem_replicate hm) (by decide)
    · exact absurd (hns _ hm) (by simp [isSpaceC])
  · rw [hstrip]
    apply startsW_hash_false
    intro hh
    have : '#' ∈ natDigits z.toNat := by
      cases hcase : natDigits z.toNat with
      | nil => exact absurd hcase hne
      | cons a b =>
        rw [hcase] at hh
        simp only [List.head?_cons, Option.some_inj] at hh
        rw [hh]
        exact List.mem_cons_self _ _
    exact absurd (hdig _ this) (by decide)
  · rw [hstrip]
    unfold pyIntParse
    rw [pyStrip_eq_self_of _ hne hns]
    rcases hcase : natDigits z.toNat with _ | ⟨c, cs⟩
    · exact absurd hcase hne
    · have hcd : isDigitC c = true := by
        apply hdig
        rw [hcase]
        exact List.mem_cons_self c cs
      have hc1 : ¬ (c = '-') := digit_ne_of_not_digit hcd (by decide)
      have hc2 : ¬ (c = '+') := digit_ne_of_not_digit hcd (by decide)
      have hall : (c :: cs).all isDigitC = true := by
        rw [← hcase, List.all_eq_true]
        exact hdig
      dsimp only
      rw [if_neg hc1, if_neg hc2, if_pos ⟨List.cons_ne_nil c cs, hall⟩,
        ← hcase, natOfDigits_natDigits]
      have hzz : ((z.toNat : Int)) = z := Int.toNat_of_nonneg hz
      simp [hzz]

/-- Strip and comment-filter, as `from_str` preprocesses its line list. -/
def stripFilter (ls : List PyStr) : List PyStr :=
  (ls.map pyStrip).filter (fun l => ¬ startsW (pystr "#") l)

theorem stripFilter_append (a b : List PyStr) :
    stripFilter (a ++ b) = stripFilter a ++ stripFilter b := by
  simp [stripFilter]

theorem flatten_map_single {α β : Type} (f : α → β) (l : List α) :
    (l.map (fun x => [f x])).flatten = l.map f := by
  induction l with
  | nil => rfl
  | cons a t ih => simp [ih]

theorem stripFilter_flatten (ls : List (List PyStr)) :
    stripFilter ls.flatten = (ls.map stripFilter).flatten := by
  induction ls with
  | nil => rfl
  | cons a t ih => rw [List.flatten_cons, stripFilter_append, ih, List.map_cons,
      List.flatten_cons]

theorem sf_comment {l : PyStr} (h : startsW (pystr "#") (pyStrip l) = true) :
    stripFilter [l] = [] := by
  simp [stripFilter, h]

theorem sf_keep {l : PyStr} (h : startsW (pystr "#") (pyStrip l) = false) :
    stripFilter [l] = [pyStrip l] := by
  simp [stripFilter, h]

/-- Strip-and-filter of the line decomposition of one serialised string. -/
def sfl (s : PyStr) : List PyStr := stripFilter (splitOnC '\n' s)

theorem sfl_join (parts : List PyStr) (hne : parts ≠ []) :
    sfl (pyJoin ['\n'] parts) = (parts.map sfl).flatten := by
  unfold sfl
  rw [splitOnC_join '\n' parts hne, stripFilter_flatten, List.map_map]
  rfl

namespace ONCV

/-- All scalar fields of one record survive the serialise/re-parse
cycle. -/
def EntryOK (vals : List PyVal) : Prop := ∀ v ∈ vals, TokenOK v

instance (vals : List PyVal) : Decidable (EntryOK vals) := by
  unfold EntryOK
  infer_instance

theorem tokenOK_not_pynone : ¬ TokenOK PyVal.pynone := by decide

theorem filter_eq_of_entryOK {vals : List PyVal} (h : EntryOK vals) :
    vals.filter (fun v => v ≠ PyVal.pynone) = vals := by
  rw [List.filter_eq_self]
  intro v hv
  have := h v hv
  simp only [ne_eq, decide_not, Bool.not_eq_eq_eq_not, Bool.not_true,
    decide_eq_false_iff_not]
  intro hpy
  rw [hpy] at this
  exact tokenOK_not_pynone this

/-- Stripped content line of a record. -/
def cLine (vals : List PyVal) : PyStr := pyStrip (entryContentOf vals)

/-- Stripped eight-wide integer line. -/
def iLine (z : Int) : PyStr := pyStrip (padTo 8 (intStr z))

theorem entryOK_facts (vals : List PyVal) (h : EntryOK vals) (hne : vals ≠ []) :
    NoNL (entryContentOf vals) ∧
    startsW (pystr "#") (cLine vals) = false ∧
    (splitWS (cLine vals)).map sanitise = vals := by
  have hfil := filter_eq_of_entryOK h
  have hfne : vals.filter (fun v => v ≠ PyVal.pynone) ≠ [] := by
    rw [hfil]; exact hne
  have hok : ∀ v ∈ vals.filter (fun v => v ≠ PyVal.pynone), TokenOK v := by
    intro v hv
    rw [hfil] at hv
    exact h v hv
  obtain ⟨h1, h2, h3⟩ := contentLine_facts vals hfne hok
  exact ⟨h1, h2, by rw [show cLine vals = pyStrip (entryContentOf vals) from rfl, h3, hfil]⟩

theorem sfl_entryToStr (keys : List PyStr) (vals : List PyVal)
    (hkeys : NoNL (entryColumns keys))
    (hkc : startsW (pystr "#") (pyStrip (entryColumns keys)) = true)
    (h : EntryOK vals) (hne : vals ≠ []) :
    sfl (entryToStr keys vals) = [cLine vals] := by
  obtain ⟨h1, h2, _⟩ := entryOK_facts vals h hne
  unfold sfl entryToStr
  rw [splitOnC_sep, splitOnC_single hkeys, splitOnC_single h1]
  show stripFilter ([entryColumns keys] ++ [entryContentOf vals]) = _
  rw [stripFilter_append, sf_comment hkc, sf_keep h2]
  rfl

theorem sfl_intLine (z : Int) (hz : 0 ≤ z) :
    sfl (padTo 8 (intStr z)) = [iLine z] := by
  obtain ⟨h1, h2, _⟩ := intLine_facts z hz
  unfold sfl
  rw [splitOnC_single h1, sf_keep h2]
  rfl

theorem sfl_listToStr {α : Type} (keys : List PyStr) (vals : α → List PyVal)
    (data : List α) (hd : data ≠ [])
    (hkeys : NoNL (entryColumns keys))
    (hkc : startsW (pystr "#") (pyStrip (entryColumns keys)) = true)
    (h : ∀ d ∈ data, EntryOK (vals d) ∧ vals d ≠ []) :
    sfl (listToStr keys vals data) = data.map (fun d => cLine (vals d)) := by
  unfold sfl listToStr
  rcases data with _ | ⟨d0, ds⟩
  · exact absurd rfl hd
  · rw [splitOnC_sep, splitOnC_single hkeys]
    have hsingle : ∀ x ∈ (d0 :: ds).map (fun d => entryContentOf (vals d)), NoNL x := by
      intro x hx
      obtain ⟨d, hdm, rfl⟩ := List.mem_map.mp hx
      exact (entryOK_facts (vals d) (h d hdm).1 (h d hdm).2).1
    rw [splitOnC_join '\n' _ (by simp)]
    have hmapsingle : ((d0 :: ds).map (fun d => entryContentOf (vals d))).map (splitOnC '\n')
        = ((d0 :: ds).map (fun d => [entryContentOf (vals d)])) := by
      rw [List.map_map]
      apply List.map_congr_left
      intro d hdm
      exact splitOnC_single (hsingle _ (List.mem_map.mpr ⟨d, hdm, rfl⟩))
    rw [hmapsingle]
    show stripFilter ([entryColumns keys] ++ _) = _
    rw [stripFilter_append, sf_comment hkc, List.nil_append, stripFilter_flatten]
    rw [List.map_map]
    have : ∀ d ∈ d0 :: ds,
        (stripFilter ∘ fun d => [entryContentOf (vals d)]) d = [cLine (vals d)] := by
      intro d hdm
      show stripFilter [entryContentOf (vals d)] = _
      rw [sf_keep (entryOK_facts (vals d) (h d hdm).1 (h d hdm).2).2.1]
      rfl
    rw [List.map_congr_left this]
    exact flatten_map_single _ _


end ONCV

instance (s : PyStr) : Decidable (NoNL s) := by
  unfold NoNL
  infer_instance

namespace ONCV

/-- Content lines contributed by one serialised test configuration: its
count line followed by its subshell rows. -/
def tcChunk (tc : List ONCVConfigurationSubshell) : List PyStr :=
  iLine (tc.length : Int) :: tc.map (fun s => cLine (subVals s))

/-- Content lines contributed by the serialised test-configurations
section after the `ncnf` line (two blank lines when there are none). -/
def tcsTail (tcs : List (List ONCVConfigurationSubshell)) : List PyStr :=
  if tcs = [] then [[], []] else (tcs.map tcChunk).flatten

theorem sf_contentRows (tc : List ONCVConfigurationSubshell)
    (htcok : ∀ s ∈ tc, EntryOK (subVals s)) :
    stripFilter (tc.map (fun s => entryContentOf (subVals s)))
      = tc.map (fun s => cLine (subVals s)) := by
  unfold stripFilter
  rw [List.map_map]
  have hkeep : ∀ l ∈ tc.map (pyStrip ∘ fun s => entryContentOf (subVals s)),
      (¬ startsW (pystr "#") l : Bool) = true := by
    intro l hl
    obtain ⟨s, hs, rfl⟩ := List.mem_map.mp hl
    show (¬ startsW (pystr "#") (cLine (subVals s)) : Bool) = true
    rw [(entryOK_facts (subVals s) (htcok s hs) (by simp [subVals])).2.1]
    rfl
  rw [List.filter_eq_self.mpr hkeep]
  rfl

theorem sfl_testInner (tc : List ONCVConfigurationSubshell) (htcne : tc ≠ [])
    (htcok : ∀ s ∈ tc, EntryOK (subVals s)) :
    sfl (testInnerContent tc) = tcChunk tc := by
  unfold sfl testInnerContent
  rw [splitOnC_sep, splitOnC_single (intLine_facts (tc.length : Int) (by omega)).1]
  have hmne : tc.map (fun s => entryContentOf (subVals s)) ≠ [] := by
    simp [htcne]
  rw [splitOnC_join '\n' _ hmne]
  have hsgl : (tc.map (fun s => entryContentOf (subVals s))).map (splitOnC '\n')
      = tc.map (fun s => [entryContentOf (subVals s)]) := by
    rw [List.map_map]
    apply List.map_congr_left
    intro s hs
    exact splitOnC_single (entryOK_facts (subVals s) (htcok s hs) (by simp [subVals])).1
  rw [hsgl, flatten_map_single, List.singleton_append, show
    (padTo 8 (intStr (tc.length : Int)) :: tc.map (fun s => entryContentOf (subVals s)))
      = [padTo 8 (intStr (tc.length : Int))] ++ tc.map (fun s => entryContentOf (subVals s))
    from rfl, stripFilter_append,
    sf_keep (intLine_facts (tc.length : Int) (by omega)).2.1, sf_contentRows tc htcok]
  rfl

theorem sfl_testOuter (tcs : List (List ONCVConfigurationSubshell))
    (hrows : ∀ tc ∈ tcs, tc ≠ [] ∧ ∀ s ∈ tc, EntryOK (subVals s)) :
    sfl (testOuterToStr tcs) = tcsTail tcs := by
  rcases tcs with _ | ⟨c, rest⟩
  · decide
  · have hc := hrows c (List.mem_cons_self c rest)
    have houter : testOuterToStr (c :: rest)
        = entryColumns subKeys ++ '\n' :: pyJoin ['\n'] ((c :: rest).map testInnerContent) := by
      unfold testOuterToStr
      rcases hcc : c with _ | ⟨s0, ss⟩
      · exact absurd rfl (hcc ▸ hc).1
      · rfl
    rw [houter]
    unfold sfl
    rw [splitOnC_sep, splitOnC_single (by decide : NoNL (entryColumns subKeys))]
    show stripFilter ([entryColumns subKeys] ++ _) = _
    rw [stripFilter_append, sf_comment (by decide), List.nil_append]
    show sfl (pyJoin ['\n'] ((c :: rest).map testInnerContent)) = _
    rw [sfl_join _ (by simp), List.map_map]
    have hchunks : ∀ tc ∈ c :: rest, (sfl ∘ testInnerContent) tc = tcChunk tc := by
      intro tc htcm
      exact sfl_testInner tc (hrows tc htcm).1 (hrows tc htcm).2
    rw [List.map_congr_left hchunks]
    unfold tcsTail
    rw [if_neg (List.cons_ne_nil c rest)]

theorem tokenOK_ne_pynone {v : PyVal} (h : TokenOK v) : v ≠ PyVal.pynone := by
  intro hv
  rw [hv] at h
  exact tokenOK_not_pynone h

/-- The positional arguments that the model-core-charge content line
carries (the optional `rcfact` is dropped when it is `None`). -/
def mccArgs (o : ONCVModelCoreCharge) : List PyVal :=
  match o.rcfact with
  | none => [o.icmod, o.fcfact]
  | some v => [o.icmod, o.fcfact, v]

theorem mcc_filter (o : ONCVModelCoreCharge) (h1 : TokenOK o.icmod)
    (h2 : TokenOK o.fcfact) (h3 : ∀ v, o.rcfact = some v → TokenOK v) :
    (mccVals o).filter (fun v => v ≠ PyVal.pynone) = mccArgs o := by
  unfold mccVals mccArgs
  rcases hrc : o.rcfact with _ | v
  · simp [List.filter, tokenOK_ne_pynone h1, tokenOK_ne_pynone h2]
  · simp [List.filter, tokenOK_ne_pynone h1, tokenOK_ne_pynone h2,
      tokenOK_ne_pynone (h3 v hrc)]

theorem mcc_facts (o : ONCVModelCoreCharge) (h1 : TokenOK o.icmod)
    (h2 : TokenOK o.fcfact) (h3 : ∀ v, o.rcfact = some v → TokenOK v) :
    NoNL (entryContentOf (mccVals o)) ∧
    startsW (pystr "#") (cLine (mccVals o)) = false ∧
    (splitWS (cLine (mccVals o))).map sanitise = mccArgs o := by
  have hfil := mcc_filter o h1 h2 h3
  have hfne : (mccVals o).filter (fun v => v ≠ PyVal.pynone) ≠ [] := by
    rw [hfil]
    unfold mccArgs
    rcases o.rcfact with _ | v <;> simp
  have hok : ∀ v ∈ (mccVals o).filter (fun v => v ≠ PyVal.pynone), TokenOK v := by
    rw [hfil]
    unfold mccArgs
    rcases hrc : o.rcfact with _ | v
    · intro v hv
      rcases List.mem_cons.mp hv with rfl | hv2
      · exact h1
      · rcases List.mem_cons.mp hv2 with rfl | hv3
        · exact h2
        · simp at hv3
    · intro w hw
      rcases List.mem_cons.mp hw with rfl | hw2
      · exact h1
      · rcases List.mem_cons.mp hw2 with rfl | hw3
        · exact h2
        · rcases List.mem_cons.mp hw3 with rfl | hw4
          · exact h3 w hrc
          · simp at hw4
  obtain ⟨hh1, hh2, hh3⟩ := contentLine_facts (mccVals o) hfne hok
  exact ⟨hh1, hh2, by rw [show cLine (mccVals o) = pyStrip (entryContentOf (mccVals o)) from rfl,
    hh3, hfil]⟩

theorem sfl_entryToStr_of (keys : List PyStr) (vals : List PyVal)
    (hkeys : NoNL (entryColumns keys))
    (hkc : startsW (pystr "#") (pyStrip (entryColumns keys)) = true)
    (hno : NoNL (entryContentOf vals))
    (hsw : startsW (pystr "#") (cLine vals) = false) :
    sfl (entryToStr keys vals) = [cLine vals] := by
  unfold sfl entryToStr
  rw [splitOnC_sep, splitOnC_single hkeys, splitOnC_single hno]
  show stripFilter ([entryColumns keys] ++ [entryContentOf vals]) = _
  rw [stripFilter_append, sf_comment hkc, sf_keep hsw]
  rfl

/-- Content lines (stripped, comments removed) of a serialised
well-formed `ONCVInput`. -/
def contentOf (P : ONCVInput) : List PyStr :=
  cLine (atomVals P.atom)
    :: (P.reference_configuration.map (fun s => cLine (subVals s))
    ++ (iLine P.lmax
    :: (P.optimization.map (fun o => cLine (optVals o))
    ++ (cLine (lpVals P.local_potential)
    :: (P.vkb_projectors.map (fun o => cLine (vkbVals o))
    ++ (cLine (mccVals P.model_core_charge)
    :: cLine (ldaVals P.log_derivative_analysis)
    :: cLine (ogVals P.output_grid)
    :: iLine (P.test_configurations.length : Int)
    :: tcsTail P.test_configurations))))))

/-- Round-trip condition on the optional `rcfact` field. -/
def RcOK (rc : Option PyVal) : Prop :=
  match rc with
  | none => True
  | some v => TokenOK v

instance (rc : Option PyVal) : Decidable (RcOK rc) :=
  match rc with
  | none => .isTrue trivial
  | some v => (inferInstance : Decidable (TokenOK v))

theorem rcOK_spec {rc : Option PyVal} (h : RcOK rc) :
    ∀ v, rc = some v → TokenOK v := by
  intro v hv
  rw [hv] at h
  exact h

theorem sfl_to_str (P : ONCVInput)
    (hrefne : P.reference_configuration ≠ [])
    (hlm : 0 ≤ P.lmax)
    (hoptne : P.optimization ≠ [])
    (hvkbne : P.vkb_projectors ≠ [])
    (hatomOK : EntryOK (atomVals P.atom))
    (hrefOK : ∀ s ∈ P.reference_configuration, EntryOK (subVals s))
    (hoptOK : ∀ o ∈ P.optimization, EntryOK (optVals o))
    (hlpOK : EntryOK (lpVals P.local_potential))
    (hvkbOK : ∀ o ∈ P.vkb_projectors, EntryOK (vkbVals o))
    (hmcc1 : TokenOK P.model_core_charge.icmod)
    (hmcc2 : TokenOK P.model_core_charge.fcfact)
    (hmcc3 : RcOK P.model_core_charge.rcfact)
    (hldaOK : EntryOK (ldaVals P.log_derivative_analysis))
    (hogOK : EntryOK (ogVals P.output_grid))
    (htcne : ∀ tc ∈ P.test_configurations, tc ≠ [])
    (htcOK : ∀ tc ∈ P.test_configurations, ∀ s ∈ tc, EntryOK (subVals s)) :
    sfl (to_str P) = contentOf P := by
  have hA : sfl (entryToStr atomKeys (atomVals P.atom)) = [cLine (atomVals P.atom)] :=
    sfl_entryToStr atomKeys _ (by decide) (by decide) hatomOK (by simp [atomVals])
  have hRefL : sfl (listToStr subKeys subVals P.reference_configuration)
      = P.reference_configuration.map (fun s => cLine (subVals s)) :=
    sfl_listToStr subKeys subVals _ hrefne (by decide) (by decide)
      (fun d hd => ⟨hrefOK d hd, by simp [subVals]⟩)
  have hLmax : sfl (padTo 8 (intStr P.lmax)) = [iLine P.lmax] := sfl_intLine _ hlm
  have hOpt : sfl (listToStr optKeys optVals P.optimization)
      = P.optimization.map (fun o => cLine (optVals o)) :=
    sfl_listToStr optKeys optVals _ hoptne (by decide) (by decide)
      (fun d hd => ⟨hoptOK d hd, by simp [optVals]⟩)
  have hLP : sfl (entryToStr lpKeys (lpVals P.local_potential))
      = [cLine (lpVals P.local_potential)] :=
    sfl_entryToStr lpKeys _ (by decide) (by decide) hlpOK (by simp [lpVals])
  have hVkb : sfl (listToStr vkbKeys vkbVals P.vkb_projectors)
      = P.vkb_projectors.map (fun o => cLine (vkbVals o)) :=
    sfl_listToStr vkbKeys vkbVals _ hvkbne (by decide) (by decide)
      (fun d hd => ⟨hvkbOK d hd, by simp [vkbVals]⟩)
  have hmf := mcc_facts P.model_core_charge hmcc1 hmcc2 (rcOK_spec hmcc3)
  have hMcc : sfl (entryToStr mccKeys (mccVals P.model_core_charge))
      = [cLine (mccVals P.model_core_charge)] :=
    sfl_entryToStr_of mccKeys _ (by decide) (by decide) hmf.1 hmf.2.1
  have hLda : sfl (entryToStr ldaKeys (ldaVals P.log_derivative_analysis))
      = [cLine (ldaVals P.log_derivative_analysis)] :=
    sfl_entryToStr ldaKeys _ (by decide) (by decide) hldaOK (by simp [ldaVals])
  have hOg : sfl (entryToStr ogKeys (ogVals P.output_grid))
      = [cLine (ogVals P.output_grid)] :=
    sfl_entryToStr ogKeys _ (by decide) (by decide) hogOK (by simp [ogVals])
  have hNcnf : sfl (padTo 8 (intStr (P.test_configurations.length : Int)))
      = [iLine (P.test_configurations.length : Int)] := sfl_intLine _ (by omega)
  have hTc : sfl (testOuterToStr P.test_configurations) = tcsTail P.test_configurations :=
    sfl_testOuter _ (fun tc htc => ⟨htcne tc htc, htcOK tc htc⟩)
  unfold to_str
  rw [sfl_join _ (by simp)]
  simp only [List.map_cons, List.map_nil]
  rw [hA, hRefL, hLmax, hOpt, hLP, hVkb, hMcc, hLda, hOg, hNcnf, hTc]
  rw [show sfl (pystr "# ATOM AND REFERENCE CONFIGURATION") = [] from by decide,
    show sfl (pystr "# PSEUDOPOTENTIAL AND OPTIMIZATION") = [] from by decide,
    show sfl (pystr "#   lmax") = [] from by decide,
    show sfl (pystr "# LOCAL POTENTIAL") = [] from by decide,
    show sfl (pystr "# VANDERBILT-KLEINMAN-BYLANDER PROJECTORS") = [] from by decide,
    show sfl (pystr "# MODEL CORE CHARGE") = [] from by decide,
    show sfl (pystr "# LOG DERIVATIVE ANALYSIS") = [] from by decide,
    show sfl (pystr "# OUTPUT GRID") = [] from by decide,
    show sfl (pystr "# TEST CONFIGURATIONS") = [] from by decide,
    show sfl (pystr "# ncnf") = [] from by decide]
  simp only [List.flatten_cons, List.flatten_nil, List.nil_append,
    List.singleton_append, List.append_nil, List.append_assoc]
  unfold contentOf
  rfl

end ONCV

theorem ok_bind {α β : Type} (a : α) (f : α → Except Err β) :
    (Except.ok a : Except Err α) >>= f = f a := rfl

theorem pyIdx_cons_zero {α : Type} (x : α) (post : List α) :
    pyIdx (x :: post) 0 = .ok x :=
  pyIdx_spec [] x post 0 rfl

theorem mapExcept_rt {α : Type} (f : PyStr → Except Err α) (g : α → PyStr)
    (xs : List α) (h : ∀ x ∈ xs, f (g x) = .ok x) :
    mapExcept f (xs.map g) = .ok xs := by
  induction xs with
  | nil => rfl
  | cons x t ih =>
    rw [List.map_cons]
    show (f (g x) >>= fun y => mapExcept f (t.map g) >>= fun ys => .ok (y :: ys)) = _
    rw [h x (List.mem_cons_self x t), ok_bind,
      ih (fun y hy => h y (List.mem_cons_of_mem x hy)), ok_bind]

namespace ONCV

theorem mkAtom_vals (a : ONCVAtom) : mkAtom (atomVals a) = .ok a := rfl

theorem mkSubshell_vals (s : ONCVConfigurationSubshell) :
    mkSubshell (subVals s) = .ok s := rfl

theorem mkOptimization_vals (o : ONCVOptimizationChannel) :
    mkOptimization (optVals o) = .ok o := rfl

theorem mkLocalPotential_vals (o : ONCVLocalPotential) :
    mkLocalPotential (lpVals o) = .ok o := rfl

theorem mkVKB_vals (o : ONCVVKBProjector) : mkVKB (vkbVals o) = .ok o := rfl

theorem mkLDA_vals (o : ONCVLogDerivativeAnalysis) : mkLDA (ldaVals o) = .ok o := rfl

theorem mkOutputGrid_vals (o : ONCVOutputGrid) : mkOutputGrid (ogVals o) = .ok o := rfl

theorem mkMCC_args (o : ONCVModelCoreCharge) : mkMCC (mccArgs o) = .ok o := by
  rcases o with ⟨a, b, rc⟩
  rcases rc with _ | v <;> rfl

/-- Parsing one serialised subshell row: the reference-configuration
variant, which keeps only the first three tokens. -/
theorem subshell_row_rt (s : ONCVConfigurationSubshell) (h : EntryOK (subVals s)) :
    mkSubshell (((splitWS (cLine (subVals s))).take 3).map sanitise) = .ok s := by
  obtain ⟨_, _, h3⟩ := entryOK_facts (subVals s) h (by simp [subVals])
  have hlen : (splitWS (cLine (subVals s))).length = 3 := by
    have := congrArg List.length h3
    simpa [subVals] using this
  rw [List.take_of_length_le (by omega), h3, mkSubshell_vals]

/-- Parsing one serialised subshell row: the test-configuration variant,
which passes every token. -/
theorem subshell_row_rt' (s : ONCVConfigurationSubshell) (h : EntryOK (subVals s)) :
    mkSubshell ((splitWS (cLine (subVals s))).map sanitise) = .ok s := by
  rw [(entryOK_facts (subVals s) h (by simp [subVals])).2.2, mkSubshell_vals]

theorem testLoop_spec (C : List PyStr) (nv0 : Int)
    (tcs : List (List ONCVConfigurationSubshell)) (pre junk : List PyStr)
    (hC : C = pre ++ (tcs.map tcChunk).flatten ++ junk)
    (hlen : ∀ tc ∈ tcs, (tc.length : Int) = nv0)
    (hok : ∀ tc ∈ tcs, ∀ s ∈ tc, EntryOK (subVals s)) :
    ∃ fin, testLoop C (.int nv0) tcs.length (pre.length : Int) = .ok (tcs, fin) := by
  induction tcs generalizing pre with
  | nil => exact ⟨(pre.length : Int), rfl⟩
  | cons tc rest ih =>
    have hrows : pySlice C ((pre.length : Int) + 1) ((pre.length : Int) + 1 + nv0)
        = tc.map (fun s => cLine (subVals s)) := by
      rw [show C = (pre ++ [iLine (tc.length : Int)])
          ++ tc.map (fun s => cLine (subVals s))
          ++ ((rest.map tcChunk).flatten ++ junk) from by
        rw [hC]
        simp [tcChunk, List.append_assoc]]
      apply pySlice_spec
      · simp
      · have := hlen tc (List.mem_cons_self tc rest)
        simp
        omega
    have hpre2 : ((pre ++ [iLine (tc.length : Int)]
        ++ tc.map (fun s => cLine (subVals s))).length : Int)
        = (pre.length : Int) + 1 + nv0 := by
      have := hlen tc (List.mem_cons_self tc rest)
      simp
      omega
    obtain ⟨fin, hfin⟩ := ih (pre ++ [iLine (tc.length : Int)]
        ++ tc.map (fun s => cLine (subVals s)))
      (by rw [hC]; simp [tcChunk, List.append_assoc])
      (fun t ht => hlen t (List.mem_cons_of_mem tc ht))
      (fun t ht => hok t (List.mem_cons_of_mem tc ht))
    rw [hpre2] at hfin
    refine ⟨fin, ?_⟩
    show (pyValInt (.int nv0) >>= fun nv =>
      mapExcept (fun line => mkSubshell ((splitWS line).map sanitise))
        (pySlice C ((pre.length : Int) + 1) ((pre.length : Int) + 1 + nv)) >>= fun cfg =>
      testLoop C (.int nv0) rest.length ((pre.length : Int) + 1 + nv) >>= fun res =>
      .ok (cfg :: res.1, res.2)) = _
    rw [show pyValInt (.int nv0) = .ok nv0 from rfl, ok_bind, hrows,
      mapExcept_rt _ _ tc
        (fun s hs => subshell_row_rt' s (hok tc (List.mem_cons_self tc rest) s hs)),
      ok_bind, hfin, ok_bind]

theorem parseContent_ok (P : ONCVInput) (nc0 nv0 : Int)
    (hnc : P.atom.nc = .int nc0) (hnv : P.atom.nv = .int nv0)
    (href : (P.reference_configuration.length : Int) = nc0 + nv0)
    (hlm : 0 ≤ P.lmax)
    (hopt : (P.optimization.length : Int) = P.lmax + 1)
    (hvkb : (P.vkb_projectors.length : Int) = P.lmax + 1)
    (htc : ∀ tc ∈ P.test_configurations, (tc.length : Int) = nv0)
    (hatomOK : EntryOK (atomVals P.atom))
    (hrefOK : ∀ s ∈ P.reference_configuration, EntryOK (subVals s))
    (hoptOK : ∀ o ∈ P.optimization, EntryOK (optVals o))
    (hlpOK : EntryOK (lpVals P.local_potential))
    (hvkbOK : ∀ o ∈ P.vkb_projectors, EntryOK (vkbVals o))
    (hmcc1 : TokenOK P.model_core_charge.icmod)
    (hmcc2 : TokenOK P.model_core_charge.fcfact)
    (hmcc3 : RcOK P.model_core_charge.rcfact)
    (hldaOK : EntryOK (ldaVals P.log_derivative_analysis))
    (hogOK : EntryOK (ogVals P.output_grid))
    (htcOK : ∀ tc ∈ P.test_configurations, ∀ s ∈ tc, EntryOK (subVals s)) :
    parseContent (contentOf P) = .ok P := by
  have hmf := mcc_facts P.model_core_charge hmcc1 hmcc2 (rcOK_spec hmcc3)
  have hRlen : ((P.reference_configuration.map (fun s => cLine (subVals s))).length : Int)
      = nc0 + nv0 := by simp [href]
  have hOlen : ((P.optimization.map (fun o => cLine (optVals o))).length : Int)
      = P.lmax + 1 := by simp [hopt]
  have hVlen : ((P.vkb_projectors.map (fun o => cLine (vkbVals o))).length : Int)
      = P.lmax + 1 := by simp [hvkb]
  have h0 : pyIdx (contentOf P) 0 = .ok (cLine (atomVals P.atom)) := by
    unfold contentOf
    exact pyIdx_cons_zero _ _
  have hA : mkAtom ((splitWS (cLine (atomVals P.atom))).map sanitise) = .ok P.atom := by
    rw [(entryOK_facts _ hatomOK (by simp [atomVals])).2.2, mkAtom_vals]
  have hNC : pyValInt P.atom.nc = .ok nc0 := by rw [hnc]; rfl
  have hNV : pyValInt P.atom.nv = .ok nv0 := by rw [hnv]; rfl
  have hRefSl : pySlice (contentOf P) 1 (nc0 + nv0 + 1)
      = P.reference_configuration.map (fun s => cLine (subVals s)) := by
    rw [show contentOf P = [cLine (atomVals P.atom)]
        ++ P.reference_configuration.map (fun s => cLine (subVals s))
        ++ (iLine P.lmax
          :: (P.optimization.map (fun o => cLine (optVals o))
          ++ (cLine (lpVals P.local_potential)
          :: (P.vkb_projectors.map (fun o => cLine (vkbVals o))
          ++ (cLine (mccVals P.model_core_charge)
          :: cLine (ldaVals P.log_derivative_analysis)
          :: cLine (ogVals P.output_grid)
          :: iLine (P.test_configurations.length : Int)
          :: tcsTail P.test_configurations))))) from by
      unfold contentOf
      simp]
    apply pySlice_spec
    · simp
    · simp only [List.length_cons, List.length_append, List.length_map,
        List.length_nil]
      omega
  have hRef : mapExcept (fun line => mkSubshell (((splitWS line).take 3).map sanitise))
      (pySlice (contentOf P) 1 (nc0 + nv0 + 1)) = .ok P.reference_configuration := by
    rw [hRefSl]
    exact mapExcept_rt _ _ _ (fun s hs => subshell_row_rt s (hrefOK s hs))
  have hLM : pyIdx (contentOf P) (nc0 + nv0 + 1) = .ok (iLine P.lmax) := by
    rw [show contentOf P = (cLine (atomVals P.atom)
        :: P.reference_configuration.map (fun s => cLine (subVals s)))
        ++ iLine P.lmax
        :: (P.optimization.map (fun o => cLine (optVals o))
          ++ (cLine (lpVals P.local_potential)
          :: (P.vkb_projectors.map (fun o => cLine (vkbVals o))
          ++ (cLine (mccVals P.model_core_charge)
          :: cLine (ldaVals P.log_derivative_analysis)
          :: cLine (ogVals P.output_grid)
          :: iLine (P.test_configurations.length : Int)
          :: tcsTail P.test_configurations)))) from by
      unfold contentOf
      simp]
    apply pyIdx_spec
    simp only [List.length_cons, List.length_append, List.length_map,
      List.length_nil]
    omega
  have hLMp : pyIntParse (iLine P.lmax) = .ok P.lmax := (intLine_facts P.lmax hlm).2.2
  have hOptSl : pySlice (contentOf P) (nc0 + nv0 + 2) (nc0 + nv0 + 2 + P.lmax + 1)
      = P.optimization.map (fun o => cLine (optVals o)) := by
    rw [show contentOf P = (cLine (atomVals P.atom)
        :: P.reference_configuration.map (fun s => cLine (subVals s)) ++ [iLine P.lmax])
        ++ P.optimization.map (fun o => cLine (optVals o))
        ++ (cLine (lpVals P.local_potential)
          :: (P.vkb_projectors.map (fun o => cLine (vkbVals o))
          ++ (cLine (mccVals P.model_core_charge)
          :: cLine (ldaVals P.log_derivative_analysis)
          :: cLine (ogVals P.output_grid)
          :: iLine (P.test_configurations.length : Int)
          :: tcsTail P.test_configurations))) from by
      unfold contentOf
      simp]
    apply pySlice_spec
    · simp only [List.length_cons, List.length_append, List.length_map,
        List.length_nil]
      omega
    · simp only [List.length_cons, List.length_append, List.length_map,
        List.length_nil]
      omega
  have hOpt : mapExcept (fun line => mkOptimization ((splitWS line).map sanitise))
      (pySlice (contentOf P) (nc0 + nv0 + 2) (nc0 + nv0 + 2 + P.lmax + 1))
      = .ok P.optimization := by
    rw [hOptSl]
    refine mapExcept_rt _ _ _ (fun o ho => ?_)
    rw [(entryOK_facts _ (hoptOK o ho) (by simp [optVals])).2.2, mkOptimization_vals]
  have hLP : pyIdx (contentOf P) (nc0 + nv0 + 2 + P.lmax + 1)
      = .ok (cLine (lpVals P.local_potential)) := by
    rw [show contentOf P = (cLine (atomVals P.atom)
        :: P.reference_configuration.map (fun s => cLine (subVals s))
        ++ iLine P.lmax :: P.optimization.map (fun o => cLine (optVals o)))
        ++ cLine (lpVals P.local_potential)
        :: (P.vkb_projectors.map (fun o => cLine (vkbVals o))
          ++ (cLine (mccVals P.model_core_charge)
          :: cLine (ldaVals P.log_derivative_analysis)
          :: cLine (ogVals P.output_grid)
          :: iLine (P.test_configurations.length : Int)
          :: tcsTail P.test_configurations)) from by
      unfold contentOf
      simp]
    apply pyIdx_spec
    simp only [List.length_cons, List.length_append, List.length_map,
      List.length_nil]
    omega
  have hLPmk : mkLocalPotential ((splitWS (cLine (lpVals P.local_potential))).map sanitise)
      = .ok P.local_potential := by
    rw [(entryOK_facts _ hlpOK (by simp [lpVals])).2.2, mkLocalPotential_vals]
  have hVkbSl : pySlice (contentOf P) (nc0 + nv0 + 2 + P.lmax + 1 + 1)
      (nc0 + nv0 + 2 + P.lmax + 1 + 1 + P.lmax + 1)
      = P.vkb_projectors.map (fun o => cLine (vkbVals o)) := by
    rw [show contentOf P = (cLine (atomVals P.atom)
        :: P.reference_configuration.map (fun s => cLine (subVals s))
        ++ iLine P.lmax :: P.optimization.map (fun o => cLine (optVals o))
        ++ [cLine (lpVals P.local_potential)])
        ++ P.vkb_projectors.map (fun o => cLine (vkbVals o))
        ++ (cLine (mccVals P.model_core_charge)
          :: cLine (ldaVals P.log_derivative_analysis)
          :: cLine (ogVals P.output_grid)
          :: iLine (P.test_configurations.length : Int)
          :: tcsTail P.test_configurations) from by
      unfold contentOf
      simp]
    apply pySlice_spec
    · simp only [List.length_cons, List.length_append, List.length_map,
        List.length_nil]
      omega
    · simp only [List.length_cons, List.length_append, List.length_map,
        List.length_nil]
      omega
  have hVkb : mapExcept (fun line => mkVKB ((splitWS line).map sanitise))
      (pySlice (contentOf P) (nc0 + nv0 + 2 + P.lmax + 1 + 1)
        (nc0 + nv0 + 2 + P.lmax + 1 + 1 + P.lmax + 1))
      = .ok P.vkb_projectors := by
    rw [hVkbSl]
    refine mapExcept_rt _ _ _ (fun o ho => ?_)
    rw [(entryOK_facts _ (hvkbOK o ho) (by simp [vkbVals])).2.2, mkVKB_vals]
  have hPreMcc : contentOf P = (cLine (atomVals P.atom)
      :: P.reference_configuration.map (fun s => cLine (subVals s))
      ++ iLine P.lmax :: P.optimization.map (fun o => cLine (optVals o))
      ++ cLine (lpVals P.local_potential)
      :: P.vkb_projectors.map (fun o => cLine (vkbVals o)))
      ++ cLine (mccVals P.model_core_charge)
      :: cLine (ldaVals P.log_derivative_analysis)
      :: cLine (ogVals P.output_grid)
      :: iLine (P.test_configurations.length : Int)
      :: tcsTail P.test_configurations := by
    unfold contentOf
    simp
  have hMC : pyIdx (contentOf P) (nc0 + nv0 + 2 + P.lmax + 1 + 1 + P.lmax + 1)
      = .ok (cLine (mccVals P.model_core_charge)) := by
    rw [hPreMcc]
    apply pyIdx_spec
    simp only [List.length_cons, List.length_append, List.length_map,
      List.length_nil]
    omega
  have hMCmk : mkMCC ((splitWS (cLine (mccVals P.model_core_charge))).map sanitise)
      = .ok P.model_core_charge := by
    rw [hmf.2.2, mkMCC_args]
  have hLD : pyIdx (contentOf P) (nc0 + nv0 + 2 + P.lmax + 1 + 1 + P.lmax + 1 + 1)
      = .ok (cLine (ldaVals P.log_derivative_analysis)) := by
    rw [show contentOf P = (cLine (atomVals P.atom)
        :: P.reference_configuration.map (fun s => cLine (subVals s))
        ++ iLine P.lmax :: P.optimization.map (fun o => cLine (optVals o))
        ++ cLine (lpVals P.local_potential)
        :: P.vkb_projectors.map (fun o => cLine (vkbVals o))
        ++ [cLine (mccVals P.model_core_charge)])
        ++ cLine (ldaVals P.log_derivative_analysis)
        :: cLine (ogVals P.output_grid)
        :: iLine (P.test_configurations.length : Int)
        :: tcsTail P.test_configurations from by
      unfold contentOf
      simp]
    apply pyIdx_spec
    simp only [List.length_cons, List.length_append, List.length_map,
      List.length_nil]
    omega
  have hLDmk : mkLDA ((splitWS (cLine (ldaVals P.log_derivative_analysis))).map sanitise)
      = .ok P.log_derivative_analysis := by
    rw [(entryOK_facts _ hldaOK (by simp [ldaVals])).2.2, mkLDA_vals]
  have hOG : pyIdx (contentOf P) (nc0 + nv0 + 2 + P.lmax + 1 + 1 + P.lmax + 1 + 1 + 1)
      = .ok (cLine (ogVals P.output_grid)) := by
    rw [show contentOf P = (cLine (atomVals P.atom)
        :: P.reference_configuration.map (fun s => cLine (subVals s))
        ++ iLine P.lmax :: P.optimization.map (fun o => cLine (optVals o))
        ++ cLine (lpVals P.local_potential)
        :: P.vkb_projectors.map (fun o => cLine (vkbVals o))
        ++ [cLine (mccVals P.model_core_charge),
            cLine (ldaVals P.log_derivative_analysis)])
        ++ cLine (ogVals P.output_grid)
        :: iLine (P.test_configurations.length : Int)
        :: tcsTail P.test_configurations from by
      unfold contentOf
      simp]
    apply pyIdx_spec
    simp only [List.length_cons, List.length_append, List.length_map,
      List.length_nil]
    omega
  have hOGmk : mkOutputGrid ((splitWS (cLine (ogVals P.output_grid))).map sanitise)
      = .ok P.output_grid := by
    rw [(entryOK_facts _ hogOK (by simp [ogVals])).2.2, mkOutputGrid_vals]
  have hNCl : pyIdx (contentOf P) (nc0 + nv0 + 2 + P.lmax + 1 + 1 + P.lmax + 1 + 1 + 1 + 1)
      = .ok (iLine (P.test_configurations.length : Int)) := by
    rw [show contentOf P = (cLine (atomVals P.atom)
        :: P.reference_configuration.map (fun s => cLine (subVals s))
        ++ iLine P.lmax :: P.optimization.map (fun o => cLine (optVals o))
        ++ cLine (lpVals P.local_potential)
        :: P.vkb_projectors.map (fun o => cLine (vkbVals o))
        ++ [cLine (mccVals P.model_core_charge),
            cLine (ldaVals P.log_derivative_analysis),
            cLine (ogVals P.output_grid)])
        ++ iLine (P.test_configurations.length : Int)
        :: tcsTail P.test_configurations from by
      unfold contentOf
      simp]
    apply pyIdx_spec
    simp only [List.length_cons, List.length_append, List.length_map,
      List.length_nil]
    omega
  have hNClp : pyIntParse (iLine (P.test_configurations.length : Int))
      = .ok (P.test_configurations.length : Int) :=
    (intLine_facts _ (by omega)).2.2
  obtain ⟨fin, hTL⟩ := testLoop_spec (contentOf P) nv0 P.test_configurations
    (cLine (atomVals P.atom)
      :: P.reference_configuration.map (fun s => cLine (subVals s))
      ++ iLine P.lmax :: P.optimization.map (fun o => cLine (optVals o))
      ++ cLine (lpVals P.local_potential)
      :: P.vkb_projectors.map (fun o => cLine (vkbVals o))
      ++ [cLine (mccVals P.model_core_charge),
          cLine (ldaVals P.log_derivative_analysis),
          cLine (ogVals P.output_grid),
          iLine (P.test_configurations.length : Int)])
    (if P.test_configurations = [] then [[], []] else [])
    (by
      unfold contentOf tcsTail
      rcases P.test_configurations with _ | ⟨c, rest⟩
      · simp
      · rw [if_neg (List.cons_ne_nil c rest), if_neg (List.cons_ne_nil c rest)]
        simp)
    htc htcOK
  have hPreLen : (((cLine (atomVals P.atom)
      :: P.reference_configuration.map (fun s => cLine (subVals s))
      ++ iLine P.lmax :: P.optimization.map (fun o => cLine (optVals o))
      ++ cLine (lpVals P.local_potential)
      :: P.vkb_projectors.map (fun o => cLine (vkbVals o))
      ++ [cLine (mccVals P.model_core_charge),
          cLine (ldaVals P.log_derivative_analysis),
          cLine (ogVals P.output_grid),
          iLine (P.test_configurations.length : Int)]).length : Int))
      = nc0 + nv0 + 2 + P.lmax + 1 + 1 + P.lmax + 1 + 1 + 1 + 1 + 1 := by
    simp only [List.length_cons, List.length_append, List.length_map,
      List.length_nil]
    omega
  rw [hPreLen] at hTL
  have hNC2 : pyValInt (PyVal.int nc0) = .ok nc0 := rfl
  have hNV2 : pyValInt (PyVal.int nv0) = .ok nv0 := rfl
  unfold parseContent
  simp only [h0, ok_bind, hA, hNC, hNV, hNC2, hNV2, hRef, hLM, hLMp, hOpt,
    hLP, hLPmk, hVkb, hMC, hMCmk, hLD, hLDmk, hOG, hOGmk, hNCl, hNClp,
    Int.toNat_natCast, hnv, hTL]

/-- Well-formedness of a parsed `ONCVInput` under which serialisation is
loss-free: the cross-referenced record counts hold exactly (at least one
valence subshell, a nonnegative `lmax`), the count fields really are
integers, and every scalar field's Python string form re-sanitises to the
same value without whitespace or a leading comment character (true of
ints, finite floats and ordinary strings; violated by booleans, `None`
and strings that spell JSON literals). -/
def WF (P : ONCVInput) : Prop :=
  ∃ nc0 nv0 : Int,
    P.atom.nc = .int nc0 ∧ P.atom.nv = .int nv0 ∧ 0 ≤ nc0 ∧ 1 ≤ nv0 ∧
    (P.reference_configuration.length : Int) = nc0 + nv0 ∧
    0 ≤ P.lmax ∧
    (P.optimization.length : Int) = P.lmax + 1 ∧
    (P.vkb_projectors.length : Int) = P.lmax + 1 ∧
    (∀ tc ∈ P.test_configurations, (tc.length : Int) = nv0) ∧
    EntryOK (atomVals P.atom) ∧
    (∀ s ∈ P.reference_configuration, EntryOK (subVals s)) ∧
    (∀ o ∈ P.optimization, EntryOK (optVals o)) ∧
    EntryOK (lpVals P.local_potential) ∧
    (∀ o ∈ P.vkb_projectors, EntryOK (vkbVals o)) ∧
    TokenOK P.model_core_charge.icmod ∧
    TokenOK P.model_core_charge.fcfact ∧
    RcOK P.model_core_charge.rcfact ∧
    EntryOK (ldaVals P.log_derivative_analysis) ∧
    EntryOK (ogVals P.output_grid) ∧
    (∀ tc ∈ P.test_configurations, ∀ s ∈ tc, EntryOK (subVals s))

theorem roundtrip_of_WF (P : ONCVInput) (h : WF P) :
    from_str (to_str P) = .ok P := by
  obtain ⟨nc0, nv0, hnc, hnv, hnc0, hnv0, href, hlm, hopt, hvkb, htc, hatomOK,
    hrefOK, hoptOK, hlpOK, hvkbOK, hmcc1, hmcc2, hmcc3, hldaOK, hogOK, htcOK⟩ := h
  have hrefne : P.reference_configuration ≠ [] := by
    intro hh
    rw [hh] at href
    simp at href
    omega
  have hoptne : P.optimization ≠ [] := by
    intro hh
    rw [hh] at hopt
    simp at hopt
    omega
  have hvkbne : P.vkb_projectors ≠ [] := by
    intro hh
    rw [hh] at hvkb
    simp at hvkb
    omega
  have htcne : ∀ tc ∈ P.test_configurations, tc ≠ [] := by
    intro tc htcm hh
    have := htc tc htcm
    rw [hh] at this
    simp at this
    omega
  have hsfl := sfl_to_str P hrefne hlm hoptne hvkbne hatomOK hrefOK hoptOK
    hlpOK hvkbOK hmcc1 hmcc2 hmcc3 hldaOK hogOK htcne htcOK
  show parseContent (stripFilter (splitOnC '\n' (to_str P))) = .ok P
  rw [show stripFilter (splitOnC '\n' (to_str P)) = contentOf P from hsfl]
  exact parseContent_ok P nc0 nv0 hnc hnv href hlm hopt hvkb htc hatomOK
    hrefOK hoptOK hlpOK hvkbOK hmcc1 hmcc2 hmcc3 hldaOK hogOK htcOK

end ONCV

/-- Concrete well-formed ONCV input document used as a witness (silicon,
one core and two valence subshells, `lmax = 2`, one test
configuration). -/
def oncvDoc : PyStr := pystr "# test\nSi 14.0 1 2 4 psp8\n1 0 2.0\n2 0 2.0\n2 1 2.0\n2\n0 1.50 0.0 4 8 6.0\n1 1.52 0.0 4 8 6.0\n2 1.80 0.1 4 8 6.0\n4 5 1.5 0.0\n0 2 1.5\n1 2 1.5\n2 2 1.5\n0 0.01\n2.0 2.0 0.02\n6.0 0.01\n1\n2\n2 0 2.0\n2 1 1.0"

/-- The parse of `oncvDoc`. -/
def oncvP : ONCV.ONCVInput := {
  atom := ⟨.str (pystr "Si"), .float ⟨14, 0⟩, .int 1, .int 2, .int 4, .str (pystr "psp8")⟩,
  reference_configuration := [⟨.int 1, .int 0, .float ⟨2, 0⟩⟩, ⟨.int 2, .int 0, .float ⟨2, 0⟩⟩,
    ⟨.int 2, .int 1, .float ⟨2, 0⟩⟩],
  lmax := 2,
  optimization := [⟨.int 0, .float ⟨15, -1⟩, .float ⟨0, 0⟩, .int 4, .int 8, .float ⟨6, 0⟩⟩,
    ⟨.int 1, .float ⟨152, -2⟩, .float ⟨0, 0⟩, .int 4, .int 8, .float ⟨6, 0⟩⟩,
    ⟨.int 2, .float ⟨18, -1⟩, .float ⟨1, -1⟩, .int 4, .int 8, .float ⟨6, 0⟩⟩],
  local_potential := ⟨.int 4, .int 5, .float ⟨15, -1⟩, .float ⟨0, 0⟩⟩,
  vkb_projectors := [⟨.int 0, .int 2, .float ⟨15, -1⟩⟩, ⟨.int 1, .int 2, .float ⟨15, -1⟩⟩,
    ⟨.int 2, .int 2, .float ⟨15, -1⟩⟩],
  model_core_charge := ⟨.int 0, .float ⟨1, -2⟩, none⟩,
  log_derivative_analysis := ⟨.float ⟨2, 0⟩, .float ⟨2, 0⟩, .float ⟨2, -2⟩⟩,
  output_grid := ⟨.float ⟨6, 0⟩, .float ⟨1, -2⟩⟩,
  test_configurations := [[⟨.int 2, .int 0, .float ⟨2, 0⟩⟩, ⟨.int 2, .int 1, .float ⟨1, 0⟩⟩]] }

/-- C1 (amended): for every syntactically valid ONCV input document `D`
whose parse `P` is well-formed — exact cross-referenced record counts
(at least one valence subshell, nonnegative `lmax`) and every scalar
field a value whose Python string form re-sanitises to itself (all ints,
finite floats and ordinary strings qualify; booleans and null do not) —
serialising `P` with `to_str` and re-parsing yields exactly `P`,
field-for-field.  The unamended claim fails on boolean-valued fields:
see the counterexample. -/
theorem oncv_roundtrip_amended (D : PyStr) (P : ONCV.ONCVInput)
    (_hD : ONCV.from_str D = .ok P) (hwf : ONCV.WF P) :
    ONCV.from_str (ONCV.to_str P) = .ok P :=
  ONCV.roundtrip_of_WF P hwf

/-- Witness for `oncv_roundtrip_amended` at the concrete document
`oncvDoc`. -/
theorem oncv_roundtrip_amended_witness :
    ONCV.from_str (ONCV.to_str oncvP) = .ok oncvP :=
  oncv_roundtrip_amended oncvDoc oncvP (by decide) ⟨1, 2, by decide⟩

/-- The same document as `oncvDoc` but with the string-typed `psfile`
field spelled `true`, which the scalar sanitiser turns into a Python
boolean. -/
def oncvDocBool : PyStr := pystr "Si 14.0 1 2 4 true\n1 0 2.0\n2 0 2.0\n2 1 2.0\n2\n0 1.50 0.0 4 8 6.0\n1 1.52 0.0 4 8 6.0\n2 1.80 0.1 4 8 6.0\n4 5 1.5 0.0\n0 2 1.5\n1 2 1.5\n2 2 1.5\n0 0.01\n2.0 2.0 0.02\n6.0 0.01\n0"

/-- C1 counterexample: `oncvDocBool` parses successfully (with
`atom.psfile = True`), its serialisation re-parses successfully, yet the
re-parsed input differs from the original: `str(True)` is `"True"`,
which re-sanitises to the *string* `"True"`, not the boolean.  So
`serialize(parse(D))` re-parsed is not field-for-field equal to
`parse(D)` for every syntactically valid document. -/
theorem oncv_roundtrip_cex :
    (ONCV.from_str oncvDocBool).bind
      (fun P => (ONCV.from_str (ONCV.to_str P)).map
        (fun Q => (decide (Q = P), P.atom.psfile, Q.atom.psfile)))
      = .ok (false, .bool true, .str (pystr "True")) := by
  decide

theorem bind_ok_inv {α β : Type} {e : Except Err α} {f : α → Except Err β} {b : β}
    (h : (e >>= f) = .ok b) : ∃ a, e = .ok a ∧ f a = .ok b := by
  cases e with
  | error err =>
    rw [show ((Except.error err : Except Err α) >>= f) = .error err from rfl] at h
    exact absurd h (by simp)
  | ok a =>
    rw [show ((Except.ok a : Except Err α) >>= f) = f a from rfl] at h
    exact ⟨a, rfl, h⟩

theorem pyIdx_ok_lt {α : Type} {xs : List α} {i : Int} {x : α}
    (h : pyIdx xs i = .ok x) (hi : 0 ≤ i) : i < (xs.length : Int) := by
  unfold pyIdx at h
  dsimp only at h
  have hj : (if i < 0 then (xs.length : Int) + i else i) = i := if_neg (by omega)
  rw [hj, if_pos hi] at h
  rcases hg : xs.get? i.toNat with _ | y
  · rw [hg] at h
    exact absurd h (by simp)
  · obtain ⟨hn, _⟩ := List.get?_eq_some.mp hg
    omega

theorem pySlice_length_of {α : Type} (xs : List α) (a b : Int)
    (ha : 0 ≤ a) (hab : a ≤ b) (hb : b ≤ (xs.length : Int)) :
    ((pySlice xs a b).length : Int) = b - a := by
  unfold pySlice
  dsimp only
  rw [if_neg (by omega), if_neg (by omega)]
  simp only [List.length_take, List.length_drop]
  omega

theorem pySlice_length_le {α : Type} (xs : List α) (a : Int) (k : Int)
    (hk : 0 ≤ k) : ((pySlice xs a (a + k)).length : Int) ≤ k := by
  unfold pySlice
  dsimp only
  simp only [List.length_take, List.length_drop]
  by_cases h1 : a < 0 <;> by_cases h2 : a + k < 0 <;>
    simp only [h1, h2, ite_true, ite_false] <;> omega

theorem mapExcept_length {α β : Type} {f : α → Except Err β} {xs : List α}
    {ys : List β} (h : mapExcept f xs = .ok ys) : ys.length = xs.length := by
  induction xs generalizing ys with
  | nil =>
    rw [show mapExcept f [] = .ok [] from rfl] at h
    simp only [Except.ok.injEq] at h
    rw [← h]
    simp
  | cons x t ih =>
    rw [show mapExcept f (x :: t)
      = (f x >>= fun y => mapExcept f t >>= fun ys => .ok (y :: ys)) from rfl] at h
    obtain ⟨y, _, h⟩ := bind_ok_inv h
    obtain ⟨ys2, hys2, h⟩ := bind_ok_inv h
    simp only [Except.ok.injEq] at h
    rw [← h]
    simp [ih hys2]

namespace ONCV

theorem testLoop_len {C : List PyStr} {nv0 : Int} {k : Nat} {iend : Int}
    {tcs : List (List ONCVConfigurationSubshell)} {fin : Int}
    (h : testLoop C (.int nv0) k iend = .ok (tcs, fin)) (hnv : 0 ≤ nv0) :
    ∀ tc ∈ tcs, (tc.length : Int) ≤ nv0 := by
  induction k generalizing iend tcs fin with
  | zero =>
    rw [show testLoop C (.int nv0) 0 iend = .ok ([], iend) from rfl] at h
    simp only [Except.ok.injEq, Prod.mk.injEq] at h
    rw [← h.1]
    simp
  | succ k ih =>
    rw [show testLoop C (.int nv0) (k + 1) iend
      = (pyValInt (.int nv0) >>= fun nv =>
        mapExcept (fun line => mkSubshell ((splitWS line).map sanitise))
          (pySlice C (iend + 1) (iend + 1 + nv)) >>= fun cfg =>
        testLoop C (.int nv0) k (iend + 1 + nv) >>= fun res =>
        .ok (cfg :: res.1, res.2)) from rfl] at h
    rw [show pyValInt (.int nv0) = .ok nv0 from rfl, ok_bind] at h
    obtain ⟨cfg, hcfg, h⟩ := bind_ok_inv h
    obtain ⟨res, hres, h⟩ := bind_ok_inv h
    simp only [Except.ok.injEq, Prod.mk.injEq] at h
    intro tc htcm
    rw [← h.1] at htcm
    rcases List.mem_cons.mp htcm with rfl | hm
    · have hlen := mapExcept_length hcfg
      have hsl := pySlice_length_le C (iend + 1) nv0 hnv
      omega
    · exact ih hres tc hm

end ONCV

namespace ONCV

theorem parse_counts (content : List PyStr) (P : ONCVInput) (nc0 nv0 : Int)
    (h : parseContent content = .ok P)
    (hnc : P.atom.nc = .int nc0) (hnv : P.atom.nv = .int nv0)
    (hnn : 0 ≤ nc0 + nv0) (hnv0 : 0 ≤ nv0) (hlm : 0 ≤ P.lmax) :
    (P.reference_configuration.length : Int) = nc0 + nv0 ∧
    (P.optimization.length : Int) = P.lmax + 1 ∧
    (P.vkb_projectors.length : Int) = P.lmax + 1 ∧
    ∀ tc ∈ P.test_configurations, (tc.length : Int) ≤ nv0 := by
  unfold parseContent at h
  obtain ⟨atomLine, hAL, h⟩ := bind_ok_inv h
  obtain ⟨atom, hAtom, h⟩ := bind_ok_inv h
  obtain ⟨ncI, hNCI, h⟩ := bind_ok_inv h
  obtain ⟨nvI, hNVI, h⟩ := bind_ok_inv h
  try dsimp only at h
  obtain ⟨refcfg, hRef, h⟩ := bind_ok_inv h
  obtain ⟨lmaxLine, hLL, h⟩ := bind_ok_inv h
  obtain ⟨lmax, hLM, h⟩ := bind_ok_inv h
  try dsimp only at h
  obtain ⟨opt, hOpt, h⟩ := bind_ok_inv h
  obtain ⟨lpLine, hLPL, h⟩ := bind_ok_inv h
  obtain ⟨lp, hLP, h⟩ := bind_ok_inv h
  try dsimp only at h
  obtain ⟨vkb, hVkb, h⟩ := bind_ok_inv h
  obtain ⟨mccLine, hMCL, h⟩ := bind_ok_inv h
  obtain ⟨mcc, hMCC, h⟩ := bind_ok_inv h
  try dsimp only at h
  obtain ⟨ldaLine, hLDL, h⟩ := bind_ok_inv h
  obtain ⟨lda, hLDA, h⟩ := bind_ok_inv h
  try dsimp only at h
  obtain ⟨ogLine, hOGL, h⟩ := bind_ok_inv h
  obtain ⟨og, hOG, h⟩ := bind_ok_inv h
  try dsimp only at h
  obtain ⟨ncvfLine, hNCFL, h⟩ := bind_ok_inv h
  obtain ⟨ncvf, hNCVF, h⟩ := bind_ok_inv h
  try dsimp only at h
  obtain ⟨res, hRes, h⟩ := bind_ok_inv h
  simp only [Except.ok.injEq] at h
  have hatom : P.atom = atom := by rw [← h]
  have hrefc : P.reference_configuration = refcfg := by rw [← h]
  have hlmax : P.lmax = lmax := by rw [← h]
  have hoptc : P.optimization = opt := by rw [← h]
  have hvkbc : P.vkb_projectors = vkb := by rw [← h]
  have htcc : P.test_configurations = res.1 := by rw [← h]
  rw [hatom] at hnc hnv
  rw [hnc] at hNCI
  rw [show pyValInt (PyVal.int nc0) = .ok nc0 from rfl] at hNCI
  simp only [Except.ok.injEq] at hNCI
  rw [hnv] at hNVI
  rw [show pyValInt (PyVal.int nv0) = .ok nv0 from rfl] at hNVI
  simp only [Except.ok.injEq] at hNVI
  subst hNCI hNVI
  have hLLlt : nc0 + nv0 + 1 < (content.length : Int) := pyIdx_ok_lt hLL (by omega)
  have hreflen := mapExcept_length hRef
  have hrefsl := pySlice_length_of content 1 (nc0 + nv0 + 1) (by omega) (by omega)
    (by omega)
  have hLPlt : nc0 + nv0 + 2 + lmax + 1 < (content.length : Int) := by
    refine pyIdx_ok_lt hLPL ?_
    rw [← hlmax] at *
    omega
  have hoptlen := mapExcept_length hOpt
  have hoptsl := pySlice_length_of content (nc0 + nv0 + 2) (nc0 + nv0 + 2 + lmax + 1)
    (by omega) (by rw [← hlmax] at *; omega) (by omega)
  have hMClt : nc0 + nv0 + 2 + lmax + 1 + 1 + lmax + 1 < (content.length : Int) := by
    refine pyIdx_ok_lt hMCL ?_
    rw [← hlmax] at *
    omega
  have hvkblen := mapExcept_length hVkb
  have hvkbsl := pySlice_length_of content (nc0 + nv0 + 2 + lmax + 1 + 1)
    (nc0 + nv0 + 2 + lmax + 1 + 1 + lmax + 1)
    (by rw [← hlmax] at *; omega) (by rw [← hlmax] at *; omega) (by omega)
  refine ⟨?_, ?_, ?_, ?_⟩
  · rw [hrefc, hreflen, hrefsl]
    omega
  · rw [hoptc, hoptlen, hoptsl, hlmax]
    omega
  · rw [hvkbc, hvkblen, hvkbsl, hlmax]
    omega
  · rw [htcc, hnv] at *
    intro tc htcm
    exact testLoop_len
      (by rw [show res = (res.1, res.2) from rfl] at hRes; exact hRes) hnv0 tc htcm

end ONCV

/-- C8 (amended): when `ONCVInput.from_str` succeeds, every *positional*
block really had the cross-referenced record count: the reference
configuration has exactly `nc + nv` rows, and the optimization and VKB
blocks have exactly `lmax + 1` rows each — a shortfall in any of these
makes an index access or slice cross-reference fail, so no partial
result escapes.  The unamended claim fails for the trailing
test-configuration block: each configuration is read as "at most `nv`
rows", so a truncated final configuration is accepted silently (see the
counterexample); its row count is only bounded above by `nv`. -/
theorem oncv_no_partial_amended (D : PyStr) (P : ONCV.ONCVInput) (nc0 nv0 : Int)
    (h : ONCV.from_str D = .ok P)
    (hnc : P.atom.nc = .int nc0) (hnv : P.atom.nv = .int nv0)
    (hnn : 0 ≤ nc0 + nv0) (hnv0 : 0 ≤ nv0) (hlm : 0 ≤ P.lmax) :
    (P.reference_configuration.length : Int) = nc0 + nv0 ∧
    (P.optimization.length : Int) = P.lmax + 1 ∧
    (P.vkb_projectors.length : Int) = P.lmax + 1 ∧
    ∀ tc ∈ P.test_configurations, (tc.length : Int) ≤ nv0 := by
  unfold ONCV.from_str ONCV.fromLines at h
  try dsimp only at h
  exact ONCV.parse_counts _ P nc0 nv0 h hnc hnv hnn hnv0 hlm

theorem oncv_no_partial_amended_witness :
    (oncvP.reference_configuration.length : Int) = 1 + 2 ∧
    (oncvP.optimization.length : Int) = oncvP.lmax + 1 ∧
    (oncvP.vkb_projectors.length : Int) = oncvP.lmax + 1 ∧
    ∀ tc ∈ oncvP.test_configurations, (tc.length : Int) ≤ 2 :=
  oncv_no_partial_amended oncvDoc oncvP 1 2 (by decide) (by decide) (by decide)
    (by decide) (by decide) (by decide)

/-- ONCV document identical to `oncvDoc` (minus comment line) except that
the single declared test configuration is truncated: the atom line
declares `nv = 2` valence subshells, one test configuration is declared,
but only one subshell row follows where two are required. -/
def oncvDocShort : PyStr := pystr "Si 14.0 1 2 4 psp8\n1 0 2.0\n2 0 2.0\n2 1 2.0\n2\n0 1.50 0.0 4 8 6.0\n1 1.52 0.0 4 8 6.0\n2 1.80 0.1 4 8 6.0\n4 5 1.5 0.0\n0 2 1.5\n1 2 1.5\n2 2 1.5\n0 0.01\n2.0 2.0 0.02\n6.0 0.01\n1\n2\n2 0 2.0"

/-- C8 counterexample: `oncvDocShort` declares `nv = 2` but its only test
configuration has a single row, yet `from_str` *succeeds* and returns a
partial result whose test configuration has 1 row — not the
out-of-range/type error the claim promises for every short block. -/
theorem oncv_no_partial_cex :
    (ONCV.from_str oncvDocShort).map
      (fun P => (P.atom.nv, P.test_configurations.map List.length))
      = .ok (.int 2, [1]) := by
  decide

/-! ## UPF v1 and v2 generic decomposers (`v1.py`, `v2.py`) -/

/-- Values stored in the nested dictionaries the decomposers build:
sanitised scalars, numpy float arrays and matrices, raw content-line
lists, nested (insertion-ordered) dictionaries, and lists of values. -/
inductive UVal where
  | pv : PyVal → UVal
  | arr : List Dec → UVal
  | mat : List (List Dec) → UVal
  | lines : List PyStr → UVal
  | dict : List (PyStr × UVal) → UVal
  | list : List UVal → UVal

/-- Is the value a Python list? -/
def UVal.isList : UVal → Bool
  | .list _ => true
  | _ => false

/-- Python `key in dct` / `dct[key]` on an insertion-ordered dictionary. -/
def lookupU (t : PyStr) : List (PyStr × UVal) → Option UVal
  | [] => none
  | (k, v) :: rest => if k = t then some v else lookupU t rest

/-- Python `dct[key] = v`: replace in place when the key is present,
append otherwise. -/
def setU (t : PyStr) (v : UVal) : List (PyStr × UVal) → List (PyStr × UVal)
  | [] => [(t, v)]
  | (k, w) :: rest => if k = t then (k, v) :: rest else (k, w) :: setU t v rest

/-- Python tuple unpacking `a, b, c = xs` (ValueError unless exactly 3). -/
def unpack3 {α : Type} (xs : List α) : Except Err (α × α × α) :=
  match xs with
  | [a, b, c] => .ok (a, b, c)
  | _ => .error (.valueError (pystr "unpack"))

/-- Python tuple unpacking `a, b, c, d = xs` (ValueError unless exactly 4). -/
def unpack4 {α : Type} (xs : List α) : Except Err (α × α × α × α) :=
  match xs with
  | [a, b, c, d] => .ok (a, b, c, d)
  | _ => .error (.valueError (pystr "unpack"))

/-- Python `max` of a list of ints (ValueError on an empty sequence). -/
def pyMaxIntList : List Int → Except Err Int
  | [] => .error (.valueError (pystr "max() arg is an empty sequence"))
  | x :: xs => .ok (xs.foldl max x)

/-- `np.zeros((n, n))` as a list of rows. -/
def zerosMat (n : Nat) : List (List Dec) :=
  List.replicate n (List.replicate n ⟨0, 0⟩)

/-- `mt[r, c]` with a default of zero outside the matrix (used only to
state theorems; the decomposer itself uses `npSet2`). -/
def matGet (mt : List (List Dec)) (r c : Nat) : Dec :=
  ((mt.get? r).bind fun row => row.get? c).getD ⟨0, 0⟩

/-- Numpy element assignment `mt[i, j] = v`: negative indices count from
the end, out-of-range indices raise IndexError. -/
def npSet2 (mt : List (List Dec)) (i j : Int) (v : Dec) :
    Except Err (List (List Dec)) :=
  let n : Int := (mt.length : Int)
  let i2 : Int := if i < 0 then n + i else i
  if 0 ≤ i2 ∧ i2 < n then
    match mt.get? i2.toNat with
    | none => .error .indexError
    | some row =>
      let m : Int := (row.length : Int)
      let j2 : Int := if j < 0 then m + j else j
      if 0 ≤ j2 ∧ j2 < m then
        .ok (mt.set i2.toNat (row.set j2.toNat v))
      else .error .indexError
  else .error .indexError

/-- First element (with its index) satisfying a predicate: Python
`next(((i, x) for i, x in enumerate(xs) if p x), None)`. -/
def findFirstP (p : PyStr → Bool) : List PyStr → Option (Nat × PyStr)
  | [] => none
  | l :: rest => if p l then some (0, l) else (findFirstP p rest).map (fun x => (x.1 + 1, x.2))

namespace V1

/-- Embedding of `v1.extract_block`. -/
def extract_block (tag : PyStr) (lines : List PyStr) : Except Err (List PyStr) :=
  match findFirstP (fun l => hasSub ('<' :: tag) l) lines with
  | none => .error (.valueError ('<' :: tag ++ pystr "> not found"))
  | some (istart, _) =>
    match findFirstP (fun l => hasSub ('<' :: '/' :: tag) l) (lines.drop istart) with
    | none => .error (.valueError ('<' :: '/' :: tag ++ pystr "> not found"))
    | some (ilength, _) =>
      .ok (pySlice lines (istart : Int) ((istart : Int) + (ilength : Int) + 1))

/-- `dct["content"]` of a freshly decomposed block (KeyError when the
block had no text). -/
def getContent (dct : List (PyStr × UVal)) : Except Err (List PyStr) :=
  match lookupU (pystr "content") dct with
  | some (.lines ls) => .ok ls
  | some _ => .error .typeError
  | none => .error (.keyError (pystr "content"))

/-- `np.array([v for row in rows for v in row.split()], dtype=float)`. -/
def floatTokens (ls : List PyStr) : Except Err (List Dec) :=
  mapExcept parseFloatTok (ls.map splitWS).flatten

/-- Embedding of `v1.sanitise_numeric_array` (returns the bare array). -/
def sanitise_numeric_array (dct : List (PyStr × UVal)) : Except Err UVal := do
  let ls ← getContent dct
  let a ← floatTokens ls
  .ok (.arr a)

/-- Embedding of `v1.sanitise_header`: fixed positional accesses into the
whitespace-split content lines, in the dict literal's evaluation order. -/
def sanitise_header (dct : List (PyStr × UVal)) : Except Err UVal := do
  let ls ← getContent dct
  let sl := ls.map splitWS
  let l1 ← pyIdx sl 1
  let element ← pyIdx l1 0
  let l2 ← pyIdx sl 2
  let us ← pyIdx l2 0
  let l3 ← pyIdx sl 3
  let cc ← pyIdx l3 0
  let l4 ← pyIdx sl 4
  let functional := pyJoin (pystr " ") (pySlice l4 0 (-3))
  let l5 ← pyIdx sl 5
  let zv ← (pyIdx l5 0).bind parseFloatTok
  let l6 ← pyIdx sl 6
  let tpse ← (pyIdx l6 0).bind parseFloatTok
  let l7 ← pyIdx sl 7
  let rc ← (pyIdx l7 1).bind parseFloatTok
  let l8 ← pyIdx sl 8
  let lm ← (pyIdx l8 0).bind pyIntParse
  let l9 ← pyIdx sl 9
  let ms ← (pyIdx l9 0).bind pyIntParse
  let l10 ← pyIdx sl 10
  let nwfc ← (pyIdx l10 0).bind pyIntParse
  let nproj ← (pyIdx l10 1).bind pyIntParse
  .ok (.dict [
    (pystr "element", .pv (.str element)),
    (pystr "is_ultrasoft", .pv (.bool (us == pystr "US"))),
    (pystr "core_correction", .pv (.bool (cc == pystr "T"))),
    (pystr "functional", .pv (.str functional)),
    (pystr "z_valence", .pv (.float zv)),
    (pystr "total_psenergy", .pv (.float tpse)),
    (pystr "rho_cutoff", .pv (.float rc)),
    (pystr "l_max", .pv (.int lm)),
    (pystr "mesh_size", .pv (.int ms)),
    (pystr "number_of_wfc", .pv (.int nwfc)),
    (pystr "number_of_proj", .pv (.int nproj))])

/-- One assignment row of `sanitise_dij`: `i, j, val = row.split()`
followed by the conversions of `content[int(i)-1, int(j)-1] = float(val)`
(Python evaluates the right-hand side before the target indices). -/
def dijRow (l : PyStr) : Except Err (Dec × Int × Int) := do
  let (i, j, v) ← unpack3 (splitWS l)
  let dv ← parseFloatTok v
  let iz ← pyIntParse i
  let jz ← pyIntParse j
  .ok (dv, iz, jz)

/-- The assignment loop of `sanitise_dij`. -/
def dijLoop (mt : List (List Dec)) : List PyStr → Except Err (List (List Dec))
  | [] => .ok mt
  | l :: rest => do
    let (dv, iz, jz) ← dijRow l
    let mt2 ← npSet2 mt (iz - 1) (jz - 1) dv
    dijLoop mt2 rest

/-- Embedding of `v1.sanitise_dij`: the matrix dimension is the maximum
of `int(line.split()[1])` — the *column* index — over the content lines
after the first. -/
def sanitise_dij (dct : List (PyStr × UVal)) : Except Err UVal := do
  let ls ← getContent dct
  let cols ← mapExcept (fun l => (pyIdx (splitWS l) 1).bind pyIntParse) (ls.drop 1)
  let length ← pyMaxIntList cols
  if length < 0 then .error (.valueError (pystr "negative dimensions are not allowed"))
  else do
    let mt ← dijLoop (zerosMat length.toNat) (ls.drop 1)
    .ok (.dict [
      (pystr "type", .pv (.str (pystr "real"))),
      (pystr "size", .pv (.int (length * length))),
      (pystr "content", .mat mt)])

/-- Embedding of `v1.sanitise_beta`. -/
def sanitise_beta (dct : List (PyStr × UVal)) : Except Err UVal := do
  let ls ← getContent dct
  let l0 ← pyIdx ls 0
  let (index, l, beta, _) ← unpack4 (splitWS l0)
  if beta = pystr "Beta" then do
    let l2 ← pyIdx ls 2
    let ncols := (splitWS l2).length
    let a ← floatTokens (ls.drop 2)
    let iz ← pyIntParse index
    let lz ← pyIntParse l
    .ok (.dict [
      (pystr "type", .pv (.str (pystr "real"))),
      (pystr "size", .pv (.int (a.length : Int))),
      (pystr "columns", .pv (.int (ncols : Int))),
      (pystr "index", .pv (.int iz)),
      (pystr "angular_momentum", .pv (.int lz)),
      (pystr "content", .arr a)])
  else .error .assertionError

/-- `dct["chi"][-1]["content"] = a` inside `sanitise_pswfc` (IndexError
when no wavefunction entry exists yet). -/
def chiSetContent (chi : List (List (PyStr × UVal))) (a : List Dec) :
    Except Err (List (List (PyStr × UVal))) :=
  match chi.getLast? with
  | none => .error .indexError
  | some last => .ok (chi.dropLast ++ [setU (pystr "content") (.arr a) last])

/-- The line loop of `sanitise_pswfc`, carrying the wavefunction entries
built so far and the pending numeric tokens. -/
def pswfcLoop (chi : List (List (PyStr × UVal))) (array : List PyStr) :
    List PyStr → Except Err (List (List (PyStr × UVal)) × List PyStr)
  | [] => .ok (chi, array)
  | line :: rest =>
    if hasSub (pystr "Wavefunction") line then do
      let chi2 ←
        if array ≠ [] then do
          let a ← mapExcept parseFloatTok array
          chiSetContent chi a
        else .ok chi
      let (label, l, occupation, _) ← unpack4 (splitWS line)
      let c0 ← pyIdx label 0
      let n ← pyIntParse [c0]
      let occ ← parseFloatTok occupation
      pswfcLoop (chi2 ++ [[
        (pystr "label", .pv (.str label)),
        (pystr "n", .pv (.int n)),
        (pystr "l", .pv (.str l)),
        (pystr "occupation", .pv (.float occ))]]) [] rest
    else pswfcLoop chi (array ++ splitWS line) rest

/-- Embedding of `v1.sanitise_pswfc`. -/
def sanitise_pswfc (dct : List (PyStr × UVal)) : Except Err UVal := do
  let ls ← getContent dct
  let (chi, array) ← pswfcLoop [] [] ls
  let a ← mapExcept parseFloatTok array
  let chi2 ← chiSetContent chi a
  .ok (.dict [(pystr "chi", .list (chi2.map UVal.dict))])

/-- The tag-specific sanitiser table of `v1.block_to_dict` (a tag not in
the table keeps the generic dict). -/
def applySanitiser (tag : PyStr) (sub : List (PyStr × UVal)) : Except Err UVal :=
  if tag = pystr "pswfc" then sanitise_pswfc sub
  else if tag = pystr "header" then sanitise_header sub
  else if tag = pystr "r" ∨ tag = pystr "rab" ∨ tag = pystr "nlcc" ∨
      tag = pystr "local" ∨ tag = pystr "rhoatom" then sanitise_numeric_array sub
  else if tag = pystr "beta" then sanitise_beta sub
  else if tag = pystr "dij" then sanitise_dij sub
  else .ok (.dict sub)

/-- The storage step of `v1.block_to_dict` (lines 150–156): promote an
existing entry to a list on a repeat, otherwise store bare. -/
def storeTagV1 (dct : List (PyStr × UVal)) (tag : PyStr) (sub : UVal) :
    List (PyStr × UVal) :=
  match lookupU tag dct with
  | some (.list xs) => setU tag (.list (xs ++ [sub])) dct
  | some v => setU tag (.list [v, sub]) dct
  | none => setU tag sub dct

/-- The child loop of `v1.block_to_dict`: find the next tag line, extract
its block, decompose it with `rec` (the recursive call one nesting level
down), sanitise, store.  The inner fuel only makes the recursion
structural: every iteration deletes at least one line. -/
def v1Loop (rec : List PyStr → Except Err (List (PyStr × UVal))) :
    Nat → List (PyStr × UVal) → List PyStr → Except Err (List (PyStr × UVal))
  | 0, _, _ => .error (.valueError (pystr "loop fuel"))
  | fuel + 1, dct, lines =>
    match findFirstP (fun l => startsW (pystr "<") (pyStrip l)) lines with
    | none => .ok dct
    | some (inext, mline) => do
      let tag0 ← pyIdx (splitWS (pySlice (pyStrip mline) 1 (-1))) 0
      let block ← extract_block tag0 lines
      let sub0 ← rec (pySlice block 1 (-1))
      let tag := pyLower (removeAll (pystr "PP_") tag0)
      let subd ← applySanitiser tag sub0
      v1Loop rec fuel (storeTagV1 dct tag subd) (lines.drop (inext + block.length))

/-- Embedding of `v1.block_to_dict` (the outer fuel bounds the nesting
depth and is always ample). -/
def block_to_dict : Nat → List PyStr → Except Err (List (PyStr × UVal))
  | 0, _ => .error (.valueError (pystr "recursion limit"))
  | fuel + 1, lines =>
    let dct0 : List (PyStr × UVal) :=
      let textlines := match findFirstP (fun l => startsW (pystr "<") (pyStrip l)) lines with
        | none => lines
        | some (i, _) => lines.take i
      let text := textlines.filter (fun l => !(pyStrip l).isEmpty)
      if text = [] then [] else [(pystr "content", .lines text)]
    v1Loop (block_to_dict fuel) (lines.length + 1) dct0 lines

/-- Embedding of `v1.upfv1contents_to_dict`. -/
def upfv1contents_to_dict (s : PyStr) : Except Err (List (PyStr × UVal)) :=
  let lines := splitOnC '\n' s
  block_to_dict (lines.length + 1) lines

end V1

namespace V2

/-- An XML element as `xml.etree` presents it: tag, attributes in
document order, text, children in document order. -/
inductive XElem where
  | mk (tag : PyStr) (attrib : List (PyStr × PyStr)) (text : Option PyStr)
      (children : List XElem)

/-- The element's tag. -/
def XElem.tag : XElem → PyStr
  | .mk t _ _ _ => t

/-- `child.tag.split(".")[0].replace("PP_", "").lower()`. -/
def normTag (t : PyStr) : PyStr :=
  pyLower (removeAll (pystr "PP_") (t.takeWhile (fun c => c ≠ '.')))

/-- The attribute dictionary of `v2.block_to_dict`: keys lowered, values
sanitised, the reserved keys `type`/`columns`/`size` dropped. -/
def attribDict (attrib : List (PyStr × PyStr)) : List (PyStr × UVal) :=
  attrib.foldl (fun d kv =>
    if kv.1 = pystr "type" ∨ kv.1 = pystr "columns" ∨ kv.1 = pystr "size" then d
    else setU (pyLower kv.1) (.pv (sanitise kv.2)) d) []

/-- The `PP_CHI` fix-up of `v2.block_to_dict`: derive `n` from the first
character of the label when missing. -/
def chiFix (tag : PyStr) (res : List (PyStr × UVal)) :
    Except Err (List (PyStr × UVal)) :=
  if startsW (pystr "PP_CHI") tag && (lookupU (pystr "n") res).isNone &&
      (lookupU (pystr "label") res).isSome then
    match lookupU (pystr "label") res with
    | some (.pv (.str s)) => do
      let c0 ← pyIdx s 0
      let n ← pyIntParse [c0]
      .ok (setU (pystr "n") (.pv (.int n)) res)
    | some _ => .error .typeError
    | none => .ok res
  else .ok res

/-- The storage step of `v2.block_to_dict` (lines 48–58): a tag already
present — or equal to `chi` — goes through the list path, else bare. -/
def storeTagV2 (res : List (PyStr × UVal)) (tag : PyStr) (sub : UVal) :
    List (PyStr × UVal) :=
  if (lookupU tag res).isSome ∨ tag = pystr "chi" then
    match lookupU tag res with
    | none => setU tag (.list [sub]) res
    | some (.list xs) => setU tag (.list (xs ++ [sub])) res
    | some v => setU tag (.list [v, sub]) res
  else setU tag sub res

/-- The child loop of `v2.block_to_dict` with the one-level-down
recursive call passed in. -/
def v2ChildLoop (rec : XElem → Except Err UVal) :
    List (PyStr × UVal) → List XElem → Except Err (List (PyStr × UVal))
  | res, [] => .ok res
  | res, c :: cs => do
    let cr ← rec c
    v2ChildLoop rec (storeTagV2 res (normTag c.tag) cr) cs

/-- Embedding of `v2.block_to_dict` (fuel bounds the nesting depth and is
always ample). -/
def block_to_dict : Nat → XElem → Except Err UVal
  | 0, _ => .error (.valueError (pystr "recursion limit"))
  | fuel + 1, .mk tag attrib text children => do
    let res0 := attribDict attrib
    let res1 ← chiFix tag res0
    match children with
    | [] =>
      match text with
      | some tx =>
        if (pyStrip tx).isEmpty then .ok (.dict res1)
        else
          let value : UVal := match mapExcept parseFloatTok (splitWS (pyStrip tx)) with
            | .ok a => .arr a
            | .error _ => .pv (.str (pyStrip tx))
          if res1.isEmpty then .ok value
          else .ok (.dict (setU (pystr "content") value res1))
      | none => .ok (.dict res1)
    | cs => do
      let d ← v2ChildLoop (block_to_dict fuel) res1 cs
      .ok (.dict d)

end V2

/-- Iterated storage discipline of `v1.block_to_dict`: the child
`(tag, value)` pairs in source order, folded through `storeTagV1`. -/
def storeFoldV1 (init : List (PyStr × UVal)) (ps : List (PyStr × UVal)) :
    List (PyStr × UVal) :=
  ps.foldl (fun d p => V1.storeTagV1 d p.1 p.2) init

/-- Iterated storage discipline of `v2.block_to_dict`. -/
def storeFoldV2 (init : List (PyStr × UVal)) (ps : List (PyStr × UVal)) :
    List (PyStr × UVal) :=
  ps.foldl (fun d p => V2.storeTagV2 d p.1 p.2) init

/-- The values stored under one tag, in source order. -/
def valsOf (t : PyStr) (ps : List (PyStr × UVal)) : List UVal :=
  (ps.filter (fun p => decide (p.1 = t))).map Prod.snd

/-- What the v1 storage loop leaves under a fresh tag: nothing, a bare
value, or the list of all values in source order. -/
def promoteV1 : List UVal → Option UVal
  | [] => none
  | [v] => some v
  | vs => some (.list vs)

/-- What the v2 storage loop leaves under a fresh tag: as v1, except that
`chi` is a list even with a single occurrence. -/
def promoteV2 (t : PyStr) (vs : List UVal) : Option UVal :=
  if t = pystr "chi" then
    match vs with
    | [] => none
    | vs => some (.list vs)
  else promoteV1 vs

theorem lookupU_setU_self (t : PyStr) (v : UVal) (d : List (PyStr × UVal)) :
    lookupU t (setU t v d) = some v := by
  induction d with
  | nil => simp [setU, lookupU]
  | cons p rest ih =>
    obtain ⟨k, w⟩ := p
    by_cases hk : k = t
    · simp [setU, lookupU, hk]
    · simp [setU, lookupU, hk, ih]

theorem lookupU_setU_ne (t k : PyStr) (hne : t ≠ k) (v : UVal)
    (d : List (PyStr × UVal)) : lookupU t (setU k v d) = lookupU t d := by
  induction d with
  | nil => simp [setU, lookupU, Ne.symm hne]
  | cons p rest ih =>
    obtain ⟨k2, w⟩ := p
    by_cases hk : k2 = k
    · subst hk
      have hkt : ¬ (k2 = t) := fun h => hne h.symm
      simp [setU, lookupU, hkt]
    · by_cases h2 : k2 = t <;> simp [setU, lookupU, hk, h2, ih, hne]

theorem lookupU_storeTagV1_self (d : List (PyStr × UVal)) (k : PyStr) (w : UVal) :
    lookupU k (V1.storeTagV1 d k w) = some (match lookupU k d with
      | none => w
      | some (.list xs) => .list (xs ++ [w])
      | some v => .list [v, w]) := by
  unfold V1.storeTagV1
  cases h : lookupU k d with
  | none => simp [lookupU_setU_self]
  | some v => cases v <;> simp [lookupU_setU_self]

theorem lookupU_storeTagV1_ne (t k : PyStr) (hne : t ≠ k) (d : List (PyStr × UVal))
    (w : UVal) : lookupU t (V1.storeTagV1 d k w) = lookupU t d := by
  unfold V1.storeTagV1
  cases h : lookupU k d with
  | none => simp [lookupU_setU_ne t k hne]
  | some v => cases v <;> simp [lookupU_setU_ne t k hne]

theorem lookupU_storeTagV2_self (d : List (PyStr × UVal)) (k : PyStr) (w : UVal) :
    lookupU k (V2.storeTagV2 d k w) = some (match lookupU k d with
      | none => if k = pystr "chi" then UVal.list [w] else w
      | some (.list xs) => .list (xs ++ [w])
      | some v => .list [v, w]) := by
  unfold V2.storeTagV2
  cases h : lookupU k d with
  | none => by_cases hc : k = pystr "chi" <;> simp [h, hc, lookupU_setU_self]
  | some v => cases v <;> simp [h, lookupU_setU_self]

theorem lookupU_storeTagV2_ne (t k : PyStr) (hne : t ≠ k) (d : List (PyStr × UVal))
    (w : UVal) : lookupU t (V2.storeTagV2 d k w) = lookupU t d := by
  unfold V2.storeTagV2
  by_cases hc : (lookupU k d).isSome ∨ k = pystr "chi"
  · rw [if_pos hc]
    cases h : lookupU k d with
    | none => exact lookupU_setU_ne t k hne _ d
    | some v => cases v <;> exact lookupU_setU_ne t k hne _ d
  · rw [if_neg hc]
    exact lookupU_setU_ne t k hne _ d

theorem valsOf_cons_self (t : PyStr) (w : UVal) (rest : List (PyStr × UVal)) :
    valsOf t ((t, w) :: rest) = w :: valsOf t rest := by
  simp [valsOf]

theorem valsOf_cons_ne (t k : PyStr) (hne : k ≠ t) (w : UVal)
    (rest : List (PyStr × UVal)) : valsOf t ((k, w) :: rest) = valsOf t rest := by
  simp [valsOf, hne]

theorem storeFoldV1_cons (init : List (PyStr × UVal)) (k : PyStr) (w : UVal)
    (rest : List (PyStr × UVal)) :
    storeFoldV1 init ((k, w) :: rest) = storeFoldV1 (V1.storeTagV1 init k w) rest := rfl

theorem storeFoldV2_cons (init : List (PyStr × UVal)) (k : PyStr) (w : UVal)
    (rest : List (PyStr × UVal)) :
    storeFoldV2 init ((k, w) :: rest) = storeFoldV2 (V2.storeTagV2 init k w) rest := rfl

theorem storeFoldV1_char (t : PyStr) (ps : List (PyStr × UVal)) :
    ∀ init, (∀ p ∈ ps, p.1 = t → UVal.isList p.2 = false) →
    (lookupU t init = none →
      lookupU t (storeFoldV1 init ps) = promoteV1 (valsOf t ps)) ∧
    (∀ v, UVal.isList v = false → lookupU t init = some v →
      lookupU t (storeFoldV1 init ps) =
        (match valsOf t ps with
         | [] => some v
         | vs => some (.list (v :: vs)))) ∧
    (∀ vs, lookupU t init = some (.list vs) →
      lookupU t (storeFoldV1 init ps) = some (.list (vs ++ valsOf t ps))) := by
  induction ps with
  | nil =>
    intro init _
    refine ⟨fun h => ?_, fun v _ h => ?_, fun vs h => ?_⟩
    · simpa [storeFoldV1, valsOf, promoteV1] using h
    · simpa [storeFoldV1, valsOf] using h
    · simpa [storeFoldV1, valsOf] using h
  | cons p rest ih =>
    obtain ⟨k, w⟩ := p
    intro init hv
    have hv' : ∀ q ∈ rest, q.1 = t → UVal.isList q.2 = false :=
      fun q hq => hv q (List.mem_cons_of_mem _ hq)
    by_cases hk : k = t
    · subst hk
      have hw : UVal.isList w = false := hv (k, w) (by simp) rfl
      refine ⟨fun h0 => ?_, fun v hvl h0 => ?_, fun vs h0 => ?_⟩
      · have hst : lookupU k (V1.storeTagV1 init k w) = some w := by
          rw [lookupU_storeTagV1_self, h0]
        rw [storeFoldV1_cons, valsOf_cons_self,
          (ih (V1.storeTagV1 init k w) hv').2.1 w hw hst]
        cases valsOf k rest <;> simp [promoteV1]
      · have hst : lookupU k (V1.storeTagV1 init k w) = some (.list [v, w]) := by
          rw [lookupU_storeTagV1_self, h0]
          cases v with
          | list xs => simp [UVal.isList] at hvl
          | pv a => rfl
          | arr a => rfl
          | mat a => rfl
          | lines a => rfl
          | dict a => rfl
        rw [storeFoldV1_cons, valsOf_cons_self,
          (ih (V1.storeTagV1 init k w) hv').2.2 [v, w] hst]
        cases valsOf k rest <;> simp
      · have hst : lookupU k (V1.storeTagV1 init k w) = some (.list (vs ++ [w])) := by
          rw [lookupU_storeTagV1_self, h0]
        rw [storeFoldV1_cons, valsOf_cons_self,
          (ih (V1.storeTagV1 init k w) hv').2.2 (vs ++ [w]) hst]
        simp
    · have hlk : ∀ x, lookupU t (V1.storeTagV1 init k x) = lookupU t init :=
        fun x => lookupU_storeTagV1_ne t k (fun h => hk h.symm) init x
      have hvv : valsOf t ((k, w) :: rest) = valsOf t rest := valsOf_cons_ne t k hk w rest
      refine ⟨fun h0 => ?_, fun v hvl h0 => ?_, fun vs h0 => ?_⟩
      · rw [storeFoldV1_cons, hvv,
          ((ih (V1.storeTagV1 init k w) hv').1 (by rw [hlk, h0]))]
      · rw [storeFoldV1_cons, hvv,
          ((ih (V1.storeTagV1 init k w) hv').2.1 v hvl (by rw [hlk, h0]))]
      · rw [storeFoldV1_cons, hvv,
          ((ih (V1.storeTagV1 init k w) hv').2.2 vs (by rw [hlk, h0]))]

theorem storeFoldV2_char (t : PyStr) (ps : List (PyStr × UVal)) :
    ∀ init, (∀ p ∈ ps, p.1 = t → UVal.isList p.2 = false) →
    (lookupU t init = none →
      lookupU t (storeFoldV2 init ps) = promoteV2 t (valsOf t ps)) ∧
    (∀ v, UVal.isList v = false → lookupU t init = some v →
      lookupU t (storeFoldV2 init ps) =
        (match valsOf t ps with
         | [] => some v
         | vs => some (.list (v :: vs)))) ∧
    (∀ vs, lookupU t init = some (.list vs) →
      lookupU t (storeFoldV2 init ps) = some (.list (vs ++ valsOf t ps))) := by
  induction ps with
  | nil =>
    intro init _
    refine ⟨fun h => ?_, fun v _ h => ?_, fun vs h => ?_⟩
    · simpa [storeFoldV2, valsOf, promoteV2, promoteV1] using h
    · simpa [storeFoldV2, valsOf] using h
    · simpa [storeFoldV2, valsOf] using h
  | cons p rest ih =>
    obtain ⟨k, w⟩ := p
    intro init hv
    have hv' : ∀ q ∈ rest, q.1 = t → UVal.isList q.2 = false :=
      fun q hq => hv q (List.mem_cons_of_mem _ hq)
    by_cases hk : k = t
    · subst hk
      have hw : UVal.isList w = false := hv (k, w) (by simp) rfl
      refine ⟨fun h0 => ?_, fun v hvl h0 => ?_, fun vs h0 => ?_⟩
      · by_cases hc : k = pystr "chi"
        · have hst : lookupU k (V2.storeTagV2 init k w) = some (.list [w]) := by
            rw [lookupU_storeTagV2_self, h0]
            simp [hc]
          rw [storeFoldV2_cons, valsOf_cons_self,
            (ih (V2.storeTagV2 init k w) hv').2.2 [w] hst]
          simp [promoteV2, hc]
        · have hst : lookupU k (V2.storeTagV2 init k w) = some w := by
            rw [lookupU_storeTagV2_self, h0]
            simp [hc]
          rw [storeFoldV2_cons, valsOf_cons_self,
            (ih (V2.storeTagV2 init k w) hv').2.1 w hw hst]
          cases valsOf k rest <;> simp [promoteV2, promoteV1, hc]
      · have hst : lookupU k (V2.storeTagV2 init k w) = some (.list [v, w]) := by
          rw [lookupU_storeTagV2_self, h0]
          cases v with
          | list xs => simp [UVal.isList] at hvl
          | pv a => rfl
          | arr a => rfl
          | mat a => rfl
          | lines a => rfl
          | dict a => rfl
        rw [storeFoldV2_cons, valsOf_cons_self,
          (ih (V2.storeTagV2 init k w) hv').2.2 [v, w] hst]
        cases valsOf k rest <;> simp
      · have hst : lookupU k (V2.storeTagV2 init k w) = some (.list (vs ++ [w])) := by
          rw [lookupU_storeTagV2_self, h0]
        rw [storeFoldV2_cons, valsOf_cons_self,
          (ih (V2.storeTagV2 init k w) hv').2.2 (vs ++ [w]) hst]
        simp
    · have hlk : ∀ x, lookupU t (V2.storeTagV2 init k x) = lookupU t init :=
        fun x => lookupU_storeTagV2_ne t k (fun h => hk h.symm) init x
      have hvv : valsOf t ((k, w) :: rest) = valsOf t rest := valsOf_cons_ne t k hk w rest
      refine ⟨fun h0 => ?_, fun v hvl h0 => ?_, fun vs h0 => ?_⟩
      · rw [storeFoldV2_cons, hvv,
          ((ih (V2.storeTagV2 init k w) hv').1 (by rw [hlk, h0]))]
      · rw [storeFoldV2_cons, hvv,
          ((ih (V2.storeTagV2 init k w) hv').2.1 v hvl (by rw [hlk, h0]))]
      · rw [storeFoldV2_cons, hvv,
          ((ih (V2.storeTagV2 init k w) hv').2.2 vs (by rw [hlk, h0]))]

/-- The v2 child loop is exactly the `storeTagV2` fold over the child
results in source order. -/
theorem v2ChildLoop_eq_fold (rec : V2.XElem → Except Err UVal)
    (cs : List V2.XElem) : ∀ res,
    V2.v2ChildLoop rec res cs =
      (mapExcept (fun c => (rec c).map (fun r => (V2.normTag c.tag, r))) cs).map
        (fun ps => storeFoldV2 res ps) := by
  induction cs with
  | nil => intro res; rfl
  | cons c cs ih =>
    intro res
    have l1 : V2.v2ChildLoop rec res (c :: cs) =
        (rec c).bind (fun cr =>
          V2.v2ChildLoop rec (V2.storeTagV2 res (V2.normTag c.tag) cr) cs) := rfl
    have r1 : mapExcept (fun c => (rec c).map (fun r => (V2.normTag c.tag, r))) (c :: cs) =
        ((rec c).map (fun r => (V2.normTag c.tag, r))).bind (fun y =>
          (mapExcept (fun c => (rec c).map (fun r => (V2.normTag c.tag, r))) cs).bind
            (fun ys => .ok (y :: ys))) := rfl
    rw [l1, r1]
    cases h : rec c with
    | error e => rfl
    | ok cr =>
      show V2.v2ChildLoop rec (V2.storeTagV2 res (V2.normTag c.tag) cr) cs = _
      rw [ih (V2.storeTagV2 res (V2.normTag c.tag) cr)]
      cases hm : mapExcept (fun c => (rec c).map (fun r => (V2.normTag c.tag, r))) cs with
      | error e => rfl
      | ok ps => rfl

/-- C2 (amended): for both decomposers, iterating the storage step over
the child `(tag, value)` pairs in source order — starting from a
dictionary in which the tag is *fresh* (no collision with a text
`content` key in v1 or an attribute key in v2), the child values
themselves not being lists — stores a tag occurring `k ≥ 2` times as a
list of its `k` values in source order (the first occurrence never left
bare), and a tag occurring exactly once as a bare value, *except* that
in the v2 decomposer alone a tag normalising to `chi` is stored as a
one-element list even on a single occurrence.  The unamended claim's
"chi always a sequence" clause is false for the v1 decomposer, which has
no `chi` special case: see the counterexample. -/
theorem tag_promotion_amended (init ps : List (PyStr × UVal)) (t : PyStr)
    (hinit : lookupU t init = none)
    (hvals : ∀ p ∈ ps, p.1 = t → UVal.isList p.2 = false) :
    lookupU t (storeFoldV1 init ps) = promoteV1 (valsOf t ps) ∧
    lookupU t (storeFoldV2 init ps) = promoteV2 t (valsOf t ps) :=
  ⟨(storeFoldV1_char t ps init hvals).1 hinit,
   (storeFoldV2_char t ps init hvals).1 hinit⟩

theorem tag_promotion_amended_witness :
    lookupU (pystr "chi")
      (storeFoldV1 [] [(pystr "chi", .pv (.int 3)), (pystr "foo", .pv (.int 4))]) =
      promoteV1 (valsOf (pystr "chi")
        [(pystr "chi", .pv (.int 3)), (pystr "foo", .pv (.int 4))]) ∧
    lookupU (pystr "chi")
      (storeFoldV2 [] [(pystr "chi", .pv (.int 3)), (pystr "foo", .pv (.int 4))]) =
      promoteV2 (pystr "chi") (valsOf (pystr "chi")
        [(pystr "chi", .pv (.int 3)), (pystr "foo", .pv (.int 4))]) :=
  tag_promotion_amended [] [(pystr "chi", .pv (.int 3)), (pystr "foo", .pv (.int 4))]
    (pystr "chi") rfl (by decide)

/-- A v1 document with a repeated sibling tag (`PP_FOO` twice) and a
single `PP_CHI` sibling at the same level. -/
def docChi : PyStr :=
  pystr "<PP_FOO>\n1\n</PP_FOO>\n<PP_FOO>\n2\n</PP_FOO>\n<PP_CHI>\n3\n</PP_CHI>"

/-- C2 counterexample: the v1 decomposer stores the repeated tag `foo`
as a two-element list, but the once-occurring tag `chi` as a *bare*
mapping — `v1.block_to_dict` has no `chi` special case, so the claim's
"a tag normalising to 'chi' is stored as a list even on a single
occurrence" fails for v1 documents. -/
theorem tag_promotion_cex :
    V1.upfv1contents_to_dict docChi = .ok [
      (pystr "foo", .list [.dict [(pystr "content", .lines [pystr "1"])],
                           .dict [(pystr "content", .lines [pystr "2"])]]),
      (pystr "chi", .dict [(pystr "content", .lines [pystr "3"])])] := rfl

/-- The minimal v1 document of the C4 claim, with the header body
holding the version-number line plus the ten positional schema lines
(11 lines in total, as `sanitise_header`'s accesses `splitlines[1]`
through `splitlines[10]` require). -/
def docC4 : PyStr := pystr "<PP_HEADER>\n   0  Version Number\n  Si Element\n   NC Norm - Conserving pseudopotential\n    F Nonlinear Core Correction\n SLA PZ NOGX NOGC PZ Exchange-Correlation functional\n  4.00000000000 Z valence\n  0.00000000000 Total energy\n  0.00000 0.00000 Suggested cutoffs\n  1 Max angular momentum\n  3 Number of points in mesh\n 1 0 Number of wavefunctions, projectors\n</PP_HEADER>\n<PP_MESH>\n<PP_R>\n0.0 0.1 0.2\n</PP_R>\n</PP_MESH>"

/-- The same document with a 10-line header body (the first ten lines of
the schema; the wavefunction/projector-count line is absent). -/
def docC4short : PyStr := pystr "<PP_HEADER>\n   0  Version Number\n  Si Element\n   NC Norm - Conserving pseudopotential\n    F Nonlinear Core Correction\n SLA PZ NOGX NOGC PZ Exchange-Correlation functional\n  4.00000000000 Z valence\n  0.00000000000 Total energy\n  0.00000 0.00000 Suggested cutoffs\n  1 Max angular momentum\n  3 Number of points in mesh\n</PP_HEADER>\n<PP_MESH>\n<PP_R>\n0.0 0.1 0.2\n</PP_R>\n</PP_MESH>"

/-- C4 (amended): with an 11-line header body — the ten positional
schema lines preceded by the version-number line, since
`sanitise_header` reads `splitlines[1]` … `splitlines[10]` —
`upfv1contents_to_dict` succeeds, `header.mesh_size` equals the declared
mesh size (3) and `mesh.r` is the float array [0.0, 0.1, 0.2].  The
unamended 10-line claim fails: see the counterexample. -/
theorem v1_minimal_doc_amended :
    (V1.upfv1contents_to_dict docC4).map (fun d =>
      ((lookupU (pystr "header") d).bind (fun h => match h with
         | .dict hd => lookupU (pystr "mesh_size") hd
         | _ => none),
       (lookupU (pystr "mesh") d).bind (fun m => match m with
         | .dict md => lookupU (pystr "r") md
         | _ => none)))
    = .ok (some (.pv (.int 3)), some (.arr [⟨0, 0⟩, ⟨1, -1⟩, ⟨2, -1⟩])) := rfl

/-- C4 counterexample: with the 10-line header body the claim promises,
`sanitise_header`'s access to `splitlines[10]` is out of range and the
whole parse raises IndexError instead of succeeding. -/
theorem v1_minimal_doc_cex :
    V1.upfv1contents_to_dict docC4short = .error .indexError := rfl

theorem unpack3_ok {α : Type} {xs : List α} {t : α × α × α}
    (h : unpack3 xs = .ok t) : xs = [t.1, t.2.1, t.2.2] := by
  rcases xs with _ | ⟨a, _ | ⟨b, _ | ⟨c, _ | ⟨d, rest⟩⟩⟩⟩ <;>
    simp [unpack3] at h
  rw [← h]

theorem dijRow_col {l : PyStr} {t : Dec × Int × Int}
    (h : V1.dijRow l = .ok t) :
    (pyIdx (splitWS l) 1).bind pyIntParse = .ok t.2.2 := by
  unfold V1.dijRow at h
  obtain ⟨tr, htr, h⟩ := bind_ok_inv h
  obtain ⟨i, j, v⟩ := tr
  obtain ⟨dv, hdv, h⟩ := bind_ok_inv h
  obtain ⟨iz, hiz, h⟩ := bind_ok_inv h
  obtain ⟨jz, hjz, h⟩ := bind_ok_inv h
  simp only [Except.ok.injEq] at h
  have hsp := unpack3_ok htr
  rw [hsp, show pyIdx [i, j, v] 1 = .ok j from rfl]
  rw [show ((Except.ok j : Except Err PyStr).bind pyIntParse) = pyIntParse j from rfl]
  rw [hjz, ← h]

theorem mapExcept_cons_inv {α β : Type} {f : α → Except Err β} {x : α} {xs : List α}
    {ys : List β} (h : mapExcept f (x :: xs) = .ok ys) :
    ∃ y ys2, f x = .ok y ∧ mapExcept f xs = .ok ys2 ∧ ys = y :: ys2 := by
  unfold mapExcept at h
  obtain ⟨y, hy, h⟩ := bind_ok_inv h
  obtain ⟨ys2, hys2, h⟩ := bind_ok_inv h
  simp only [Except.ok.injEq] at h
  exact ⟨y, ys2, hy, hys2, h.symm⟩

theorem mapExcept_dijRow_cols :
    ∀ (lines : List PyStr) (rows : List (Dec × Int × Int)),
    mapExcept V1.dijRow lines = .ok rows →
    mapExcept (fun l => (pyIdx (splitWS l) 1).bind pyIntParse) lines =
      .ok (rows.map (fun r => r.2.2)) := by
  intro lines
  induction lines with
  | nil =>
    intro rows h
    simp only [mapExcept, Except.ok.injEq] at h
    rw [← h]
    rfl
  | cons l ls ih =>
    intro rows h
    obtain ⟨y, ys2, hy, hys2, hcons⟩ := mapExcept_cons_inv h
    subst hcons
    have hcol := dijRow_col hy
    have hrest := ih ys2 hys2
    show ((pyIdx (splitWS l) 1).bind pyIntParse).bind
      (fun y => (mapExcept (fun l => (pyIdx (splitWS l) 1).bind pyIntParse) ls).bind
        (fun ys => .ok (y :: ys))) = _
    rw [hcol, show ((Except.ok y.2.2 : Except Err Int).bind
      (fun z => (mapExcept (fun l => (pyIdx (splitWS l) 1).bind pyIntParse) ls).bind
        (fun ys => .ok (z :: ys)))) = (mapExcept (fun l => (pyIdx (splitWS l) 1).bind
          pyIntParse) ls).bind (fun ys => .ok (y.2.2 :: ys)) from rfl, hrest]
    rfl

theorem foldl_max_bounds (xs : List Int) :
    ∀ x0 : Int, x0 ≤ xs.foldl max x0 ∧ ∀ x ∈ xs, x ≤ xs.foldl max x0 := by
  induction xs with
  | nil => intro x0; simp
  | cons y ys ih =>
    intro x0
    have h1 := ih (max x0 y)
    constructor
    · calc x0 ≤ max x0 y := le_max_left _ _
        _ ≤ ys.foldl max (max x0 y) := h1.1
    · intro x hx
      rcases List.mem_cons.mp hx with h | h
      · subst h
        calc x ≤ max x0 x := le_max_right _ _
          _ ≤ ys.foldl max (max x0 x) := (ih (max x0 x)).1
      · exact h1.2 x h

theorem pyMaxIntList_spec {xs : List Int} {m : Int}
    (h : pyMaxIntList xs = .ok m) :
    (∀ x ∈ xs, x ≤ m) ∧ ∃ x0, xs.head? = some x0 := by
  cases xs with
  | nil => simp [pyMaxIntList] at h
  | cons x0 rest =>
    simp only [pyMaxIntList, Except.ok.injEq] at h
    subst h
    refine ⟨?_, x0, rfl⟩
    intro x hx
    rcases List.mem_cons.mp hx with h | h
    · subst h; exact (foldl_max_bounds rest x).1
    · exact (foldl_max_bounds rest x0).2 x h

theorem getLast?_cons_eq {α : Type} (x : α) (l : List α) :
    (x :: l).getLast? = some (l.getLast?.getD x) := by
  induction l generalizing x with
  | nil => rfl
  | cons y ys ih =>
    rw [List.getLast?_cons_cons, ih y]
    rfl

theorem get?_replicate_lt {α : Type} (a : α) :
    ∀ {n i : Nat}, i < n → (List.replicate n a).get? i = some a := by
  intro n
  induction n with
  | zero => intro i h; omega
  | succ k ih =>
    intro i h
    cases i with
    | zero => rfl
    | succ i2 => exact ih (by omega)

theorem matGet_zeros (n : Nat) (r c : Nat) : matGet (zerosMat n) r c = ⟨0, 0⟩ := by
  unfold matGet zerosMat
  by_cases hr : r < n
  · rw [get?_replicate_lt _ hr]
    by_cases hc : c < n
    · rw [show (some (List.replicate n (⟨0, 0⟩ : Dec))).bind
        (fun row => row.get? c) = (List.replicate n (⟨0, 0⟩ : Dec)).get? c from rfl,
        get?_replicate_lt _ hc]
      rfl
    · rw [show (some (List.replicate n (⟨0, 0⟩ : Dec))).bind
        (fun row => row.get? c) = (List.replicate n (⟨0, 0⟩ : Dec)).get? c from rfl,
        List.get?_eq_none.mpr (by simp; omega)]
      rfl
  · rw [List.get?_eq_none.mpr (by simp; omega)]
    rfl

theorem zerosMat_len (n : Nat) : (zerosMat n).length = n := by
  simp [zerosMat]

theorem zerosMat_rows (n : Nat) :
    ∀ k row, (zerosMat n).get? k = some row → row.length = n := by
  intro k row h
  unfold zerosMat at h
  by_cases hk : k < n
  · rw [get?_replicate_lt _ hk] at h
    cases h
    simp
  · rw [List.get?_eq_none.mpr (by simp; omega)] at h
    cases h

theorem npSet2_spec {mt : List (List Dec)} {N : Nat} (i j : Int) (v : Dec)
    (hlen : mt.length = N) (hrows : ∀ k row, mt.get? k = some row → row.length = N)
    (hi : 0 ≤ i ∧ i < (N : Int)) (hj : 0 ≤ j ∧ j < (N : Int)) :
    ∃ mt2, npSet2 mt i j v = .ok mt2 ∧ mt2.length = N ∧
      (∀ k row, mt2.get? k = some row → row.length = N) ∧
      ∀ r c : Nat, matGet mt2 r c =
        if r = i.toNat ∧ c = j.toNat then v else matGet mt r c := by
  have hitn : i.toNat < N := by omega
  have hgr : ∃ row, mt.get? i.toNat = some row := by
    cases hg : mt.get? i.toNat with
    | none =>
      exfalso
      have := List.get?_eq_none.mp hg
      omega
    | some row => exact ⟨row, rfl⟩
  obtain ⟨row, hrow⟩ := hgr
  have hrlen : row.length = N := hrows _ _ hrow
  have hred : npSet2 mt i j v = .ok (mt.set i.toNat (row.set j.toNat v)) := by
    unfold npSet2
    dsimp only
    rw [show (if i < 0 then ((mt.length : Int)) + i else i) = i from if_neg (by omega),
      if_pos (by constructor <;> omega), hrow]
    dsimp only
    rw [show (if j < 0 then ((row.length : Int)) + j else j) = j from if_neg (by omega),
      if_pos (by constructor <;> omega)]
  refine ⟨mt.set i.toNat (row.set j.toNat v), hred, by simp [hlen], ?_, ?_⟩
  · intro k row2 hk
    by_cases hki : k = i.toNat
    · subst hki
      rw [List.get?_set_eq_of_lt _ (by omega)] at hk
      cases hk
      simp [hrlen]
    · rw [List.get?_set_ne _ _ (fun hh => hki hh.symm)] at hk
      exact hrows _ _ hk
  · intro r c
    by_cases hr : r = i.toNat
    · subst hr
      unfold matGet
      rw [List.get?_set_eq_of_lt _ (by omega)]
      by_cases hc : c = j.toNat
      · subst hc
        rw [show (some (row.set j.toNat v)).bind (fun rw2 => rw2.get? j.toNat) =
          (row.set j.toNat v).get? j.toNat from rfl,
          List.get?_set_eq_of_lt _ (by omega), if_pos ⟨rfl, rfl⟩]
        rfl
      · rw [show (some (row.set j.toNat v)).bind (fun rw2 => rw2.get? c) =
          (row.set j.toNat v).get? c from rfl,
          List.get?_set_ne _ _ (fun hh => hc hh.symm), if_neg (by tauto), hrow]
        rfl
    · unfold matGet
      rw [List.get?_set_ne _ _ (fun hh => hr hh.symm), if_neg (by tauto)]

theorem dijLoop_spec (N : Nat) :
    ∀ (lines : List PyStr) (rows : List (Dec × Int × Int)) (mt : List (List Dec)),
    mapExcept V1.dijRow lines = .ok rows →
    mt.length = N → (∀ k row, mt.get? k = some row → row.length = N) →
    (∀ x ∈ rows, 1 ≤ x.2.1 ∧ x.2.1 ≤ (N : Int) ∧ 1 ≤ x.2.2 ∧ x.2.2 ≤ (N : Int)) →
    ∃ mt2, V1.dijLoop mt lines = .ok mt2 ∧ mt2.length = N ∧
      (∀ k row, mt2.get? k = some row → row.length = N) ∧
      ∀ r c : Nat, matGet mt2 r c =
        (((rows.filter (fun x => decide (x.2.1 - 1 = (r : Int)) &&
            decide (x.2.2 - 1 = (c : Int)))).getLast?.map (fun x => x.1)).getD
          (matGet mt r c)) := by
  intro lines
  induction lines with
  | nil =>
    intro rows mt h hlen hrows _
    simp only [mapExcept, Except.ok.injEq] at h
    subst h
    exact ⟨mt, rfl, hlen, hrows, fun r c => rfl⟩
  | cons l ls ih =>
    intro rows mt h hlen hrows hbnd
    obtain ⟨y, ys, hy, hys, hcons⟩ := mapExcept_cons_inv h
    subst hcons
    obtain ⟨dv, iz, jz⟩ := y
    have hb := hbnd (dv, iz, jz) (by simp)
    dsimp only at hb
    obtain ⟨mt1, hset, hlen1, hrows1, hget1⟩ :=
      @npSet2_spec mt N (iz - 1) (jz - 1) dv hlen hrows
        (by constructor <;> omega) (by constructor <;> omega)
    have hred : V1.dijLoop mt (l :: ls) = V1.dijLoop mt1 ls := by
      rw [V1.dijLoop, hy]
      show (npSet2 mt (iz - 1) (jz - 1) dv).bind (fun mt2 => V1.dijLoop mt2 ls) =
        V1.dijLoop mt1 ls
      rw [hset]
      rfl
    have hbnd' : ∀ x ∈ ys, 1 ≤ x.2.1 ∧ x.2.1 ≤ (N : Int) ∧ 1 ≤ x.2.2 ∧ x.2.2 ≤ (N : Int) :=
      fun x hx => hbnd x (by simp [hx])
    obtain ⟨mt2, hloop, hlen2, hrows2, hget2⟩ := ih ys mt1 hys hlen1 hrows1 hbnd'
    refine ⟨mt2, by rw [hred, hloop], hlen2, hrows2, ?_⟩
    intro r c
    rw [hget2 r c]
    have hfc : ((dv, iz, jz) :: ys).filter (fun x => decide (x.2.1 - 1 = (r : Int)) &&
        decide (x.2.2 - 1 = (c : Int))) =
        (if (decide (iz - 1 = (r : Int)) && decide (jz - 1 = (c : Int))) = true
         then (dv, iz, jz) :: ys.filter (fun x => decide (x.2.1 - 1 = (r : Int)) &&
           decide (x.2.2 - 1 = (c : Int)))
         else ys.filter (fun x => decide (x.2.1 - 1 = (r : Int)) &&
           decide (x.2.2 - 1 = (c : Int)))) := by
      rw [List.filter_cons]
    rw [hfc]
    by_cases hp : (decide (iz - 1 = (r : Int)) && decide (jz - 1 = (c : Int))) = true
    · rw [if_pos hp]
      simp only [Bool.and_eq_true, decide_eq_true_eq] at hp
      have hrt : r = (iz - 1).toNat := by omega
      have hct : c = (jz - 1).toNat := by omega
      rw [hget1 r c, if_pos ⟨hrt, hct⟩, getLast?_cons_eq]
      cases hfl : (ys.filter (fun x => decide (x.2.1 - 1 = (r : Int)) &&
          decide (x.2.2 - 1 = (c : Int)))).getLast? with
      | none => rfl
      | some w => rfl
    · rw [if_neg hp]
      simp only [Bool.and_eq_true, decide_eq_true_eq, not_and_or] at hp
      have hne : ¬ (r = (iz - 1).toNat ∧ c = (jz - 1).toNat) := by
        rcases hp with hp | hp
        · intro hx
          exact hp (by omega)
        · intro hx
          exact hp (by omega)
      rw [hget1 r c, if_neg hne]

theorem okBind {α β : Type} (a : α) (f : α → Except Err β) :
    (Except.ok a : Except Err α).bind f = f a := rfl

/-- C3 (amended): `sanitise_dij` infers the matrix dimension as the
maximum *column* index `int(line.split()[1])` over the triples — not the
maximum of both indices, as claimed.  Provided every row index also lies
within `1 … m` (the claim's counterexample `(2, 1, 5.0)` violates this
and raises IndexError instead), the result is an `m × m` matrix holding
each value at 0-based `(row-1, column-1)` (last write wins) with every
unreferenced cell zero, together with `type = "real"` and `size = m²`.
The claim's own `(2, 2, 5.0)` instance satisfies the amended hypotheses:
see the witness. -/
theorem dij_matrix_amended (ls : List PyStr) (rows : List (Dec × Int × Int)) (m : Int)
    (hrows : mapExcept V1.dijRow (ls.drop 1) = .ok rows)
    (hm : pyMaxIntList (rows.map (fun r => r.2.2)) = .ok m)
    (hbnd : ∀ x ∈ rows, 1 ≤ x.2.1 ∧ x.2.1 ≤ m ∧ 1 ≤ x.2.2) :
    ∃ mt, V1.sanitise_dij [(pystr "content", .lines ls)] = .ok (.dict [
        (pystr "type", .pv (.str (pystr "real"))),
        (pystr "size", .pv (.int (m * m))),
        (pystr "content", .mat mt)]) ∧
      (mt.length : Int) = m ∧ (∀ row ∈ mt, (row.length : Int) = m) ∧
      ∀ r c : Nat, matGet mt r c =
        (((rows.filter (fun x => decide (x.2.1 - 1 = (r : Int)) &&
            decide (x.2.2 - 1 = (c : Int)))).getLast?.map (fun x => x.1)).getD ⟨0, 0⟩) := by
  obtain ⟨hle, x0, hx0⟩ := pyMaxIntList_spec hm
  have hm1 : 1 ≤ m := by
    rcases rows with _ | ⟨r0, rest⟩
    · simp at hx0
    · have h1 : 1 ≤ r0.2.2 := (hbnd r0 (by simp)).2.2
      have h2 : r0.2.2 ≤ m := hle _ (by simp)
      omega
  have hNm : ((m.toNat : Int)) = m := by omega
  have hbnd2 : ∀ x ∈ rows, 1 ≤ x.2.1 ∧ x.2.1 ≤ ((m.toNat : Nat) : Int) ∧
      1 ≤ x.2.2 ∧ x.2.2 ≤ ((m.toNat : Nat) : Int) := by
    intro x hx
    have h1 := hbnd x hx
    have h2 : x.2.2 ≤ m := hle _ (List.mem_map_of_mem _ hx)
    refine ⟨h1.1, by omega, h1.2.2, by omega⟩
  obtain ⟨mt2, hloop, hlen2, hrows2, hget2⟩ :=
    dijLoop_spec m.toNat (ls.drop 1) rows (zerosMat m.toNat) hrows
      (zerosMat_len m.toNat) (zerosMat_rows m.toNat) hbnd2
  have hcols := mapExcept_dijRow_cols (ls.drop 1) rows hrows
  have e1 : V1.sanitise_dij [(pystr "content", UVal.lines ls)] =
      (mapExcept (fun l => (pyIdx (splitWS l) 1).bind pyIntParse) (ls.drop 1)).bind
        (fun cols => (pyMaxIntList cols).bind (fun length =>
          if length < 0 then
            .error (.valueError (pystr "negative dimensions are not allowed"))
          else (V1.dijLoop (zerosMat length.toNat) (ls.drop 1)).bind
            (fun mt => .ok (.dict [
              (pystr "type", .pv (.str (pystr "real"))),
              (pystr "size", .pv (.int (length * length))),
              (pystr "content", .mat mt)])))) := rfl
  refine ⟨mt2, ?_, by omega, ?_, ?_⟩
  · rw [e1, hcols, okBind, hm, okBind, if_neg (by omega), hloop, okBind]
  · intro row hrow
    obtain ⟨k, hk⟩ := List.mem_iff_get?.mp hrow
    have := hrows2 k row hk
    omega
  · intro r c
    rw [hget2 r c, matGet_zeros]

theorem dij_matrix_amended_witness :
    ∃ mt, V1.sanitise_dij [(pystr "content",
        .lines [pystr "DIJ", pystr " 2 2 5.0"])] = .ok (.dict [
        (pystr "type", .pv (.str (pystr "real"))),
        (pystr "size", .pv (.int ((2 : Int) * 2))),
        (pystr "content", .mat mt)]) ∧
      (mt.length : Int) = 2 ∧ (∀ row ∈ mt, (row.length : Int) = 2) ∧
      ∀ r c : Nat, matGet mt r c =
        ((([((⟨5, 0⟩ : Dec), (2 : Int), (2 : Int))].filter
            (fun x => decide (x.2.1 - 1 = (r : Int)) &&
              decide (x.2.2 - 1 = (c : Int)))).getLast?.map (fun x => x.1)).getD ⟨0, 0⟩) :=
  dij_matrix_amended [pystr "DIJ", pystr " 2 2 5.0"] [(⟨5, 0⟩, 2, 2)] 2
    (by decide) (by decide) (by decide)

/-- C3 counterexample: a dij block whose only triple is `(2, 1, 5.0)`.
The claim promises a 2×2 matrix with 5.0 at 0-based `(1, 0)`; the code
instead sizes the matrix by the maximum *column* index (1), so the
assignment to row 2 is out of range and raises IndexError. -/
theorem dij_matrix_cex :
    V1.sanitise_dij [(pystr "content", .lines [pystr "DIJ", pystr " 2 1 5.0"])]
      = .error .indexError := rfl

/-! ## Fixed-width float formatting (`f"{v:20.15f}"`, `f"{v:25.15e}"`,
`f"{v:18.12e}"`)

The embedded floats are exact decimals, so the decimal-rounding step of
CPython's float formatting is modelled as round-to-nearest-even on the
exact decimal value (double-precision binary artifacts are outside the
model, as everywhere in this embedding). -/

/-- Round `num / den` to the nearest integer, ties to even (`den > 0`). -/
def rneN (num den : Nat) : Nat :=
  let q := num / den
  let r := num % den
  if 2 * r < den then q
  else if den < 2 * r then q + 1
  else if q % 2 = 0 then q else q + 1

/-- `|d|` rounded to `prec + 1` significant digits, with the decimal
exponent of the result: returns `(k, E)` with `k` of `prec + 1` digits
(unless `d = 0`) and `value ≈ k * 10^(E - prec)`. -/
def roundSigParts (prec : Nat) (d : Dec) : Nat × Int :=
  let a := d.m.natAbs
  let ds := natDigits a
  let n := ds.length
  let E : Int := (n : Int) - 1 + d.e
  let k : Nat :=
    if n ≤ prec + 1 then a * 10 ^ (prec + 1 - n)
    else rneN a (10 ^ (n - (prec + 1)))
  if k = 10 ^ (prec + 1) then (10 ^ prec, E + 1) else (k, E)

/-- The value of `d` rounded to `prec + 1` significant decimal digits,
as an exact decimal (the value a `%.{prec}e` format records). -/
def roundSig (prec : Nat) (d : Dec) : Dec :=
  if d.m = 0 then ⟨0, 0⟩
  else
    let (k, E) := roundSigParts prec d
    Dec.norm ⟨if d.m < 0 then -(k : Int) else (k : Int), E - (prec : Int)⟩

/-- The unpadded token of `f"{v:.{prec}e}"`: scientific notation with
`prec` digits after the point and a two-digit (at least) exponent. -/
def fmtSciCore (prec : Nat) (d : Dec) : PyStr :=
  if d.m = 0 then '0' :: '.' :: zeros prec ++ pystr "e+00"
  else
    let (k, E) := roundSigParts prec d
    let kds := natDigits k
    let mant := kds.take 1 ++ '.' :: kds.drop 1
    let esign := if E < 0 then '-' else '+'
    let eds := natDigits E.natAbs
    let eds2 := if eds.length < 2 then '0' :: eds else eds
    (if d.m < 0 then ['-'] else []) ++ mant ++ 'e' :: esign :: eds2

/-- Python `f"{v:{w}.{prec}e}"`: the scientific token right-aligned to
width `w`. -/
def fmtSci (w prec : Nat) (d : Dec) : PyStr := padTo w (fmtSciCore prec d)

/-- Python `f"{v:{w}.{prec}f}"`: fixed-point notation with `prec` digits
after the point, right-aligned to width `w` (a negative value that
rounds to zero keeps its sign, as CPython prints `-0.000…`). -/
def fmtFixed (w prec : Nat) (d : Dec) : PyStr :=
  let ka : Nat :=
    if 0 ≤ d.e + (prec : Int) then d.m.natAbs * 10 ^ (d.e + (prec : Int)).toNat
    else rneN d.m.natAbs (10 ^ (-(d.e + (prec : Int))).toNat)
  let ds := natDigits ka
  let ds2 := if ds.length < prec + 1 then zeros (prec + 1 - ds.length) ++ ds else ds
  let ip := ds2.take (ds2.length - prec)
  let fp := ds2.drop (ds2.length - prec)
  padTo w ((if d.m < 0 then ['-'] else []) ++ ip ++ '.' :: fp)

/-! ## `.dat` generation (`UPFDict.to_dat`, legacy `Pseudopotential.to_dat`) -/

/-- Python `dct[key]` on a decomposed UPF dictionary (KeyError when the
key is absent). -/
def getItem (d : List (PyStr × UVal)) (k : PyStr) : Except Err UVal :=
  match lookupU k d with
  | some v => .ok v
  | none => .error (.keyError k)

/-- Use a value as a nested dictionary (the decomposers store blocks as
dictionaries; anything else raises at the subscript). -/
def asDict : UVal → Except Err (List (PyStr × UVal))
  | .dict e => .ok e
  | _ => .error .typeError

/-- `np.transpose` of a rectangular list of rows (the only shape numpy
accepts here; the default on a ragged or empty input is immaterial). -/
def npTranspose (rows : List (List Dec)) : List (List Dec) :=
  (List.range ((rows.head?.map List.length).getD 0)).map
    (fun i => rows.map (fun ct => ct.getD i ⟨0, 0⟩))

/-- Abstract stand-in for `np.log` on one mesh value.  The logarithm's
numeric values are outside the exact-decimal model; every property
proved below holds for an arbitrary function in its place (the
`…With` variants take it as a parameter), so the stand-in's values are
never relied upon. -/
def npLog (d : Dec) : Dec := d

/-- Abstract stand-in for `np.exp`, as `npLog`. -/
def npExp (d : Dec) : Dec := d

/-- Strict lexicographic order on the `(l, n)` sort keys. -/
def keyLt (a b : Int × Int) : Bool :=
  decide (a.1 < b.1) || (decide (a.1 = b.1) && decide (a.2 < b.2))

/-- Insert into a sorted list, after any entry with an equal key (the
stability of Python's `sorted`). -/
def insSorted {α : Type} (key : α → Int × Int) (x : α) : List α → List α
  | [] => [x]
  | y :: ys => if keyLt (key x) (key y) then x :: y :: ys else y :: insSorted key x ys

/-- Python `sorted(xs, key=...)`: stable sort by key. -/
def sortByKey {α : Type} (key : α → Int × Int) (xs : List α) : List α :=
  xs.foldl (fun acc x => insSorted key x acc) []

namespace UPF

/-- The `(chi["l"], chi["n"])` sort key of one wavefunction entry.  The
keys are compared as Python integers; the all-string case (possible for
v1-decomposed data, where `l` is stored as a string) is not modelled and
raises a TypeError here. -/
def chiKey (c : UVal) : Except Err (Int × Int) := do
  let e ← asDict c
  let lv ← getItem e (pystr "l")
  let nv ← getItem e (pystr "n")
  match lv, nv with
  | .pv a, .pv b => do
    let li ← pyValInt a
    let ni ← pyValInt b
    .ok (li, ni)
  | _, _ => .error .typeError

/-- `str(chi["l"])`. -/
def chiLStr (c : UVal) : Except Err PyStr := do
  let e ← asDict c
  let lv ← getItem e (pystr "l")
  match lv with
  | .pv a => .ok (pyValStr a)
  | _ => .error .typeError

/-- `chi["content"]` as a float array. -/
def chiContent (c : UVal) : Except Err (List Dec) := do
  let e ← asDict c
  let cv ← getItem e (pystr "content")
  match cv with
  | .arr a => .ok a
  | _ => .error .typeError

/-- The data rows of the `.dat` body:
`f"{x:20.15f} {r:20.15f} " + " ".join([f"{v:25.15e}" for v in row])`
over `zip(xmesh, rmesh, data)` (truncating at the shortest). -/
def datRows : List Dec → List Dec → List (List Dec) → List PyStr
  | x :: xs, r :: rs, row :: rows =>
    (fmtFixed 20 15 x ++ pystr " " ++ fmtFixed 20 15 r ++ pystr " " ++
      pyJoin (pystr " ") (row.map (fmtSci 25 15))) :: datRows xs rs rows
  | _, _, _ => []

/-- Embedding of `UPFDict.to_dat`, with the logarithm as a parameter. -/
def to_datWith (log : Dec → Dec) (d : List (PyStr × UVal)) : Except Err PyStr := do
  let mv ← getItem d (pystr "mesh")
  let md ← asDict mv
  let rv ← getItem md (pystr "r")
  let rmesh0 ← match rv with
    | .arr a => .ok a
    | _ => .error .typeError
  let rmesh := rmesh0.map (fun r => pyMax r ⟨1, -8⟩)
  let xmesh := rmesh.map log
  let pw ← getItem d (pystr "pswfc")
  let pd ← asDict pw
  if (lookupU (pystr "chi") pd).isNone then
    .error (.valueError
      (pystr "This pseudopotential does not contain any pseudo-wavefunctions"))
  else do
    let cv ← getItem pd (pystr "chi")
    let chis0 ← match cv with
      | .list cs => .ok cs
      | _ => .error .typeError
    let keyed ← mapExcept (fun c => (chiKey c).map (fun k => (k, c))) chis0
    let chis := sortByKey Prod.fst keyed
    let conts ← mapExcept (fun kc => chiContent kc.2) chis
    let data := npTranspose conts
    let lls ← mapExcept (fun kc => chiLStr kc.2) chis
    .ok (pyJoin (pystr "\n")
      ((intStr (rmesh.length : Int) ++ pystr " " ++ intStr (chis.length : Int)) ::
       pyJoin (pystr " ") lls :: datRows xmesh rmesh data))

/-- Embedding of `UPFDict.to_dat`. -/
def to_dat (d : List (PyStr × UVal)) : Except Err PyStr := to_datWith npLog d

end UPF

namespace Psp

/-- Embedding of the legacy `Pseudopotential.to_dat`, with the logarithm
as a parameter: no `pswfc` precondition check, the raw (unclamped) mesh
in the radius column, and the body rows built from
`zip(xmesh[1:], rmesh[1:], data[1:])`. -/
def to_datWith (log : Dec → Dec) (d : List (PyStr × UVal)) : Except Err PyStr := do
  let mv ← getItem d (pystr "mesh")
  let md ← asDict mv
  let rv ← getItem md (pystr "r")
  let rmesh ← match rv with
    | .arr a => .ok a
    | _ => .error .typeError
  let xmesh := rmesh.map (fun x => log (pyMax x ⟨1, -8⟩))
  let pw ← getItem d (pystr "pswfc")
  let pd ← asDict pw
  let cv ← getItem pd (pystr "chi")
  let chis0 ← match cv with
    | .list cs => .ok cs
    | _ => .error .typeError
  let keyed ← mapExcept (fun c => (UPF.chiKey c).map (fun k => (k, c))) chis0
  let chis := sortByKey Prod.fst keyed
  let conts ← mapExcept (fun kc => UPF.chiContent kc.2) chis
  let data := npTranspose conts
  let lls ← mapExcept (fun kc => UPF.chiLStr kc.2) chis
  .ok (pyJoin (pystr "\n")
    ((intStr (rmesh.length : Int) ++ pystr " " ++ intStr (chis.length : Int)) ::
     pyJoin (pystr " ") lls ::
     UPF.datRows (xmesh.drop 1) (rmesh.drop 1) (data.drop 1)))

/-- Embedding of `Pseudopotential.to_dat`. -/
def to_dat (d : List (PyStr × UVal)) : Except Err PyStr := to_datWith npLog d

end Psp

theorem err_bind {α β : Type} (e : Err) (f : α → Except Err β) :
    (Except.error e : Except Err α) >>= f = .error e := rfl

/-- C5 (amended): a container with *no* `pswfc` entry at all makes
`to_dat` raise an unhandled KeyError — `self["pswfc"]` is subscripted
before any check — for both `UPFDict.to_dat` and the legacy
`Pseudopotential.to_dat`.  The promised domain ValueError is raised by
`UPFDict.to_dat` only in the narrower case where a `pswfc` block is
present but holds no `chi` entry; in that same case the legacy
`Pseudopotential.to_dat`, which has no check, still raises KeyError. -/
theorem to_dat_missing_pswfc_amended (d : List (PyStr × UVal))
    (md : List (PyStr × UVal)) (rm : List Dec)
    (hmesh : lookupU (pystr "mesh") d = some (.dict md))
    (hr : lookupU (pystr "r") md = some (.arr rm)) :
    (lookupU (pystr "pswfc") d = none →
      UPF.to_dat d = .error (.keyError (pystr "pswfc")) ∧
      Psp.to_dat d = .error (.keyError (pystr "pswfc"))) ∧
    (∀ pd, lookupU (pystr "pswfc") d = some (.dict pd) →
      lookupU (pystr "chi") pd = none →
      UPF.to_dat d = .error (.valueError
        (pystr "This pseudopotential does not contain any pseudo-wavefunctions")) ∧
      Psp.to_dat d = .error (.keyError (pystr "chi"))) := by
  have h1 : getItem d (pystr "mesh") = .ok (.dict md) := by
    unfold getItem
    rw [hmesh]
  have h2 : getItem md (pystr "r") = .ok (.arr rm) := by
    unfold getItem
    rw [hr]
  constructor
  · intro hnone
    have h4 : getItem d (pystr "pswfc") = .error (.keyError (pystr "pswfc")) := by
      unfold getItem
      rw [hnone]
    constructor
    · show UPF.to_datWith npLog d = _
      unfold UPF.to_datWith
      simp only [h1, ok_bind, h2, asDict, h4, err_bind]
    · show Psp.to_datWith npLog d = _
      unfold Psp.to_datWith
      simp only [h1, ok_bind, h2, asDict, h4, err_bind]
  · intro pd hpd hchi
    have h4 : getItem d (pystr "pswfc") = .ok (.dict pd) := by
      unfold getItem
      rw [hpd]
    have h5 : getItem pd (pystr "chi") = .error (.keyError (pystr "chi")) := by
      unfold getItem
      rw [hchi]
    constructor
    · show UPF.to_datWith npLog d = _
      unfold UPF.to_datWith
      simp only [h1, ok_bind, h2, asDict, h4, hchi, Option.isNone_none, if_pos]
    · show Psp.to_datWith npLog d = _
      unfold Psp.to_datWith
      simp only [h1, ok_bind, h2, asDict, h4, h5, err_bind]

theorem to_dat_missing_pswfc_amended_witness :
    UPF.to_dat [(pystr "mesh", .dict [(pystr "r", .arr [⟨1, 0⟩])]),
        (pystr "pswfc", .dict [(pystr "beta", .pv (.int 1))])] =
      .error (.valueError
        (pystr "This pseudopotential does not contain any pseudo-wavefunctions")) ∧
    Psp.to_dat [(pystr "mesh", .dict [(pystr "r", .arr [⟨1, 0⟩])]),
        (pystr "pswfc", .dict [(pystr "beta", .pv (.int 1))])] =
      .error (.keyError (pystr "chi")) :=
  (to_dat_missing_pswfc_amended
    [(pystr "mesh", .dict [(pystr "r", .arr [⟨1, 0⟩])]),
     (pystr "pswfc", .dict [(pystr "beta", .pv (.int 1))])]
    [(pystr "r", .arr [⟨1, 0⟩])] [⟨1, 0⟩] rfl rfl).2
    [(pystr "beta", .pv (.int 1))] rfl rfl

/-- C5 counterexample: a parsed container with mesh data but no `pswfc`
entry.  The claim promises a typed domain error (a ValueError naming the
missing data); `UPFDict.to_dat` instead crashes with an unhandled
KeyError from the `self["pswfc"]` subscript. -/
theorem to_dat_missing_pswfc_cex :
    UPF.to_dat [(pystr "mesh", .dict [(pystr "r", .arr [⟨1, 0⟩])])] =
      .error (.keyError (pystr "pswfc")) := rfl

theorem keyLt_iff (a b : Int × Int) :
    keyLt a b = true ↔ (a.1 < b.1 ∨ (a.1 = b.1 ∧ a.2 < b.2)) := by
  unfold keyLt
  simp

theorem keyLt_asymm {a b : Int × Int} (h : keyLt a b = true) : keyLt b a = false := by
  rw [keyLt_iff] at h
  rw [show (false : Bool) = false from rfl, ← Bool.not_eq_true, keyLt_iff]
  omega

theorem keyLt_trans_neg {x y z : Int × Int} (h1 : keyLt x y = true)
    (h2 : keyLt z y = false) : keyLt z x = false := by
  rw [keyLt_iff] at h1
  rw [← Bool.not_eq_true, keyLt_iff] at h2
  rw [← Bool.not_eq_true, keyLt_iff]
  omega

theorem insSorted_perm {α : Type} (key : α → Int × Int) (x : α) (l : List α) :
    List.Perm (insSorted key x l) (x :: l) := by
  induction l with
  | nil => exact List.Perm.refl _
  | cons y ys ih =>
    unfold insSorted
    by_cases h : keyLt (key x) (key y) = true
    · rw [if_pos h]
    · rw [if_neg h]
      exact (List.Perm.cons y ih).trans (List.Perm.swap x y ys)

theorem sortFold_perm {α : Type} (key : α → Int × Int) (xs : List α) :
    ∀ acc, List.Perm (xs.foldl (fun a x => insSorted key x a) acc) (acc ++ xs) := by
  induction xs with
  | nil => intro acc; simp
  | cons x xs ih =>
    intro acc
    have h1 := ih (insSorted key x acc)
    have h2 := (insSorted_perm key x acc).append_right xs
    exact (h1.trans h2).trans List.perm_middle.symm

theorem sortByKey_perm {α : Type} (key : α → Int × Int) (xs : List α) :
    List.Perm (sortByKey key xs) xs := by
  have h := sortFold_perm key xs []
  simpa [sortByKey] using h

theorem insSorted_mem {α : Type} {key : α → Int × Int} {x z : α} {l : List α}
    (h : z ∈ insSorted key x l) : z = x ∨ z ∈ l := by
  have h2 := (insSorted_perm key x l).mem_iff.mp h
  simpa using h2

theorem insSorted_pairwise {α : Type} (key : α → Int × Int) (x : α) (l : List α)
    (h : l.Pairwise (fun a b => keyLt (key b) (key a) = false)) :
    (insSorted key x l).Pairwise (fun a b => keyLt (key b) (key a) = false) := by
  induction l with
  | nil => simp [insSorted]
  | cons y ys ih =>
    rw [List.pairwise_cons] at h
    unfold insSorted
    by_cases hp : keyLt (key x) (key y) = true
    · rw [if_pos hp]
      refine List.Pairwise.cons ?_ (List.Pairwise.cons h.1 h.2)
      intro z hz
      rcases List.mem_cons.mp hz with hz | hz
      · subst hz
        exact keyLt_asymm hp
      · exact keyLt_trans_neg hp (h.1 z hz)
    · rw [if_neg hp]
      refine List.Pairwise.cons ?_ (ih h.2)
      intro z hz
      rcases insSorted_mem hz with hz | hz
      · subst hz
        exact Bool.not_eq_true _ ▸ hp
      · exact h.1 z hz

theorem sortFold_pairwise {α : Type} (key : α → Int × Int) (xs : List α) :
    ∀ acc, acc.Pairwise (fun a b => keyLt (key b) (key a) = false) →
    (xs.foldl (fun a x => insSorted key x a) acc).Pairwise
      (fun a b => keyLt (key b) (key a) = false) := by
  induction xs with
  | nil => intro acc h; exact h
  | cons x xs ih =>
    intro acc h
    exact ih (insSorted key x acc) (insSorted_pairwise key x acc h)

theorem sortByKey_pairwise {α : Type} (key : α → Int × Int) (xs : List α) :
    (sortByKey key xs).Pairwise (fun a b => keyLt (key b) (key a) = false) :=
  sortFold_pairwise key xs [] (List.Pairwise.nil)

theorem npTranspose_len (c0 : List Dec) (rest : List (List Dec)) :
    (npTranspose (c0 :: rest)).length = c0.length := by
  simp [npTranspose]

theorem npTranspose_get (conts : List (List Dec)) (c0 : List Dec)
    (rest : List (List Dec)) (hc : conts = c0 :: rest) (i : Nat) (hi : i < c0.length) :
    (npTranspose conts).get? i = some (conts.map (fun ct => ct.getD i ⟨0, 0⟩)) := by
  subst hc
  unfold npTranspose
  rw [List.get?_map, List.get?_range (by simpa using hi)]
  rfl

theorem datRows_spec :
    ∀ (xs rs : List Dec) (rows : List (List Dec)),
    xs.length = rs.length → rs.length = rows.length →
    (UPF.datRows xs rs rows).length = xs.length ∧
    (∀ i x r row, xs.get? i = some x → rs.get? i = some r → rows.get? i = some row →
      (UPF.datRows xs rs rows).get? i = some (fmtFixed 20 15 x ++ pystr " " ++
        fmtFixed 20 15 r ++ pystr " " ++ pyJoin (pystr " ") (row.map (fmtSci 25 15)))) := by
  intro xs
  induction xs with
  | nil =>
    intro rs rows h1 h2
    refine ⟨?_, ?_⟩
    · cases rs <;> cases rows <;> simp [UPF.datRows]
    · intro i x r row hx
      simp at hx
  | cons x0 xt ih =>
    intro rs rows h1 h2
    cases rs with
    | nil => simp at h1
    | cons r0 rt =>
      cases rows with
      | nil => simp at h2
      | cons row0 rowt =>
        have hih := ih rt rowt (by simpa using h1) (by simpa using h2)
        refine ⟨by simpa [UPF.datRows] using hih.1, ?_⟩
        intro i x r row hx hr hrow
        cases i with
        | zero =>
          simp only [List.get?] at hx hr hrow
          cases hx
          cases hr
          cases hrow
          rfl
        | succ i2 =>
          simp only [List.get?] at hx hr hrow
          exact hih.2 i2 x r row hx hr hrow

/-- C7 (amended): for every container holding mesh and (sortable,
uniform-length, nonempty) wavefunction data, `UPFDict.to_dat` clamps
each mesh value below `1e-8` up to `1e-8` *before* it is passed to the
logarithm (the theorem holds for an arbitrary function `log` in its
place), sorts the orbital entries by the `(l, n)` key ascending, and
emits a header line `"{mesh length} {orbital count}"`, a line of the
angular-momentum values, and exactly one body row per mesh point holding
the formatted log-radius (`%20.15f`), clamped radius (`%20.15f`) and
each sorted orbital's value at that point (`%25.15e`).  The legacy
`Pseudopotential.to_dat` named by the same claim instead drops the first
mesh point from the body (and prints the unclamped radius): see the
counterexample. -/
theorem to_dat_structure_amended (log : Dec → Dec) (d : List (PyStr × UVal))
    (md pd : List (PyStr × UVal)) (rmesh0 : List Dec) (chis0 : List UVal)
    (keyed : List ((Int × Int) × UVal)) (conts : List (List Dec)) (lls : List PyStr)
    (hmesh : lookupU (pystr "mesh") d = some (.dict md))
    (hr : lookupU (pystr "r") md = some (.arr rmesh0))
    (hpw : lookupU (pystr "pswfc") d = some (.dict pd))
    (hchi : lookupU (pystr "chi") pd = some (.list chis0))
    (hkeyed : mapExcept (fun c => (UPF.chiKey c).map (fun k => (k, c))) chis0 = .ok keyed)
    (hconts : mapExcept (fun kc => UPF.chiContent kc.2) (sortByKey Prod.fst keyed) = .ok conts)
    (hlls : mapExcept (fun kc => UPF.chiLStr kc.2) (sortByKey Prod.fst keyed) = .ok lls)
    (huni : ∀ ct ∈ conts, ct.length = rmesh0.length)
    (hne : conts ≠ []) :
    ∃ rows, UPF.to_datWith log d = .ok (pyJoin (pystr "\n")
      ((intStr (rmesh0.length : Int) ++ pystr " " ++ intStr (chis0.length : Int)) ::
       pyJoin (pystr " ") lls :: rows)) ∧
    rows.length = rmesh0.length ∧
    (∀ i r0, rmesh0.get? i = some r0 → rows.get? i = some (
        fmtFixed 20 15 (log (pyMax r0 ⟨1, -8⟩)) ++ pystr " " ++
        fmtFixed 20 15 (pyMax r0 ⟨1, -8⟩) ++ pystr " " ++
        pyJoin (pystr " ") ((conts.map (fun ct => ct.getD i ⟨0, 0⟩)).map (fmtSci 25 15)))) ∧
    List.Pairwise (fun a b => keyLt b.1 a.1 = false) (sortByKey Prod.fst keyed) ∧
    List.Perm (sortByKey Prod.fst keyed) keyed := by
  have h1 : getItem d (pystr "mesh") = .ok (.dict md) := by
    unfold getItem
    rw [hmesh]
  have h2 : getItem md (pystr "r") = .ok (.arr rmesh0) := by
    unfold getItem
    rw [hr]
  have h3 : getItem d (pystr "pswfc") = .ok (.dict pd) := by
    unfold getItem
    rw [hpw]
  have h4 : getItem pd (pystr "chi") = .ok (.list chis0) := by
    unfold getItem
    rw [hchi]
  rcases hcc : conts with _ | ⟨c0, crest⟩
  · exact absurd hcc hne
  subst hcc
  have hc0len : c0.length = rmesh0.length := huni c0 (by simp)
  have hlen2 : (sortByKey Prod.fst keyed).length = chis0.length := by
    rw [(sortByKey_perm Prod.fst keyed).length_eq, mapExcept_length hkeyed]
  have heval : UPF.to_datWith log d = .ok (pyJoin (pystr "\n")
      ((intStr ((rmesh0.map (fun r => pyMax r ⟨1, -8⟩)).length : Int) ++ pystr " " ++
        intStr ((sortByKey Prod.fst keyed).length : Int)) ::
       pyJoin (pystr " ") lls ::
       UPF.datRows ((rmesh0.map (fun r => pyMax r ⟨1, -8⟩)).map log)
         (rmesh0.map (fun r => pyMax r ⟨1, -8⟩)) (npTranspose (c0 :: crest)))) := by
    unfold UPF.to_datWith
    simp only [h1, ok_bind, asDict, h2, h3, h4, hchi, Option.isNone_some,
      Bool.false_eq_true, if_false, hkeyed, hconts, hlls]
  refine ⟨UPF.datRows ((rmesh0.map (fun r => pyMax r ⟨1, -8⟩)).map log)
    (rmesh0.map (fun r => pyMax r ⟨1, -8⟩)) (npTranspose (c0 :: crest)),
    ?_, ?_, ?_, sortByKey_pairwise Prod.fst keyed, sortByKey_perm Prod.fst keyed⟩
  · rw [heval, List.length_map, hlen2]
  · have hd := datRows_spec ((rmesh0.map (fun r => pyMax r ⟨1, -8⟩)).map log)
      (rmesh0.map (fun r => pyMax r ⟨1, -8⟩)) (npTranspose (c0 :: crest))
      (by simp) (by rw [npTranspose_len, List.length_map, hc0len])
    rw [hd.1]
    simp
  · intro i r0 hi0
    have hilt : i < rmesh0.length := by
      by_contra hcon
      rw [List.get?_eq_none.mpr (by omega)] at hi0
      cases hi0
    have hd := datRows_spec ((rmesh0.map (fun r => pyMax r ⟨1, -8⟩)).map log)
      (rmesh0.map (fun r => pyMax r ⟨1, -8⟩)) (npTranspose (c0 :: crest))
      (by simp) (by rw [npTranspose_len, List.length_map, hc0len])
    refine hd.2 i _ _ _ ?_ ?_ ?_
    · rw [List.get?_map, List.get?_map, hi0]
      rfl
    · rw [List.get?_map, hi0]
      rfl
    · exact npTranspose_get (c0 :: crest) c0 crest rfl i (by omega)

/-- The two wavefunction entries of the witness container, listed out of
`(l, n)` order. -/
def chiW1 : UVal :=
  .dict [(pystr "l", .pv (.int 1)), (pystr "n", .pv (.int 2)),
    (pystr "content", .arr [⟨1, 0⟩, ⟨2, 0⟩])]

def chiW2 : UVal :=
  .dict [(pystr "l", .pv (.int 0)), (pystr "n", .pv (.int 1)),
    (pystr "content", .arr [⟨3, 0⟩, ⟨4, 0⟩])]

/-- A small container for exercising the `.dat` generators: two mesh
points and two wavefunction entries listed out of `(l, n)` order. -/
def datCW : List (PyStr × UVal) :=
  [(pystr "mesh", .dict [(pystr "r", .arr [⟨1, 0⟩, ⟨2, 0⟩])]),
   (pystr "pswfc", .dict [(pystr "chi", .list [chiW1, chiW2])])]

def keyedW : List ((Int × Int) × UVal) := [((1, 2), chiW1), ((0, 1), chiW2)]

theorem to_dat_structure_amended_witness :
    ∃ rows, UPF.to_datWith npLog datCW = .ok (pyJoin (pystr "\n")
      ((intStr (([(⟨1, 0⟩ : Dec), ⟨2, 0⟩].length : Nat) : Int) ++ pystr " " ++
        intStr ((([chiW1, chiW2].length : Nat) : Int))) ::
       pyJoin (pystr " ") [pystr "0", pystr "1"] :: rows)) ∧
    rows.length = [(⟨1, 0⟩ : Dec), ⟨2, 0⟩].length ∧
    (∀ i r0, [(⟨1, 0⟩ : Dec), ⟨2, 0⟩].get? i = some r0 → rows.get? i = some (
        fmtFixed 20 15 (npLog (pyMax r0 ⟨1, -8⟩)) ++ pystr " " ++
        fmtFixed 20 15 (pyMax r0 ⟨1, -8⟩) ++ pystr " " ++
        pyJoin (pystr " ")
          (([[(⟨3, 0⟩ : Dec), ⟨4, 0⟩], [⟨1, 0⟩, ⟨2, 0⟩]].map
            (fun ct => ct.getD i ⟨0, 0⟩)).map (fmtSci 25 15)))) ∧
    List.Pairwise (fun a b => keyLt b.1 a.1 = false) (sortByKey Prod.fst keyedW) ∧
    List.Perm (sortByKey Prod.fst keyedW) keyedW :=
  to_dat_structure_amended npLog datCW
    [(pystr "r", .arr [⟨1, 0⟩, ⟨2, 0⟩])]
    [(pystr "chi", .list [chiW1, chiW2])]
    [⟨1, 0⟩, ⟨2, 0⟩]
    [chiW1, chiW2]
    keyedW
    [[⟨3, 0⟩, ⟨4, 0⟩], [⟨1, 0⟩, ⟨2, 0⟩]]
    [pystr "0", pystr "1"]
    rfl rfl rfl rfl rfl rfl rfl (by decide) (by decide)

/-- C7 counterexample: on a container with two mesh points and one
orbital, the legacy `Pseudopotential.to_dat` named by the claim emits
only three lines — header, angular momenta, and a *single* body row —
because it zips `xmesh[1:]`, `rmesh[1:]`, `data[1:]`: the first mesh
point has no row, contradicting "exactly one row per mesh point". -/
theorem to_dat_structure_cex :
    (Psp.to_dat [(pystr "mesh", .dict [(pystr "r", .arr [⟨1, 0⟩, ⟨2, 0⟩])]),
      (pystr "pswfc", .dict [(pystr "chi", .list [.dict [(pystr "l", .pv (.int 0)),
        (pystr "n", .pv (.int 1)), (pystr "content", .arr [⟨3, 0⟩, ⟨4, 0⟩])]])])]).map
      (fun s => (splitOnC '\n' s).length) = .ok 3 := rfl

/-! ## UPF version detection and dispatch (`utils.get_version_number`,
`UPFDict.from_str`) -/

/-- A parsed `packaging.version.Version`, restricted to the dotted
numeric release segment (the only shape UPF version attributes take). -/
structure PVer where
  major : Nat
  minor : Nat
  patch : Nat
  deriving DecidableEq, Repr

/-- Index (from the right) of the *last* occurrence of `">` in a line:
the greedy `.*` of `REGEX_UPF_VERSION` captures up to it. -/
def lastQuoteGt : PyStr → Option Nat
  | [] => none
  | c :: t =>
    match lastQuoteGt t with
    | some k => some k
    | none => if startsW (pystr "\">") (c :: t) then some ((c :: t).length) else none

/-- Try to match `<UPF\s+version\s*="(?P<version>.*)">` at the start of
`t` (the leading `\s*` of the pattern is subsumed by the search loop);
the captured group runs to the last `">` on the same line, as the greedy
`.*` (which does not cross a newline) requires. -/
def upfTagAt (t : PyStr) : Option PyStr :=
  if startsW (pystr "<UPF") t then
    let r1 := t.drop 4
    if (r1.takeWhile isSpaceC).isEmpty then none
    else
      let r2 := r1.dropWhile isSpaceC
      if startsW (pystr "version") r2 then
        let r3 := (r2.drop 7).dropWhile isSpaceC
        if startsW (pystr "=\"") r3 then
          let r4 := r3.drop 2
          let line := r4.takeWhile (fun c => c ≠ '\n')
          (lastQuoteGt line).map (fun k => line.take (line.length - k))
        else none
      else none
  else none

/-- `REGEX_UPF_VERSION.search(string)`: the first position at which the
pattern matches, with its captured version group. -/
def findUPFVersion : PyStr → Option PyStr
  | [] => none
  | c :: t =>
    match upfTagAt (c :: t) with
    | some v => some v
    | none => findUPFVersion t

/-- `Version(...)` on a dotted numeric string (the release forms
`"2"`, `"2.0"`, `"2.0.1"`; anything else raises). -/
def parsePVer (s : PyStr) : Except Err PVer := do
  let parts := splitOnC '.' (pyStrip s)
  match parts with
  | [a] => do
    let ma ← pyIntParse a
    .ok ⟨ma.toNat, 0, 0⟩
  | [a, b] => do
    let ma ← pyIntParse a
    let mb ← pyIntParse b
    .ok ⟨ma.toNat, mb.toNat, 0⟩
  | [a, b, c] => do
    let ma ← pyIntParse a
    let mb ← pyIntParse b
    let mc ← pyIntParse c
    .ok ⟨ma.toNat, mb.toNat, mc.toNat⟩
  | _ => .error (.valueError s)

/-- Embedding of `utils.get_version_number`: the parsed version together
with whether the non-fatal "assuming v1.0.0" warning was issued. -/
def get_version_number (s : PyStr) : Except Err (PVer × Bool) :=
  match findUPFVersion s with
  | some v => (parsePVer v).map (fun pv => (pv, false))
  | none => .ok (⟨1, 0, 0⟩, true)

/-- `version >= Version("2.0.0")`. -/
def pverGe2 (v : PVer) : Bool :=
  decide (2 < v.major) || (decide (v.major = 2))

namespace UPF

/-- Embedding of `UPFDict.from_str`: fetch the version, dispatch to the
v2 or v1 decomposer, and return the version together with the decomposed
dictionary.  The v2 branch parses XML from raw text, which this
development does not model; it is marked by an explicit error and is
never reached by the theorems below, all of which concern the v1
branch. -/
def from_str (s : PyStr) : Except Err (PVer × List (PyStr × UVal)) := do
  let (v, _warned) ← get_version_number s
  if pverGe2 v then .error (.valueError (pystr "v2 xml document parsing is not modelled"))
  else (V1.upfv1contents_to_dict s).map (fun d => (v, d))

end UPF

/-- C9: a document with no `<UPF version="...">` declaration parses
rather than failing: `get_version_number` succeeds with version 1.0.0
and the non-fatal warning flag set instead of raising, and `from_str`
consequently dispatches the document to the v1 decomposer
(`upfv1contents_to_dict`), returning whatever it produces under version
1.0.0. -/
theorem version_default_v1 (s : PyStr) (h : findUPFVersion s = none) :
    get_version_number s = .ok (⟨1, 0, 0⟩, true) ∧
    UPF.from_str s = (V1.upfv1contents_to_dict s).map (fun d => (⟨1, 0, 0⟩, d)) := by
  have h1 : get_version_number s = .ok (⟨1, 0, 0⟩, true) := by
    unfold get_version_number
    rw [h]
  refine ⟨h1, ?_⟩
  unfold UPF.from_str
  rw [h1, ok_bind]
  rfl

theorem version_default_v1_witness :
    get_version_number (pystr "no declaration here") = .ok (⟨1, 0, 0⟩, true) ∧
    UPF.from_str (pystr "no declaration here") =
      (V1.upfv1contents_to_dict (pystr "no declaration here")).map
        (fun d => (⟨1, 0, 0⟩, d)) :=
  version_default_v1 (pystr "no declaration here") (by decide)

/-! ## Projector `.dat` files (`projectors.py`) -/

/-- The elementwise clamp of the `Projector.x` setter:
`value[value < -16] = -16`. -/
def xSet (v : List Dec) : List Dec :=
  v.map (fun d => if decLt d ⟨-16, 0⟩ then ⟨-16, 0⟩ else d)

/-- A `Projector` dataclass instance.  The stored grid `_x` is always
written through the clamping setter, which the constructor `mkProjector`
below reproduces. -/
structure Projector where
  x : List Dec
  y : List Dec
  l : Int
  deriving DecidableEq, Repr

/-- `Projector(x, y, l)`: the dataclass constructor assigns `x` through
the clamping property setter. -/
def mkProjector (x y : List Dec) (l : Int) : Projector :=
  ⟨xSet x, y, l⟩

namespace Projectors

/-- Embedding of `Projectors.from_str`: keep nonempty lines, parse the
body as a float matrix, transpose, read the angular momenta from the
second line, and build one `Projector` per `(l, column)` pair from the
third column onwards (the radius column, `content[1]`, is discarded).
`np.array` accepts only a rectangular body; the theorems below impose
that shape. -/
def from_str (s : PyStr) : Except Err (List Projector) := do
  let lines := (splitOnC '\n' s).filter (fun l => !l.isEmpty)
  let rowsF ← mapExcept (fun row => mapExcept parseFloatTok (splitWS row)) (lines.drop 2)
  let content := npTranspose rowsF
  let l1 ← pyIdx lines 1
  let lvals ← mapExcept pyIntParse (splitWS l1)
  let data ← mapExcept (fun p => (pyIdx content 0).map (fun x0 => mkProjector x0 p.2 p.1))
    (lvals.zip (content.drop 2))
  .ok data

/-- Embedding of `Projectors.to_str`, with `np.exp` (the `r` property
read by the second output column) as a parameter. -/
def to_strWith (exp : Dec → Dec) (ps : List Projector) : Except Err PyStr := do
  let p0 ← pyIdx ps 0
  let header := intStr (p0.x.length : Int) ++ pystr " " ++ intStr (ps.length : Int)
  let lline := pyJoin (pystr " ") (ps.map (fun p => intStr p.l))
  let content := npTranspose (p0.x :: p0.x.map exp :: ps.map (fun p => p.y))
  .ok (pyJoin (pystr "\n")
    (header :: lline :: content.map (fun row => pyJoin (pystr " ") (row.map (fmtSci 18 12)))))

/-- Embedding of `Projectors.to_str`. -/
def to_str (ps : List Projector) : Except Err PyStr := to_strWith npExp ps

end Projectors

theorem mapExcept_mem_inv {α β : Type} {f : α → Except Err β} :
    ∀ {xs : List α} {ys : List β}, mapExcept f xs = .ok ys →
    ∀ y ∈ ys, ∃ x ∈ xs, f x = .ok y := by
  intro xs
  induction xs with
  | nil =>
    intro ys h y hy
    simp only [mapExcept, Except.ok.injEq] at h
    subst h
    simp at hy
  | cons x xt ih =>
    intro ys h y hy
    obtain ⟨y0, ys2, hy0, hys2, hcons⟩ := mapExcept_cons_inv h
    subst hcons
    rcases List.mem_cons.mp hy with hh | hh
    · subst hh
      exact ⟨x, by simp, hy0⟩
    · obtain ⟨x2, hx2, hfx2⟩ := ih hys2 y hh
      exact ⟨x2, by simp [hx2], hfx2⟩

theorem xSet_clamped (x : List Dec) : ∀ v ∈ xSet x, decLt v ⟨-16, 0⟩ = false := by
  intro v hv
  unfold xSet at hv
  obtain ⟨d, _, hd⟩ := List.mem_map.mp hv
  by_cases h : decLt d ⟨-16, 0⟩ = true
  · rw [if_pos h] at hd
    rw [← hd]
    decide
  · rw [if_neg h] at hd
    rw [← hd]
    exact Bool.not_eq_true _ ▸ h

/-- C10: the `Projector.x` setter replaces every grid value below `-16`
with `-16`, and `Projectors.from_str` builds each projector through the
dataclass constructor (hence through that setter): every projector a
successful parse yields has all of its logarithmic-grid values at least
`-16`, even when the source file holds smaller values. -/
theorem projector_x_clamp (s : PyStr) (ps : List Projector)
    (h : Projectors.from_str s = .ok ps) :
    ∀ p ∈ ps, ∀ v ∈ p.x, decLt v ⟨-16, 0⟩ = false := by
  intro p hp
  unfold Projectors.from_str at h
  obtain ⟨rowsF, hrows, h⟩ := bind_ok_inv h
  try dsimp only at h
  obtain ⟨l1, hl1, h⟩ := bind_ok_inv h
  obtain ⟨lvals, hlv, h⟩ := bind_ok_inv h
  obtain ⟨data, hdata, h⟩ := bind_ok_inv h
  simp only [Except.ok.injEq] at h
  subst h
  obtain ⟨pair, _, hf⟩ := mapExcept_mem_inv hdata p hp
  cases hx : pyIdx (npTranspose rowsF) 0 with
  | error e =>
    rw [hx] at hf
    exact absurd hf (by simp [Except.map])
  | ok x0 =>
    rw [hx] at hf
    simp only [Except.map, Except.ok.injEq] at hf
    rw [← hf]
    exact xSet_clamped x0

theorem projector_x_clamp_witness :
    decLt ⟨-16, 0⟩ ⟨-16, 0⟩ = false :=
  projector_x_clamp (pystr "2 1\n0\n-20.0 1.0 3.0\n-16.5 2.0 4.0")
    [mkProjector [⟨-2, 1⟩, ⟨-165, -1⟩] [⟨3, 0⟩, ⟨4, 0⟩] 0] (by decide)
    (mkProjector [⟨-2, 1⟩, ⟨-165, -1⟩] [⟨3, 0⟩, ⟨4, 0⟩] 0) (by decide)
    ⟨-16, 0⟩ (by decide)

/-! ## Decimal rounding facts for the `%e` formats -/

theorem natDigits_bounds : ∀ a : Nat, 1 ≤ a →
    10 ^ ((natDigits a).length - 1) ≤ a ∧ a < 10 ^ (natDigits a).length := by
  intro a
  induction a using Nat.strong_induction_on with
  | _ a ih =>
    intro ha
    rw [natDigits_eq]
    by_cases h : a < 10
    · simp only [h, if_true]
      constructor
      · simpa using ha
      · simpa using h
    · simp only [h, if_false]
      have h10 : (10 : Nat) ≤ a := by omega
      have hq1 : 1 ≤ a / 10 := by omega
      have hih := ih (a / 10) (by omega) hq1
      have hlen : 1 ≤ (natDigits (a / 10)).length := by
        have := natDigits_ne_nil (a / 10)
        cases hh : natDigits (a / 10) with
        | nil => exact absurd hh this
        | cons c t => simp
      rw [List.length_append, List.length_singleton]
      set L := (natDigits (a / 10)).length with hL
      have hmod := Nat.div_add_mod a 10
      constructor
      · have h1 : 10 ^ (L - 1) ≤ a / 10 := hih.1
        have h2 : 10 ^ (L - 1) * 10 ≤ (a / 10) * 10 := Nat.mul_le_mul_right 10 h1
        have h3 : 10 ^ (L - 1) * 10 = 10 ^ (L - 1 + 1) := (pow_succ 10 (L - 1)).symm
        have h4 : L - 1 + 1 = L := by omega
        have h5 : L + 1 - 1 = L := by omega
        rw [h5]
        rw [h3, h4] at h2
        omega
      · have h1 : a / 10 < 10 ^ L := hih.2
        have h2 : a / 10 + 1 ≤ 10 ^ L := h1
        have h3 : (a / 10 + 1) * 10 ≤ 10 ^ L * 10 := Nat.mul_le_mul_right 10 h2
        have h4 : 10 ^ L * 10 = 10 ^ (L + 1) := (pow_succ 10 L).symm
        omega

theorem natDigits_len_eq (k : Nat) (p : Nat) (h1 : 10 ^ p ≤ k) (h2 : k < 10 ^ (p + 1)) :
    (natDigits k).length = p + 1 := by
  have hk1 : 1 ≤ k := by
    have : (1 : Nat) ≤ 10 ^ p := Nat.one_le_pow _ _ (by norm_num)
    omega
  obtain ⟨hb1, hb2⟩ := natDigits_bounds k hk1
  have hlen : 1 ≤ (natDigits k).length := by
    have := natDigits_ne_nil k
    cases hh : natDigits k with
    | nil => exact absurd hh this
    | cons c t => simp
  set L := (natDigits k).length
  have hx1 : p < L := by
    by_contra hcon
    have : L ≤ p := by omega
    have := Nat.pow_le_pow_right (by norm_num : 1 ≤ 10) this
    omega
  have hx2 : L - 1 < p + 1 := by
    by_contra hcon
    have : p + 1 ≤ L - 1 := by omega
    have := Nat.pow_le_pow_right (by norm_num : 1 ≤ 10) this
    omega
  omega

theorem rneN_cases (a den : Nat) :
    rneN a den = a / den ∨ rneN a den = a / den + 1 := by
  unfold rneN
  dsimp only
  split_ifs <;> simp

theorem rneN_err (a den : Nat) (hden : 0 < den) :
    2 * |((rneN a den : ℚ) * den - a)| ≤ den := by
  have hmod := Nat.div_add_mod a den
  have hr : a % den < den := Nat.mod_lt _ hden
  have hcast : (a : ℚ) = den * (a / den : Nat) + (a % den : Nat) := by
    exact_mod_cast hmod.symm
  unfold rneN
  dsimp only
  split_ifs with h1 h2 h3
  · have he : ((a / den : Nat) : ℚ) * den - a = -((a % den : Nat) : ℚ) := by
      rw [hcast]
      ring
    rw [he, abs_neg, abs_of_nonneg (by positivity)]
    have : (2 : ℚ) * (a % den : Nat) ≤ den := by exact_mod_cast (by omega : 2 * (a % den) ≤ den)
    linarith
  · have he : (((a / den : Nat) + 1 : Nat) : ℚ) * den - a = (den : ℚ) - ((a % den : Nat) : ℚ) := by
      push_cast
      rw [hcast]
      ring
    rw [he, abs_of_nonneg (by push_cast; linarith [show ((a % den : Nat) : ℚ) < den by exact_mod_cast hr])]
    have : (den : ℚ) ≤ 2 * ((a % den : Nat) : ℚ) := by exact_mod_cast (by omega : den ≤ 2 * (a % den))
    push_cast
    linarith
  · have he : ((a / den : Nat) : ℚ) * den - a = -((a % den : Nat) : ℚ) := by
      rw [hcast]
      ring
    rw [he, abs_neg, abs_of_nonneg (by positivity)]
    have : (2 : Nat) * (a % den) = den := by omega
    have h2q : (2 : ℚ) * ((a % den : Nat) : ℚ) = den := by exact_mod_cast this
    linarith
  · have he : (((a / den : Nat) + 1 : Nat) : ℚ) * den - a = (den : ℚ) - ((a % den : Nat) : ℚ) := by
      push_cast
      rw [hcast]
      ring
    rw [he, abs_of_nonneg (by push_cast; linarith [show ((a % den : Nat) : ℚ) < den by exact_mod_cast hr])]
    have : (2 : Nat) * (a % den) = den := by omega
    have h2q : (2 : ℚ) * ((a % den : Nat) : ℚ) = den := by exact_mod_cast this
    push_cast
    linarith

theorem ten_zpow_add (a b : Int) : (10 : ℚ) ^ (a + b) = (10 : ℚ) ^ a * (10 : ℚ) ^ b :=
  zpow_add₀ (by norm_num) a b

theorem decNormGo_toRat : ∀ (fuel : Nat) (m e : Int),
    Dec.toRat (decNormGo fuel m e) = Dec.toRat ⟨m, e⟩ := by
  intro fuel
  induction fuel with
  | zero => intro m e; rfl
  | succ f ih =>
    intro m e
    rw [decNormGo]
    by_cases hm : m = 0
    · simp [hm, Dec.toRat]
    · simp only [hm, ite_false]
      by_cases h10 : m % 10 = 0
      · simp only [h10, ite_true]
        rw [ih (m / 10) (e + 1)]
        show ((m / 10 : Int) : ℚ) * (10 : ℚ) ^ (e + 1) = (m : ℚ) * (10 : ℚ) ^ e
        have hdm : (10 : Int) * (m / 10) = m := by omega
        rw [ten_zpow_add e 1]
        have : ((m / 10 : Int) : ℚ) * ((10 : ℚ) ^ e * (10 : ℚ) ^ (1 : Int)) =
            (((10 : Int) * (m / 10) : Int) : ℚ) * (10 : ℚ) ^ e := by
          rw [zpow_one]
          push_cast
          ring
        rw [this, hdm]
      · simp [h10]

theorem Dec.norm_toRat (m e : Int) : Dec.toRat (Dec.norm ⟨m, e⟩) = Dec.toRat ⟨m, e⟩ :=
  decNormGo_toRat (m.natAbs + 1) m e

/-- Decimal magnitude (the exponent of the leading digit) of a stored
decimal. -/
def mag10 (d : Dec) : Int := ((natDigits d.m.natAbs).length : Int) - 1 + d.e

theorem ten_pow_cast (m : Nat) : ((10 ^ m : Nat) : ℚ) = (10 : ℚ) ^ ((m : Nat) : Int) := by
  push_cast
  rw [zpow_natCast]

theorem roundSigParts_range (prec : Nat) (d : Dec) (hm : d.m ≠ 0) :
    10 ^ prec ≤ (roundSigParts prec d).1 ∧ (roundSigParts prec d).1 < 10 ^ (prec + 1) := by
  unfold roundSigParts
  dsimp only
  set a := d.m.natAbs with ha
  have ha1 : 1 ≤ a := by
    have := Int.natAbs_pos.mpr hm
    omega
  set n := (natDigits a).length with hn
  obtain ⟨hb1, hb2⟩ := natDigits_bounds a ha1
  rw [← hn] at hb1 hb2
  have hn1 : 1 ≤ n := by
    have := natDigits_ne_nil a
    cases hh : natDigits a with
    | nil => exact absurd hh this
    | cons c t => rw [hn, hh]; simp
  have hkb : 10 ^ prec ≤ (if n ≤ prec + 1 then a * 10 ^ (prec + 1 - n)
      else rneN a (10 ^ (n - (prec + 1)))) ∧
      (if n ≤ prec + 1 then a * 10 ^ (prec + 1 - n)
      else rneN a (10 ^ (n - (prec + 1)))) ≤ 10 ^ (prec + 1) := by
    by_cases hc : n ≤ prec + 1
    · rw [if_pos hc]
      have he1 : (n - 1) + (prec + 1 - n) = prec := by omega
      have he2 : n + (prec + 1 - n) = prec + 1 := by omega
      constructor
      · calc 10 ^ prec = 10 ^ (n - 1) * 10 ^ (prec + 1 - n) := by rw [← pow_add, he1]
          _ ≤ a * 10 ^ (prec + 1 - n) :=
            Nat.mul_le_mul_right _ hb1
      · calc a * 10 ^ (prec + 1 - n) ≤ 10 ^ n * 10 ^ (prec + 1 - n) :=
            Nat.mul_le_mul_right _ (by omega)
          _ = 10 ^ (prec + 1) := by rw [← pow_add, he2]
    · rw [if_neg hc]
      have hd0 : 0 < 10 ^ (n - (prec + 1)) := Nat.pos_pow_of_pos _ (by norm_num)
      have hq1 : 10 ^ prec ≤ a / 10 ^ (n - (prec + 1)) := by
        rw [Nat.le_div_iff_mul_le hd0, ← pow_add]
        have : prec + (n - (prec + 1)) = n - 1 := by omega
        rw [this]
        exact hb1
      have hq2 : a / 10 ^ (n - (prec + 1)) < 10 ^ (prec + 1) := by
        rw [Nat.div_lt_iff_lt_mul hd0, ← pow_add]
        have : prec + 1 + (n - (prec + 1)) = n := by omega
        rw [this]
        exact hb2
      rcases rneN_cases a (10 ^ (n - (prec + 1))) with h | h <;> rw [h] <;> omega
  by_cases hcar : (if n ≤ prec + 1 then a * 10 ^ (prec + 1 - n)
      else rneN a (10 ^ (n - (prec + 1)))) = 10 ^ (prec + 1)
  · rw [if_pos hcar]
    constructor
    · exact le_refl _
    · exact Nat.pow_lt_pow_right (by norm_num) (by omega)
  · rw [if_neg hcar]
    exact ⟨hkb.1, by omega⟩

theorem roundSig_err (prec : Nat) (d : Dec) :
    |Dec.toRat (roundSig prec d) - Dec.toRat d| ≤
      (1/2) * (10 : ℚ) ^ (mag10 d - (prec : Int)) := by
  by_cases hm : d.m = 0
  · unfold roundSig
    rw [if_pos hm]
    have h0 : Dec.toRat d = 0 := by
      simp [Dec.toRat, hm]
    have h1 : Dec.toRat ⟨0, 0⟩ = 0 := by
      simp [Dec.toRat]
    rw [h0, h1]
    simp only [sub_zero, abs_zero]
    positivity
  · set a := d.m.natAbs with ha
    have ha1 : 1 ≤ a := by
      have := Int.natAbs_pos.mpr hm
      omega
    set n := (natDigits a).length with hn
    have hn1 : 1 ≤ n := by
      have := natDigits_ne_nil a
      cases hh : natDigits a with
      | nil => exact absurd hh this
      | cons c t => rw [hn, hh]; simp
    set E0 : Int := (n : Int) - 1 + d.e with hE0
    have hmagE : mag10 d = E0 := rfl
    set k0 : Nat := if n ≤ prec + 1 then a * 10 ^ (prec + 1 - n)
      else rneN a (10 ^ (n - (prec + 1))) with hk0
    have hparts : roundSigParts prec d =
        if k0 = 10 ^ (prec + 1) then (10 ^ prec, E0 + 1) else (k0, E0) := rfl
    have hval : ((roundSigParts prec d).1 : ℚ) *
        (10 : ℚ) ^ ((roundSigParts prec d).2 - (prec : Int)) =
        (k0 : ℚ) * (10 : ℚ) ^ (E0 - (prec : Int)) := by
      rw [hparts]
      by_cases hcar : k0 = 10 ^ (prec + 1)
      · rw [if_pos hcar]
        dsimp only
        rw [hcar, ten_pow_cast, ten_pow_cast, ← ten_zpow_add, ← ten_zpow_add]
        congr 1
        push_cast
        ring
      · rw [if_neg hcar]
    have hcore : |(k0 : ℚ) * (10 : ℚ) ^ (E0 - (prec : Int)) -
        (a : ℚ) * (10 : ℚ) ^ d.e| ≤ (1/2) * (10 : ℚ) ^ (E0 - (prec : Int)) := by
      by_cases hc : n ≤ prec + 1
      · have hk0e : k0 = a * 10 ^ (prec + 1 - n) := by rw [hk0, if_pos hc]
        have hexp : ((prec + 1 - n : Nat) : Int) + (E0 - (prec : Int)) = d.e := by
          rw [hE0]
          omega
        have hzero : (k0 : ℚ) * (10 : ℚ) ^ (E0 - (prec : Int)) =
            (a : ℚ) * (10 : ℚ) ^ d.e := by
          rw [hk0e]
          push_cast [ten_pow_cast]
          rw [mul_assoc, ← zpow_natCast (10 : ℚ) (prec + 1 - n), ← ten_zpow_add, hexp]
        rw [hzero]
        simp only [sub_self, abs_zero]
        positivity
      · set den : Nat := 10 ^ (n - (prec + 1)) with hden
        have hdpos : 0 < den := Nat.pos_pow_of_pos _ (by norm_num)
        have hk0e : k0 = rneN a den := by rw [hk0, if_neg hc]
        have herr := rneN_err a den hdpos
        have hsplit : (10 : ℚ) ^ (E0 - (prec : Int)) = (den : ℚ) * (10 : ℚ) ^ d.e := by
          rw [hden, ten_pow_cast, ← ten_zpow_add]
          congr 1
          rw [hE0]
          omega
        rw [hk0e, hsplit]
        have h10e : (0 : ℚ) < (10 : ℚ) ^ d.e := by positivity
        have hfact : (rneN a den : ℚ) * ((den : ℚ) * (10 : ℚ) ^ d.e) -
            (a : ℚ) * (10 : ℚ) ^ d.e =
            ((rneN a den : ℚ) * (den : ℚ) - (a : ℚ)) * (10 : ℚ) ^ d.e := by ring
        rw [hfact, abs_mul, abs_of_pos h10e]
        calc |(rneN a den : ℚ) * (den : ℚ) - (a : ℚ)| * (10 : ℚ) ^ d.e
            ≤ ((den : ℚ) / 2) * (10 : ℚ) ^ d.e := by
              apply mul_le_mul_of_nonneg_right _ (le_of_lt h10e)
              linarith
          _ = (1/2) * ((den : ℚ) * (10 : ℚ) ^ d.e) := by ring
    have hrs : roundSig prec d = Dec.norm ⟨(if d.m < 0 then
        -((roundSigParts prec d).1 : Int) else ((roundSigParts prec d).1 : Int)),
        (roundSigParts prec d).2 - (prec : Int)⟩ := by
      unfold roundSig
      rw [if_neg hm]
    rw [hrs, hmagE]
    rw [Dec.norm_toRat]
    by_cases hs : d.m < 0
    · rw [if_pos hs]
      have hda : (d.m : ℚ) = -(a : ℚ) := by
        have : d.m = -(a : Int) := by omega
        rw [this]
        push_cast
        ring
      show |(↑(-((roundSigParts prec d).1 : Int)) : ℚ) *
        (10 : ℚ) ^ ((roundSigParts prec d).2 - (prec : Int)) -
        (d.m : ℚ) * (10 : ℚ) ^ d.e| ≤ _
      rw [hda]
      have hneg : (↑(-((roundSigParts prec d).1 : Int)) : ℚ) *
          (10 : ℚ) ^ ((roundSigParts prec d).2 - (prec : Int)) -
          (-(a : ℚ)) * (10 : ℚ) ^ d.e =
          -(((roundSigParts prec d).1 : ℚ) *
            (10 : ℚ) ^ ((roundSigParts prec d).2 - (prec : Int)) -
            (a : ℚ) * (10 : ℚ) ^ d.e) := by
        push_cast
        ring
      rw [hneg, abs_neg, hval]
      exact hcore
    · rw [if_neg hs]
      have hda : (d.m : ℚ) = (a : ℚ) := by
        have : d.m = (a : Int) := by omega
        rw [this]
        push_cast
        ring
      show |(↑(((roundSigParts prec d).1 : Int)) : ℚ) *
        (10 : ℚ) ^ ((roundSigParts prec d).2 - (prec : Int)) -
        (d.m : ℚ) * (10 : ℚ) ^ d.e| ≤ _
      rw [hda]
      have hpos : (↑(((roundSigParts prec d).1 : Int)) : ℚ) = ((roundSigParts prec d).1 : ℚ) := by
        push_cast
        rfl
      rw [hpos, hval]
      exact hcore

theorem takeWhile_digits_append (ds : List Char) (c0 : Char) (rest : List Char)
    (hds : ∀ c ∈ ds, isDigitC c = true) (hc0 : isDigitC c0 = false) :
    (ds ++ c0 :: rest).takeWhile isDigitC = ds ∧
    (ds ++ c0 :: rest).dropWhile isDigitC = c0 :: rest := by
  induction ds with
  | nil => simp [List.takeWhile, List.dropWhile, hc0]
  | cons a t ih =>
    have hat : isDigitC a = true := hds a (by simp)
    have hih := ih (fun c hc => hds c (by simp [hc]))
    constructor
    · show ((a :: (t ++ c0 :: rest)).takeWhile isDigitC) = a :: t
      rw [List.takeWhile_cons, hat]
      simp only [if_true]
      rw [hih.1]
    · show ((a :: (t ++ c0 :: rest)).dropWhile isDigitC) = c0 :: rest
      rw [List.dropWhile_cons, hat]
      simp only [if_true]
      exact hih.2

theorem natOfDigits_cons_zero (l : List Char) :
    natOfDigits ('0' :: l) = natOfDigits l := rfl

theorem digit_ne_dash {c : Char} (h : isDigitC c = true) : c ≠ '-' := by
  intro hc
  subst hc
  simp [isDigitC] at h

theorem digit_ne_plus {c : Char} (h : isDigitC c = true) : c ≠ '+' := by
  intro hc
  subst hc
  simp [isDigitC] at h

theorem zeros_all_digits (k : Nat) : ∀ c ∈ zeros k, isDigitC c = true := by
  intro c hc
  unfold zeros at hc
  rw [List.eq_of_mem_replicate hc]
  rfl

theorem natOfDigits_zeros (k : Nat) : natOfDigits (zeros k) = 0 := by
  induction k with
  | zero => rfl
  | succ j ih =>
    show natOfDigits ('0' :: zeros j) = 0
    rw [natOfDigits_cons_zero, ih]

theorem isDigitC_dot : isDigitC '.' = false := rfl

theorem isDigitC_e : isDigitC 'e' = false := rfl

theorem pyStrip_padTo (w : Nat) (s : PyStr) : pyStrip (padTo w s) = pyStrip s := by
  unfold pyStrip padTo
  rw [dropWhile_replicate_space]

theorem parseFloatTok_sci (w : Nat) (neg epos : Bool) (k0 : Char) (krest eds2 : List Char)
    (hd0 : isDigitC k0 = true) (hdig : ∀ c ∈ krest, isDigitC c = true)
    (hedig : ∀ c ∈ eds2, isDigitC c = true) (hene : eds2 ≠ []) :
    parseFloatTok (padTo w ((if neg then ['-'] else []) ++
      k0 :: '.' :: (krest ++ 'e' :: (if epos then '+' else '-') :: eds2))) =
    .ok (Dec.norm ⟨(if neg then -(natOfDigits (k0 :: krest) : Int)
        else (natOfDigits (k0 :: krest) : Int)),
      (if epos then (natOfDigits eds2 : Int) else -(natOfDigits eds2 : Int)) -
        (krest.length : Int)⟩) := by
  have hsd : ∀ sgn : Char, List.takeWhile isDigitC (krest ++ 'e' :: sgn :: eds2) = krest ∧
      List.dropWhile isDigitC (krest ++ 'e' :: sgn :: eds2) = 'e' :: sgn :: eds2 :=
    fun sgn => takeWhile_digits_append krest 'e' (sgn :: eds2) hdig isDigitC_e
  have hns : ∀ c ∈ ((if neg then ['-'] else []) ++
      k0 :: '.' :: (krest ++ 'e' :: (if epos then '+' else '-') :: eds2)),
      isSpaceC c = false := by
    intro c hc
    rw [List.mem_append] at hc
    rcases hc with hc | hc
    · cases neg <;> simp at hc
      rw [hc]
      rfl
    · rcases List.mem_cons.mp hc with hc | hc
      · rw [hc]
        exact digit_not_space hd0
      rcases List.mem_cons.mp hc with hc | hc
      · rw [hc]
        rfl
      rw [List.mem_append] at hc
      rcases hc with hc | hc
      · exact digit_not_space (hdig c hc)
      rcases List.mem_cons.mp hc with hc | hc
      · rw [hc]
        rfl
      rcases List.mem_cons.mp hc with hc | hc
      · cases epos <;> rw [hc] <;> rfl
      · exact digit_not_space (hedig c hc)
  have hne : ((if neg then ['-'] else []) ++
      k0 :: '.' :: (krest ++ 'e' :: (if epos then '+' else '-') :: eds2)) ≠ [] := by
    cases neg <;> simp
  have hall : eds2.all isDigitC = true := List.all_eq_true.mpr hedig
  unfold parseFloatTok
  rw [pyStrip_padTo, pyStrip_eq_self_of _ hne hns]
  cases neg <;> cases epos <;>
    simp only [Bool.false_eq_true, Bool.true_eq_false, eq_self_iff_true, ite_true,
      ite_false, if_true, if_false, List.nil_append, List.cons_append, spanDigits,
      List.takeWhile_cons, List.dropWhile_cons, hd0, isDigitC_dot, isDigitC_e,
      digit_ne_dash hd0, digit_ne_plus hd0, (hsd '+').1, (hsd '+').2,
      (hsd '-').1, (hsd '-').2, parseExpTail, hall, hene,
      natOfDigits_cons_zero, ne_eq, List.cons_ne_nil, not_false_iff, and_true, true_and,
      false_and, and_false, false_or, or_false, List.append_eq, List.singleton_append] <;>
    simp [hall, hene, natOfDigits_cons_zero]

theorem parseFloatTok_fmtSci (w prec : Nat) (d : Dec) :
    parseFloatTok (fmtSci w prec d) = .ok (roundSig prec d) := by
  unfold fmtSci
  by_cases hm : d.m = 0
  · have hshape : fmtSciCore prec d =
        (if false then ['-'] else []) ++
          '0' :: '.' :: (zeros prec ++ 'e' :: (if true then '+' else '-') :: ['0', '0']) := by
      unfold fmtSciCore
      rw [if_pos hm]
      simp [pystr]
    rw [hshape, parseFloatTok_sci w false true '0' (zeros prec) ['0', '0'] rfl
      (zeros_all_digits prec)
      (by intro c hc; simp at hc; subst hc; rfl)
      (by simp)]
    have h1 : natOfDigits ('0' :: zeros prec) = 0 := by
      rw [natOfDigits_cons_zero, natOfDigits_zeros]
    have h2 : natOfDigits ['0', '0'] = 0 := rfl
    unfold roundSig
    rw [if_pos hm]
    simp [h1, h2, Dec.norm_eq]
  · rcases hP : roundSigParts prec d with ⟨k, E⟩
    have hrange := roundSigParts_range prec d hm
    rw [hP] at hrange
    dsimp only at hrange
    have hk1 : 1 ≤ k := by
      have : (1 : Nat) ≤ 10 ^ prec := Nat.one_le_pow _ _ (by norm_num)
      omega
    have hklen : (natDigits k).length = prec + 1 := natDigits_len_eq k prec hrange.1 hrange.2
    rcases hkds : natDigits k with _ | ⟨k0, krest⟩
    · exact absurd hkds (natDigits_ne_nil k)
    have hkrl : krest.length = prec := by
      rw [hkds] at hklen
      simpa using hklen
    have hd0 : isDigitC k0 = true := by
      have := natDigits_all_digits k
      rw [hkds] at this
      exact this k0 (by simp)
    have hdig : ∀ c ∈ krest, isDigitC c = true := by
      have := natDigits_all_digits k
      rw [hkds] at this
      intro c hc
      exact this c (by simp [hc])
    have hnod : natOfDigits (k0 :: krest) = k := by
      rw [← hkds, natOfDigits_natDigits]
    set eds2 : List Char := if (natDigits E.natAbs).length < 2
      then '0' :: natDigits E.natAbs else natDigits E.natAbs with heds2
    have hedig : ∀ c ∈ eds2, isDigitC c = true := by
      rw [heds2]
      split_ifs
      · intro c hc
        rcases List.mem_cons.mp hc with h | h
        · rw [h]; rfl
        · exact natDigits_all_digits _ c h
      · exact natDigits_all_digits _
    have hene : eds2 ≠ [] := by
      rw [heds2]
      split_ifs
      · simp
      · exact natDigits_ne_nil _
    have hnod2 : natOfDigits eds2 = E.natAbs := by
      rw [heds2]
      split_ifs
      · rw [natOfDigits_cons_zero, natOfDigits_natDigits]
      · rw [natOfDigits_natDigits]
    have hrsig : roundSig prec d = Dec.norm ⟨(if d.m < 0 then -(k : Int) else (k : Int)),
        E - (prec : Int)⟩ := by
      unfold roundSig
      rw [if_neg hm, hP]
    by_cases hneg : d.m < 0 <;> by_cases hE : E < 0
    · have hshape : fmtSciCore prec d =
          (if true then ['-'] else []) ++
            k0 :: '.' :: (krest ++ 'e' :: (if false then '+' else '-') :: eds2) := by
        unfold fmtSciCore
        rw [if_neg hm, hP]
        dsimp only
        rw [hkds, if_pos hneg, if_pos hE, heds2]
        simp
      rw [hshape, parseFloatTok_sci w true false k0 krest eds2 hd0 hdig hedig hene, hrsig,
        hnod, hnod2, hkrl, if_pos hneg]
      have hEn : -((E.natAbs : Int)) = E := by omega
      simp only [eq_self_iff_true, ite_true, Bool.false_eq_true, ite_false]
      rw [hEn]
    · have hshape : fmtSciCore prec d =
          (if true then ['-'] else []) ++
            k0 :: '.' :: (krest ++ 'e' :: (if true then '+' else '-') :: eds2) := by
        unfold fmtSciCore
        rw [if_neg hm, hP]
        dsimp only
        rw [hkds, if_pos hneg, if_neg hE, heds2]
        simp
      rw [hshape, parseFloatTok_sci w true true k0 krest eds2 hd0 hdig hedig hene, hrsig,
        hnod, hnod2, hkrl, if_pos hneg]
      have hEn : ((E.natAbs : Int)) = E := by omega
      simp only [eq_self_iff_true, ite_true, Bool.false_eq_true, ite_false]
      rw [hEn]
    · have hshape : fmtSciCore prec d =
          (if false then ['-'] else []) ++
            k0 :: '.' :: (krest ++ 'e' :: (if false then '+' else '-') :: eds2) := by
        unfold fmtSciCore
        rw [if_neg hm, hP]
        dsimp only
        rw [hkds, if_neg hneg, if_pos hE, heds2]
        simp
      rw [hshape, parseFloatTok_sci w false false k0 krest eds2 hd0 hdig hedig hene, hrsig,
        hnod, hnod2, hkrl, if_neg hneg]
      have hEn : -((E.natAbs : Int)) = E := by omega
      simp only [eq_self_iff_true, ite_true, Bool.false_eq_true, ite_false]
      rw [hEn]
    · have hshape : fmtSciCore prec d =
          (if false then ['-'] else []) ++
            k0 :: '.' :: (krest ++ 'e' :: (if true then '+' else '-') :: eds2) := by
        unfold fmtSciCore
        rw [if_neg hm, hP]
        dsimp only
        rw [hkds, if_neg hneg, if_neg hE, heds2]
        simp
      rw [hshape, parseFloatTok_sci w false true k0 krest eds2 hd0 hdig hedig hene, hrsig,
        hnod, hnod2, hkrl, if_neg hneg]
      have hEn : ((E.natAbs : Int)) = E := by omega
      simp only [eq_self_iff_true, ite_true, Bool.false_eq_true, ite_false]
      rw [hEn]


theorem fmtSciCore_ne_nil (prec : Nat) (d : Dec) : fmtSciCore prec d ≠ [] := by
  unfold fmtSciCore
  by_cases hm : d.m = 0
  · simp [hm]
  · rcases hP : roundSigParts prec d with ⟨k, E⟩
    simp only [hm, ite_false]
    rcases hkds : natDigits k with _ | ⟨k0, krest⟩
    · exact absurd hkds (natDigits_ne_nil k)
    by_cases hneg : d.m < 0 <;> simp [hneg, hkds]

theorem fmtSciCore_no_ws (prec : Nat) (d : Dec) :
    ∀ c ∈ fmtSciCore prec d, isSpaceC c = false := by
  unfold fmtSciCore
  by_cases hm : d.m = 0
  · simp only [hm, ite_true]
    rw [show pystr "e+00" = ['e', '+', '0', '0'] from rfl]
    intro c hc
    rcases List.mem_cons.mp hc with h | hc
    · rw [h]; rfl
    rcases List.mem_cons.mp hc with h | hc
    · rw [h]; rfl
    rcases List.mem_append.mp hc with hc | hc
    · exact digit_not_space (zeros_all_digits prec c hc)
    rcases List.mem_cons.mp hc with h | hc
    · rw [h]; rfl
    rcases List.mem_cons.mp hc with h | hc
    · rw [h]; rfl
    rcases List.mem_cons.mp hc with h | hc
    · rw [h]; rfl
    rcases List.mem_cons.mp hc with h | hc
    · rw [h]; rfl
    · cases hc
  · rcases hP : roundSigParts prec d with ⟨k, E⟩
    simp only [hm, ite_false]
    intro c hc
    rcases List.mem_append.mp hc with hc | hc
    · rcases List.mem_append.mp hc with hc | hc
      · split_ifs at hc
        · rw [List.mem_singleton.mp hc]; rfl
        · cases hc
      · rcases List.mem_append.mp hc with hc | hc
        · exact digit_not_space (natDigits_all_digits k c (List.take_subset _ _ hc))
        rcases List.mem_cons.mp hc with h | hc
        · rw [h]; rfl
        · exact digit_not_space (natDigits_all_digits k c (List.drop_subset _ _ hc))
    · rcases List.mem_cons.mp hc with h | hc
      · rw [h]; rfl
      rcases List.mem_cons.mp hc with h | hc
      · split_ifs at h <;> (rw [h]; rfl)
      · split_ifs at hc
        · rcases List.mem_cons.mp hc with h | h
          · rw [h]; rfl
          · exact digit_not_space (natDigits_all_digits _ c h)
        · exact digit_not_space (natDigits_all_digits _ c hc)

theorem padTo_eq (w : Nat) (s : PyStr) :
    padTo w s = List.replicate (w - s.length) ' ' ++ s := rfl

theorem padTo_zero (s : PyStr) : padTo 0 s = s := by
  simp [padTo]

theorem splitWS_join_pad (w : Nat) : ∀ (toks : List PyStr), toks ≠ [] →
    (∀ t ∈ toks, t ≠ [] ∧ ∀ c ∈ t, isSpaceC c = false) →
    splitWS (pyJoin [' '] (toks.map (padTo w))) = toks := by
  intro toks
  induction toks with
  | nil => intro h; exact absurd rfl h
  | cons t rest ih =>
    intro _ h
    rcases rest with _ | ⟨u, us⟩
    · show splitWS (padTo w t) = [t]
      rw [padTo_eq, splitWS_spaces]
      exact splitWS_token_nil t (h t (by simp)).1 (h t (by simp)).2
    · have hj : pyJoin [' '] ((t :: u :: us).map (padTo w)) =
          padTo w t ++ ' ' :: pyJoin [' '] ((u :: us).map (padTo w)) := by
        show padTo w t ++ [' '] ++ pyJoin [' '] ((u :: us).map (padTo w)) = _
        simp
      rw [hj, padTo_eq, List.append_assoc, splitWS_spaces,
        splitWS_token_space t _ (h t (by simp)).1 (h t (by simp)).2,
        ih (by simp) (fun v hv => h v (List.mem_cons_of_mem t hv))]

theorem map_padTo_zero (toks : List PyStr) : toks.map (padTo 0) = toks := by
  induction toks with
  | nil => rfl
  | cons t rest ih => rw [List.map_cons, padTo_zero, ih]

theorem splitWS_join (toks : List PyStr) (hne : toks ≠ [])
    (h : ∀ t ∈ toks, t ≠ [] ∧ ∀ c ∈ t, isSpaceC c = false) :
    splitWS (pyJoin [' '] toks) = toks := by
  have := splitWS_join_pad 0 toks hne h
  rwa [map_padTo_zero] at this

theorem intStr_facts (z : Int) :
    intStr z ≠ [] ∧ (∀ c ∈ intStr z, isSpaceC c = false) ∧
    pyIntParse (intStr z) = .ok z := by
  obtain ⟨hne, hns, hdig⟩ := natDigits_facts z.natAbs
  by_cases hz : z < 0
  · have hi : intStr z = '-' :: natDigits z.natAbs := by
      unfold intStr; rw [if_pos hz]
    have hws : ∀ c ∈ intStr z, isSpaceC c = false := by
      intro c hc
      rw [hi] at hc
      rcases List.mem_cons.mp hc with rfl | hm
      · rfl
      · exact hns c hm
    refine ⟨by rw [hi]; exact List.cons_ne_nil _ _, hws, ?_⟩
    unfold pyIntParse
    rw [pyStrip_eq_self_of _ (by rw [hi]; exact List.cons_ne_nil _ _) hws, hi]
    have hall : (natDigits z.natAbs).all isDigitC = true := by
      rw [List.all_eq_true]; exact hdig
    dsimp only
    rw [if_pos rfl, if_pos ⟨hne, hall⟩, if_pos rfl, natOfDigits_natDigits]
    have : -((z.natAbs : Int)) = z := by omega
    rw [this]
  · have hi : intStr z = natDigits z.natAbs := by
      unfold intStr; rw [if_neg hz]
    refine ⟨by rw [hi]; exact hne, by rw [hi]; exact hns, ?_⟩
    unfold pyIntParse
    rw [pyStrip_eq_self_of _ (by rw [hi]; exact hne) (by rw [hi]; exact hns), hi]
    rcases hcase : natDigits z.natAbs with _ | ⟨c, cs⟩
    · exact absurd hcase hne
    · have hcd : isDigitC c = true := by
        apply hdig
        rw [hcase]
        exact List.mem_cons_self c cs
      have hall : (c :: cs).all isDigitC = true := by
        rw [← hcase, List.all_eq_true]
        exact hdig
      dsimp only
      rw [if_neg (digit_ne_dash hcd), if_neg (digit_ne_plus hcd),
        if_pos ⟨List.cons_ne_nil c cs, hall⟩, if_neg (by simp), ← hcase,
        natOfDigits_natDigits]
      have : ((z.natAbs : Int)) = z := by omega
      rw [this]

theorem flatten_map_singleton {α : Type} (l : List α) :
    (l.map (fun x => [x])).flatten = l := by
  induction l with
  | nil => rfl
  | cons a t ih =>
    rw [List.map_cons, List.flatten_cons, ih]
    rfl

theorem splitOnC_join_no_sep (sep : Char) (parts : List PyStr) (hne : parts ≠ [])
    (h : ∀ p ∈ parts, sep ∉ p) :
    splitOnC sep (pyJoin [sep] parts) = parts := by
  rw [splitOnC_join sep parts hne]
  have h1 : parts.map (splitOnC sep) = parts.map (fun p => [p]) :=
    List.map_congr_left (fun p hp => splitOnC_no_sep sep p (h p hp))
  rw [h1, flatten_map_singleton]

theorem filter_nonempty (ls : List PyStr) (h : ∀ l ∈ ls, l ≠ []) :
    ls.filter (fun l => !l.isEmpty) = ls := by
  rw [List.filter_eq_self]
  intro l hl
  cases hc : l with
  | nil => exact absurd hc (h l hl)
  | cons a t => rfl

theorem mem_pyJoin {c s : Char} {parts : List PyStr}
    (h : c ∈ pyJoin [s] parts) : c = s ∨ ∃ p ∈ parts, c ∈ p := by
  induction parts with
  | nil => simp [pyJoin] at h
  | cons p rest ih =>
    rcases rest with _ | ⟨q, qs⟩
    · exact Or.inr ⟨p, by simp, h⟩
    · have hp : pyJoin [s] (p :: q :: qs) = p ++ s :: pyJoin [s] (q :: qs) := by
        show p ++ [s] ++ pyJoin [s] (q :: qs) = _
        simp
      rw [hp] at h
      rcases List.mem_append.mp h with hm | hm
      · exact Or.inr ⟨p, by simp, hm⟩
      · rcases List.mem_cons.mp hm with rfl | hm
        · exact Or.inl rfl
        · rcases ih hm with h1 | ⟨r, hr, hcr⟩
          · exact Or.inl h1
          · exact Or.inr ⟨r, List.mem_cons_of_mem p hr, hcr⟩

theorem pyJoin_ne_nil {s : Char} {t : PyStr} {ts : List PyStr} (ht : t ≠ []) :
    pyJoin [s] (t :: ts) ≠ [] := by
  rcases ts with _ | ⟨u, us⟩
  · exact ht
  · show t ++ [s] ++ pyJoin [s] (u :: us) ≠ []
    simp [ht]

theorem mapExcept_map_ok {α β γ : Type} (f : β → Except Err γ) (g : α → β)
    (h : α → γ) (xs : List α) (hx : ∀ x ∈ xs, f (g x) = .ok (h x)) :
    mapExcept f (xs.map g) = .ok (xs.map h) := by
  induction xs with
  | nil => rfl
  | cons x rest ih =>
    rw [List.map_cons]
    show (f (g x)) >>= _ = _
    rw [hx x (by simp), ok_bind, ih (fun y hy => hx y (List.mem_cons_of_mem x hy)),
      ok_bind]
    rfl

theorem pyIdx_cons_one {α : Type} (a b : α) (t : List α) :
    pyIdx (a :: b :: t) 1 = .ok b :=
  pyIdx_spec [a] b t 1 rfl

theorem pyIdx_zero_inv {α : Type} {xs : List α} {x : α}
    (h : pyIdx xs 0 = .ok x) : ∃ t, xs = x :: t := by
  cases xs with
  | nil => simp [pyIdx] at h
  | cons a t =>
    rw [pyIdx_cons_zero] at h
    simp only [Except.ok.injEq] at h
    exact ⟨t, by rw [h]⟩

theorem range_map_getD {α β : Type} (l : List α) (d : α) (f : α → β) :
    (List.range l.length).map (fun i => f (l.getD i d)) = l.map f := by
  induction l with
  | nil => rfl
  | cons x t ih =>
    rw [List.length_cons, List.range_succ_eq_map, List.map_cons, List.map_map,
      List.map_cons]
    refine congrArg₂ _ rfl ?_
    rw [← ih]
    exact List.map_congr_left (fun i _ => rfl)

theorem npTranspose_row_len (rows : List (List Dec)) :
    ∀ row ∈ npTranspose rows, row.length = rows.length := by
  intro row hrow
  unfold npTranspose at hrow
  obtain ⟨i, _, rfl⟩ := List.mem_map.mp hrow
  exact List.length_map _ _

theorem npTranspose_head (r0 : List Dec) (rr : List (List Dec))
    (h0 : 0 < r0.length) :
    ∃ rest, npTranspose (r0 :: rr) =
      ((r0 :: rr).map (fun r => r.getD 0 ⟨0, 0⟩)) :: rest := by
  unfold npTranspose
  obtain ⟨k, hk⟩ : ∃ k, r0.length = k + 1 := ⟨r0.length - 1, by omega⟩
  have hred : (((r0 :: rr).head?.map List.length).getD 0) = r0.length := rfl
  rw [hred, hk, List.range_succ_eq_map, List.map_cons]
  exact ⟨_, rfl⟩

theorem getD_map_map (M : List (List Dec)) (g : Dec → Dec) (i : Nat) :
    ∀ (j : Nat) (hj : j < M.length),
    ((M.map (fun ct => ct.getD i ⟨0, 0⟩)).map g).getD j ⟨0, 0⟩ =
      g ((M.get ⟨j, hj⟩).getD i ⟨0, 0⟩) := by
  induction M with
  | nil => intro j hj; simp at hj
  | cons r rs ih =>
    intro j hj
    cases j with
    | zero => rfl
    | succ j2 => exact ih j2 (by simpa using hj)

theorem npTranspose_double (M : List (List Dec)) (n : Nat) (g : Dec → Dec)
    (hn : 0 < n) (hrect : ∀ r ∈ M, r.length = n) (hM : M ≠ []) :
    npTranspose ((npTranspose M).map (List.map g)) = M.map (List.map g) := by
  rcases M with _ | ⟨r0, rest⟩
  · exact absurd rfl hM
  have hr0 : r0.length = n := hrect r0 (by simp)
  have hT : npTranspose (r0 :: rest) =
      (List.range n).map (fun i => (r0 :: rest).map (fun ct => ct.getD i ⟨0, 0⟩)) := by
    unfold npTranspose
    rw [show (((r0 :: rest).head?.map List.length).getD 0) = r0.length from rfl, hr0]
  rw [hT, List.map_map]
  obtain ⟨k, hk⟩ : ∃ k, n = k + 1 := ⟨n - 1, by omega⟩
  have hd2 : npTranspose ((List.range n).map
      (List.map g ∘ fun i => (r0 :: rest).map (fun ct => ct.getD i ⟨0, 0⟩))) =
      (List.range (rest.length + 1)).map (fun j =>
        ((List.range n).map
          (List.map g ∘ fun i => (r0 :: rest).map (fun ct => ct.getD i ⟨0, 0⟩))).map
            (fun ct => ct.getD j ⟨0, 0⟩)) := by
    unfold npTranspose
    have hcount : ((((List.range n).map
        (List.map g ∘ fun i => (r0 :: rest).map (fun ct => ct.getD i ⟨0, 0⟩))).head?.map
          List.length).getD 0) = rest.length + 1 := by
      rw [hk, List.range_succ_eq_map, List.map_cons]
      simp
    rw [hcount]
  rw [hd2]
  apply List.ext_get
  · simp
  · intro j h1 h2
    rw [List.get_map, List.get_map, List.get_range, List.map_map]
    have hj : j < (r0 :: rest).length := by simpa using h2
    have hgm : ∀ i : Nat,
        ((List.map g ∘ fun i => (r0 :: rest).map (fun ct => ct.getD i ⟨0, 0⟩)) i).getD
          j ⟨0, 0⟩ = g (((r0 :: rest).get ⟨j, hj⟩).getD i ⟨0, 0⟩) := by
      intro i
      exact getD_map_map (r0 :: rest) g i j hj
    have hrow : ((r0 :: rest).get ⟨j, hj⟩).length = n :=
      hrect _ (List.get_mem _ _ _)
    calc (List.range n).map (fun i =>
          ((List.map g ∘ fun i => (r0 :: rest).map (fun ct => ct.getD i ⟨0, 0⟩)) i).getD
            j ⟨0, 0⟩)
        = (List.range n).map (fun i => g (((r0 :: rest).get ⟨j, hj⟩).getD i ⟨0, 0⟩)) :=
          List.map_congr_left (fun i _ => hgm i)
      _ = (List.range ((r0 :: rest).get ⟨j, hj⟩).length).map
            (fun i => g (((r0 :: rest).get ⟨j, hj⟩).getD i ⟨0, 0⟩)) := by rw [hrow]
      _ = ((r0 :: rest).get ⟨j, hj⟩).map g := range_map_getD _ _ g

theorem parseFloatTok_fmtSciCore (prec : Nat) (d : Dec) :
    parseFloatTok (fmtSciCore prec d) = .ok (roundSig prec d) := by
  have h := parseFloatTok_fmtSci 0 prec d
  unfold fmtSci at h
  rwa [padTo_zero] at h

theorem decScale_toRat (d : Dec) (k : Int) (hk : k ≤ d.e) :
    ((decScale d k : Int) : ℚ) * (10 : ℚ) ^ k = d.toRat := by
  unfold decScale Dec.toRat
  push_cast
  rw [show ((10 : ℚ) ^ (d.e - k).toNat) = (10 : ℚ) ^ (d.e - k) from by
    rw [← zpow_natCast]
    congr 1
    omega]
  rw [mul_assoc, ← ten_zpow_add]
  congr 2
  omega

theorem decLt_iff (a b : Dec) : decLt a b = true ↔ a.toRat < b.toRat := by
  unfold decLt
  rw [decide_eq_true_eq]
  have ha : min a.e b.e ≤ a.e := min_le_left _ _
  have hb : min a.e b.e ≤ b.e := min_le_right _ _
  have hpos : (0 : ℚ) < (10 : ℚ) ^ (min a.e b.e) :=
    zpow_pos (by norm_num) _
  constructor
  · intro h
    have h2 := (mul_lt_mul_right hpos).mpr
      (Int.cast_lt.mpr h : ((decScale a (min a.e b.e) : Int) : ℚ) < _)
    rwa [decScale_toRat a _ ha, decScale_toRat b _ hb] at h2
  · intro h
    rw [← decScale_toRat a _ ha, ← decScale_toRat b _ hb] at h
    exact_mod_cast (mul_lt_mul_right hpos).mp h

theorem decLt_false_le {a b : Dec} (h : decLt a b = false) : b.toRat ≤ a.toRat := by
  by_contra hlt
  push_neg at hlt
  rw [(decLt_iff a b).mpr hlt] at h
  exact absurd h (by simp)

theorem clamp_abs_le (a b : Dec) (hb : Dec.toRat ⟨-16, 0⟩ ≤ b.toRat) :
    |Dec.toRat (if decLt a ⟨-16, 0⟩ then (⟨-16, 0⟩ : Dec) else a) - b.toRat| ≤
      |a.toRat - b.toRat| := by
  by_cases h : decLt a ⟨-16, 0⟩
  · rw [if_pos h]
    have ha : a.toRat < Dec.toRat ⟨-16, 0⟩ := (decLt_iff _ _).mp h
    rw [abs_of_nonpos (by linarith), abs_of_nonpos (by linarith)]
    linarith
  · rw [if_neg h]

theorem padTo_ne_nil {w : Nat} {s : PyStr} (h : s ≠ []) : padTo w s ≠ [] := by
  simp [padTo, h]

theorem fmtSci_ne_nil (w prec : Nat) (d : Dec) : fmtSci w prec d ≠ [] :=
  padTo_ne_nil (fmtSciCore_ne_nil prec d)

theorem no_nl_intStr (z : Int) : '\n' ∉ intStr z := fun hm =>
  absurd ((intStr_facts z).2.1 '\n' hm) (by decide)

theorem no_nl_fmtSci (w prec : Nat) (d : Dec) : '\n' ∉ fmtSci w prec d := by
  intro hm
  unfold fmtSci padTo at hm
  rcases List.mem_append.mp hm with hm | hm
  · exact absurd (List.eq_of_mem_replicate hm) (by decide)
  · exact absurd (fmtSciCore_no_ws prec d '\n' hm) (by decide)

theorem pystr_space : pystr " " = [' '] := rfl

theorem pystr_nl : pystr "\n" = ['\n'] := rfl

theorem from_str_shape (P : PyStr) (ps : List Projector)
    (h : Projectors.from_str P = .ok ps) (hne : ps ≠ []) :
    ∃ X : List Dec, X ≠ [] ∧ ∀ p ∈ ps, p.x = xSet X ∧ p.y.length = X.length := by
  unfold Projectors.from_str at h
  obtain ⟨rowsF, hrows, h⟩ := bind_ok_inv h
  try dsimp only at h
  obtain ⟨l1, hl1, h⟩ := bind_ok_inv h
  obtain ⟨lvals, hlv, h⟩ := bind_ok_inv h
  obtain ⟨data, hdata, h⟩ := bind_ok_inv h
  simp only [Except.ok.injEq] at h
  subst h
  rcases hzip : lvals.zip ((npTranspose rowsF).drop 2) with _ | ⟨q, qs⟩
  · rw [hzip] at hdata
    simp only [mapExcept, Except.ok.injEq] at hdata
    exact absurd hdata.symm hne
  · rw [hzip] at hdata
    obtain ⟨p1, rest1, hfq, _, _⟩ := mapExcept_cons_inv hdata
    cases hx : pyIdx (npTranspose rowsF) 0 with
    | error e =>
      rw [hx] at hfq
      exact absurd hfq (by simp [Except.map])
    | ok X =>
      obtain ⟨ctail, hct⟩ := pyIdx_zero_inv hx
      have hXmem : X ∈ npTranspose rowsF := by rw [hct]; simp
      have hXlen : X.length = rowsF.length := npTranspose_row_len rowsF X hXmem
      have hrne : rowsF ≠ [] := by
        intro hcon
        rw [hcon] at hct
        have : npTranspose ([] : List (List Dec)) = [] := rfl
        rw [this] at hct
        exact absurd hct (by simp)
      refine ⟨X, ?_, ?_⟩
      · intro hX0
        rw [hX0] at hXlen
        exact hrne (List.length_eq_zero.mp hXlen.symm)
      · intro p hp
        obtain ⟨⟨pl, py⟩, hpair, hf⟩ := mapExcept_mem_inv hdata p hp
        rw [hx] at hf
        simp only [Except.map, Except.ok.injEq] at hf
        have hm2 : (pl, py) ∈ lvals.zip ((npTranspose rowsF).drop 2) := by
          rw [hzip]
          exact hpair
        have hy : py ∈ (npTranspose rowsF).drop 2 := (List.of_mem_zip hm2).2
        have hylen : py.length = rowsF.length :=
          npTranspose_row_len rowsF py (List.drop_subset 2 _ hy)
        rw [← hf]
        exact ⟨rfl, show py.length = X.length from by rw [hylen, hXlen]⟩

theorem to_strWith_eval (exp : Dec → Dec) (p0 : Projector) (pt : List Projector) :
    Projectors.to_strWith exp (p0 :: pt) = .ok (pyJoin (pystr "\n")
      ((intStr (p0.x.length : Int) ++ pystr " " ++ intStr (((p0 :: pt).length : Nat) : Int)) ::
        pyJoin (pystr " ") ((p0 :: pt).map (fun p => intStr p.l)) ::
        (npTranspose (p0.x :: p0.x.map exp :: (p0 :: pt).map (fun p => p.y))).map
          (fun row => pyJoin (pystr " ") (row.map (fmtSci 18 12))))) := by
  unfold Projectors.to_strWith
  rw [pyIdx_cons_zero, ok_bind]

set_option maxHeartbeats 1600000 in
theorem from_str_of_to_str (exp : Dec → Dec) (p0 : Projector) (pt : List Projector)
    (hAne : p0.x ≠ [])
    (hyl : ∀ p ∈ p0 :: pt, p.y.length = p0.x.length) :
    Projectors.from_str (pyJoin (pystr "\n")
      ((intStr (p0.x.length : Int) ++ pystr " " ++ intStr (((p0 :: pt).length : Nat) : Int)) ::
        pyJoin (pystr " ") ((p0 :: pt).map (fun p => intStr p.l)) ::
        (npTranspose (p0.x :: p0.x.map exp :: (p0 :: pt).map (fun p => p.y))).map
          (fun row => pyJoin (pystr " ") (row.map (fmtSci 18 12))))) =
      .ok ((p0 :: pt).map (fun p =>
        mkProjector (p0.x.map (roundSig 12)) (p.y.map (roundSig 12)) p.l)) := by
  have hMrect : ∀ r ∈ p0.x :: p0.x.map exp :: (p0 :: pt).map (fun p => p.y),
      r.length = p0.x.length := by
    intro r hr
    rcases List.mem_cons.mp hr with rfl | hr
    · rfl
    rcases List.mem_cons.mp hr with rfl | hr
    · exact List.length_map _ _
    · obtain ⟨p, hp, rfl⟩ := List.mem_map.mp hr
      exact hyl p hp
  have hTrow : ∀ trow ∈ npTranspose (p0.x :: p0.x.map exp :: (p0 :: pt).map (fun p => p.y)),
      trow.length = pt.length + 3 := by
    intro trow htr
    rw [npTranspose_row_len _ trow htr]
    simp
  have hTne : ∀ trow ∈ npTranspose (p0.x :: p0.x.map exp :: (p0 :: pt).map (fun p => p.y)),
      trow ≠ [] := by
    intro trow htr hcon
    have := hTrow trow htr
    rw [hcon] at this
    simp at this
  have hnoNL : ∀ p ∈
      ((intStr (p0.x.length : Int) ++ pystr " " ++ intStr (((p0 :: pt).length : Nat) : Int)) ::
        pyJoin (pystr " ") ((p0 :: pt).map (fun p => intStr p.l)) ::
        (npTranspose (p0.x :: p0.x.map exp :: (p0 :: pt).map (fun p => p.y))).map
          (fun row => pyJoin (pystr " ") (row.map (fmtSci 18 12)))), '\n' ∉ p := by
    intro p hp
    rcases List.mem_cons.mp hp with rfl | hp
    · intro hm
      rcases List.mem_append.mp hm with hm | hm
      · rcases List.mem_append.mp hm with hm | hm
        · exact no_nl_intStr _ hm
        · rw [pystr_space] at hm
          simp only [List.mem_singleton] at hm
          exact absurd hm (by decide)
      · exact no_nl_intStr _ hm
    rcases List.mem_cons.mp hp with rfl | hp
    · intro hm
      rw [pystr_space] at hm
      rcases mem_pyJoin hm with h1 | ⟨q, hq, hcq⟩
      · exact absurd h1 (by decide)
      · obtain ⟨r, _, rfl⟩ := List.mem_map.mp hq
        exact no_nl_intStr _ hcq
    · obtain ⟨trow, _, rfl⟩ := List.mem_map.mp hp
      intro hm
      rw [pystr_space] at hm
      rcases mem_pyJoin hm with h1 | ⟨q, hq, hcq⟩
      · exact absurd h1 (by decide)
      · obtain ⟨d, _, rfl⟩ := List.mem_map.mp hq
        exact no_nl_fmtSci _ _ _ hcq
  have hlne : ∀ p ∈
      ((intStr (p0.x.length : Int) ++ pystr " " ++ intStr (((p0 :: pt).length : Nat) : Int)) ::
        pyJoin (pystr " ") ((p0 :: pt).map (fun p => intStr p.l)) ::
        (npTranspose (p0.x :: p0.x.map exp :: (p0 :: pt).map (fun p => p.y))).map
          (fun row => pyJoin (pystr " ") (row.map (fmtSci 18 12)))), p ≠ [] := by
    intro p hp
    rcases List.mem_cons.mp hp with rfl | hp
    · intro hcon
      exact (intStr_facts (((p0 :: pt).length : Nat) : Int)).1
        (List.append_eq_nil.mp hcon).2
    rcases List.mem_cons.mp hp with rfl | hp
    · rw [pystr_space, List.map_cons]
      exact pyJoin_ne_nil (intStr_facts p0.l).1
    · obtain ⟨trow, htr, rfl⟩ := List.mem_map.mp hp
      rcases trow with _ | ⟨d, ds⟩
      · exact absurd rfl (hTne [] htr)
      · rw [pystr_space, List.map_cons]
        exact pyJoin_ne_nil (fmtSci_ne_nil 18 12 d)
  have hsplit : (splitOnC '\n' (pyJoin (pystr "\n")
      ((intStr (p0.x.length : Int) ++ pystr " " ++ intStr (((p0 :: pt).length : Nat) : Int)) ::
        pyJoin (pystr " ") ((p0 :: pt).map (fun p => intStr p.l)) ::
        (npTranspose (p0.x :: p0.x.map exp :: (p0 :: pt).map (fun p => p.y))).map
          (fun row => pyJoin (pystr " ") (row.map (fmtSci 18 12)))))).filter
            (fun l => !l.isEmpty) =
      ((intStr (p0.x.length : Int) ++ pystr " " ++ intStr (((p0 :: pt).length : Nat) : Int)) ::
        pyJoin (pystr " ") ((p0 :: pt).map (fun p => intStr p.l)) ::
        (npTranspose (p0.x :: p0.x.map exp :: (p0 :: pt).map (fun p => p.y))).map
          (fun row => pyJoin (pystr " ") (row.map (fmtSci 18 12)))) := by
    rw [pystr_nl, splitOnC_join_no_sep '\n' _ (List.cons_ne_nil _ _) hnoNL]
    exact filter_nonempty _ hlne
  have hbody : mapExcept (fun row => mapExcept parseFloatTok (splitWS row))
      ((npTranspose (p0.x :: p0.x.map exp :: (p0 :: pt).map (fun p => p.y))).map
        (fun row => pyJoin (pystr " ") (row.map (fmtSci 18 12)))) =
      .ok ((npTranspose (p0.x :: p0.x.map exp :: (p0 :: pt).map (fun p => p.y))).map
        (fun trow => trow.map (roundSig 12))) := by
    apply mapExcept_map_ok
    intro trow htr
    have hsw : splitWS (pyJoin (pystr " ") (trow.map (fmtSci 18 12))) =
        trow.map (fmtSciCore 12) := by
      rw [pystr_space,
        show trow.map (fmtSci 18 12) = (trow.map (fmtSciCore 12)).map (padTo 18) from by
          rw [List.map_map]
          exact List.map_congr_left (fun d _ => rfl)]
      refine splitWS_join_pad 18 _ ?_ ?_
      · intro hcon
        exact hTne trow htr (List.map_eq_nil_iff.mp hcon)
      · intro t ht
        obtain ⟨d, _, rfl⟩ := List.mem_map.mp ht
        exact ⟨fmtSciCore_ne_nil 12 d, fmtSciCore_no_ws 12 d⟩
    rw [hsw]
    exact mapExcept_map_ok parseFloatTok (fmtSciCore 12) (roundSig 12) trow
      (fun d _ => parseFloatTok_fmtSciCore 12 d)
  have hlv : mapExcept pyIntParse
      (splitWS (pyJoin (pystr " ") ((p0 :: pt).map (fun p => intStr p.l)))) =
      .ok ((p0 :: pt).map Projector.l) := by
    have hsw : splitWS (pyJoin (pystr " ") ((p0 :: pt).map (fun p => intStr p.l))) =
        (p0 :: pt).map (fun p => intStr p.l) := by
      rw [pystr_space]
      refine splitWS_join _ (by simp) ?_
      intro t ht
      obtain ⟨p, _, rfl⟩ := List.mem_map.mp ht
      exact ⟨(intStr_facts p.l).1, (intStr_facts p.l).2.1⟩
    rw [hsw]
    exact mapExcept_map_ok pyIntParse (fun p => intStr p.l) Projector.l _
      (fun p _ => (intStr_facts p.l).2.2)
  have hdouble : npTranspose
      (((npTranspose (p0.x :: p0.x.map exp :: (p0 :: pt).map (fun p => p.y)))).map
        (fun trow => trow.map (roundSig 12))) =
      (p0.x :: p0.x.map exp :: (p0 :: pt).map (fun p => p.y)).map
        (List.map (roundSig 12)) := by
    have := npTranspose_double (p0.x :: p0.x.map exp :: (p0 :: pt).map (fun p => p.y))
      p0.x.length (roundSig 12) (by
        cases hc : p0.x with
        | nil => exact absurd hc hAne
        | cons a t => simp) hMrect (List.cons_ne_nil _ _)
    exact this
  unfold Projectors.from_str
  rw [hsplit]
  dsimp only
  rw [show ((intStr (p0.x.length : Int) ++ pystr " " ++
      intStr (((p0 :: pt).length : Nat) : Int)) ::
        pyJoin (pystr " ") ((p0 :: pt).map (fun p => intStr p.l)) ::
        (npTranspose (p0.x :: p0.x.map exp :: (p0 :: pt).map (fun p => p.y))).map
          (fun row => pyJoin (pystr " ") (row.map (fmtSci 18 12)))).drop 2 =
      (npTranspose (p0.x :: p0.x.map exp :: (p0 :: pt).map (fun p => p.y))).map
        (fun row => pyJoin (pystr " ") (row.map (fmtSci 18 12))) from rfl]
  rw [hbody, ok_bind, pyIdx_cons_one, ok_bind, hlv, ok_bind, hdouble,
    List.map_cons, List.map_cons]
  have hfuse : List.map (List.map (roundSig 12)) (List.map (fun p => p.y) (p0 :: pt)) =
      (p0 :: pt).map (fun p => List.map (roundSig 12) p.y) := by
    rw [List.map_map]
    exact List.map_congr_left (fun p _ => rfl)
  rw [hfuse]
  show (mapExcept (fun pr : Int × List Dec =>
      (pyIdx (List.map (roundSig 12) p0.x ::
        List.map (roundSig 12) (List.map exp p0.x) ::
        (p0 :: pt).map (fun p => List.map (roundSig 12) p.y)) 0).map
          (fun x0 => mkProjector x0 pr.2 pr.1))
      (((p0 :: pt).map Projector.l).zip
        ((p0 :: pt).map (fun p => List.map (roundSig 12) p.y))) >>=
      fun data => Except.ok data) = _
  rw [List.zip_map']
  rw [mapExcept_map_ok (fun pr : Int × List Dec =>
      (pyIdx (List.map (roundSig 12) p0.x ::
        List.map (roundSig 12) (List.map exp p0.x) ::
        (p0 :: pt).map (fun p => List.map (roundSig 12) p.y)) 0).map
          (fun x0 => mkProjector x0 pr.2 pr.1))
    (fun a => (Projector.l a, List.map (roundSig 12) a.y))
    (fun p => mkProjector (List.map (roundSig 12) p0.x) (List.map (roundSig 12) p.y) p.l)
    (p0 :: pt)
    (fun p _ => by rw [pyIdx_cons_zero]; rfl), ok_bind]

/-- C6: for every projector `.dat` file that `Projectors.from_str` parses
into a nonempty projector list, serialising with `Projectors.to_str`
(whose `np.exp` column is the abstract `exp` parameter; the written file
records values in the `%18.12e` format, i.e. 12 decimals of declared
precision) and re-parsing succeeds and yields the same number of
projectors with identical angular momenta, and every grid value `x` and
projector value `y` agrees with the original within half a unit in the
12th significant decimal place (`(1/2)·10^(mag10 v − 12)`). -/
theorem projectors_roundtrip (exp : Dec → Dec) (P : PyStr) (ps : List Projector)
    (h : Projectors.from_str P = .ok ps) (hne : ps ≠ []) :
    ∃ s2 ps2,
      Projectors.to_strWith exp ps = .ok s2 ∧
      Projectors.from_str s2 = .ok ps2 ∧
      ps2.length = ps.length ∧
      ps2.map Projector.l = ps.map Projector.l ∧
      (∀ i (hi2 : i < ps2.length) (hi : i < ps.length),
        ((ps2.get ⟨i, hi2⟩).x.length = (ps.get ⟨i, hi⟩).x.length ∧
          ∀ j (hj2 : j < (ps2.get ⟨i, hi2⟩).x.length)
            (hj : j < (ps.get ⟨i, hi⟩).x.length),
            |Dec.toRat ((ps2.get ⟨i, hi2⟩).x.get ⟨j, hj2⟩) -
              Dec.toRat ((ps.get ⟨i, hi⟩).x.get ⟨j, hj⟩)| ≤
              (1/2) * (10 : ℚ) ^ (mag10 ((ps.get ⟨i, hi⟩).x.get ⟨j, hj⟩) - 12)) ∧
        ((ps2.get ⟨i, hi2⟩).y.length = (ps.get ⟨i, hi⟩).y.length ∧
          ∀ j (hj2 : j < (ps2.get ⟨i, hi2⟩).y.length)
            (hj : j < (ps.get ⟨i, hi⟩).y.length),
            |Dec.toRat ((ps2.get ⟨i, hi2⟩).y.get ⟨j, hj2⟩) -
              Dec.toRat ((ps.get ⟨i, hi⟩).y.get ⟨j, hj⟩)| ≤
              (1/2) * (10 : ℚ) ^ (mag10 ((ps.get ⟨i, hi⟩).y.get ⟨j, hj⟩) - 12))) := by
  obtain ⟨X, hXne, hPS⟩ := from_str_shape P ps h hne
  obtain ⟨p0, pt, rfl⟩ := List.exists_cons_of_ne_nil hne
  have hx0 : p0.x = xSet X := (hPS p0 (by simp)).1
  have hAne : p0.x ≠ [] := by
    rw [hx0]
    intro hcon
    exact hXne (List.map_eq_nil_iff.mp hcon)
  have hxlen : p0.x.length = X.length := by
    rw [hx0]
    exact List.length_map _ _
  have hyl : ∀ p ∈ p0 :: pt, p.y.length = p0.x.length := by
    intro p hp
    rw [hxlen]
    exact (hPS p hp).2
  refine ⟨_, _, to_strWith_eval exp p0 pt, from_str_of_to_str exp p0 pt hAne hyl,
    List.length_map _ _, ?_, ?_⟩
  · rw [List.map_map]
    exact List.map_congr_left (fun p _ => rfl)
  · intro i hi2 hi
    have hget2 : ((p0 :: pt).map (fun p =>
        mkProjector (p0.x.map (roundSig 12)) (p.y.map (roundSig 12)) p.l)).get ⟨i, hi2⟩ =
        mkProjector (p0.x.map (roundSig 12))
          (((p0 :: pt).get ⟨i, hi⟩).y.map (roundSig 12))
          ((p0 :: pt).get ⟨i, hi⟩).l := by
      simp only [List.get_eq_getElem, List.getElem_map]
    rw [hget2]
    have hpix : ((p0 :: pt).get ⟨i, hi⟩).x = p0.x := by
      rw [(hPS _ (List.get_mem _ _ _)).1, hx0]
    refine ⟨⟨?_, ?_⟩, ?_, ?_⟩
    · show (xSet (p0.x.map (roundSig 12))).length = _
      rw [hpix]
      unfold xSet
      rw [List.length_map, List.length_map]
    · intro j hj2 hj
      have hj' : j < p0.x.length := by
        have hjc := hj
        rw [hpix] at hjc
        exact hjc
      have hvx : ((p0 :: pt).get ⟨i, hi⟩).x.get ⟨j, hj⟩ = p0.x.get ⟨j, hj'⟩ :=
        List.get_of_eq hpix _
      have hx2get : (mkProjector (p0.x.map (roundSig 12))
          (((p0 :: pt).get ⟨i, hi⟩).y.map (roundSig 12))
          ((p0 :: pt).get ⟨i, hi⟩).l).x.get ⟨j, hj2⟩ =
          (if decLt (roundSig 12 (p0.x.get ⟨j, hj'⟩)) ⟨-16, 0⟩ then (⟨-16, 0⟩ : Dec)
            else roundSig 12 (p0.x.get ⟨j, hj'⟩)) := by
        show (xSet (p0.x.map (roundSig 12))).get ⟨j, hj2⟩ = _
        unfold xSet
        simp only [List.get_eq_getElem, List.getElem_map]
      have hclamped : decLt (p0.x.get ⟨j, hj'⟩) ⟨-16, 0⟩ = false := by
        have hmem : p0.x.get ⟨j, hj'⟩ ∈ xSet X := by
          rw [← hx0]
          exact List.get_mem _ _ _
        exact xSet_clamped X _ hmem
      have hb := le_trans
        (clamp_abs_le (roundSig 12 (p0.x.get ⟨j, hj'⟩)) (p0.x.get ⟨j, hj'⟩)
          (decLt_false_le hclamped))
        (roundSig_err 12 (p0.x.get ⟨j, hj'⟩))
      rw [← hx2get] at hb
      rw [← hvx] at hb
      exact hb
    · show (((p0 :: pt).get ⟨i, hi⟩).y.map (roundSig 12)).length = _
      rw [List.length_map]
    · intro j hj2 hj
      have hy2get : (mkProjector (p0.x.map (roundSig 12))
          (((p0 :: pt).get ⟨i, hi⟩).y.map (roundSig 12))
          ((p0 :: pt).get ⟨i, hi⟩).l).y.get ⟨j, hj2⟩ =
          roundSig 12 (((p0 :: pt).get ⟨i, hi⟩).y.get ⟨j, hj⟩) := by
        show ((((p0 :: pt).get ⟨i, hi⟩).y.map (roundSig 12))).get ⟨j, hj2⟩ = _
        simp only [List.get_eq_getElem, List.getElem_map]
      have hb := roundSig_err 12 (((p0 :: pt).get ⟨i, hi⟩).y.get ⟨j, hj⟩)
      rw [← hy2get] at hb
      exact hb

theorem projectors_roundtrip_witness :
    ∃ s2 ps2,
      Projectors.to_strWith npExp
        [mkProjector [⟨5, -1⟩, ⟨15, -1⟩] [⟨3, 0⟩, ⟨4, 0⟩] 0] = .ok s2 ∧
      Projectors.from_str s2 = .ok ps2 ∧
      ps2.length = [mkProjector [⟨5, -1⟩, ⟨15, -1⟩] [⟨3, 0⟩, ⟨4, 0⟩] 0].length ∧
      ps2.map Projector.l =
        [mkProjector [⟨5, -1⟩, ⟨15, -1⟩] [⟨3, 0⟩, ⟨4, 0⟩] 0].map Projector.l ∧
      (∀ i (hi2 : i < ps2.length)
        (hi : i < [mkProjector [⟨5, -1⟩, ⟨15, -1⟩] [⟨3, 0⟩, ⟨4, 0⟩] 0].length),
        ((ps2.get ⟨i, hi2⟩).x.length =
          (([mkProjector [⟨5, -1⟩, ⟨15, -1⟩] [⟨3, 0⟩, ⟨4, 0⟩] 0].get ⟨i, hi⟩).x.length) ∧
          ∀ j (hj2 : j < (ps2.get ⟨i, hi2⟩).x.length)
            (hj : j < ([mkProjector [⟨5, -1⟩, ⟨15, -1⟩] [⟨3, 0⟩, ⟨4, 0⟩] 0].get
              ⟨i, hi⟩).x.length),
            |Dec.toRat ((ps2.get ⟨i, hi2⟩).x.get ⟨j, hj2⟩) -
              Dec.toRat (([mkProjector [⟨5, -1⟩, ⟨15, -1⟩] [⟨3, 0⟩, ⟨4, 0⟩] 0].get
                ⟨i, hi⟩).x.get ⟨j, hj⟩)| ≤
              (1/2) * (10 : ℚ) ^
                (mag10 (([mkProjector [⟨5, -1⟩, ⟨15, -1⟩] [⟨3, 0⟩, ⟨4, 0⟩] 0].get
                  ⟨i, hi⟩).x.get ⟨j, hj⟩) - 12)) ∧
        ((ps2.get ⟨i, hi2⟩).y.length =
          (([mkProjector [⟨5, -1⟩, ⟨15, -1⟩] [⟨3, 0⟩, ⟨4, 0⟩] 0].get ⟨i, hi⟩).y.length) ∧
          ∀ j (hj2 : j < (ps2.get ⟨i, hi2⟩).y.length)
            (hj : j < ([mkProjector [⟨5, -1⟩, ⟨15, -1⟩] [⟨3, 0⟩, ⟨4, 0⟩] 0].get
              ⟨i, hi⟩).y.length),
            |Dec.toRat ((ps2.get ⟨i, hi2⟩).y.get ⟨j, hj2⟩) -
              Dec.toRat (([mkProjector [⟨5, -1⟩, ⟨15, -1⟩] [⟨3, 0⟩, ⟨4, 0⟩] 0].get
                ⟨i, hi⟩).y.get ⟨j, hj⟩)| ≤
              (1/2) * (10 : ℚ) ^
                (mag10 (([mkProjector [⟨5, -1⟩, ⟨15, -1⟩] [⟨3, 0⟩, ⟨4, 0⟩] 0].get
                  ⟨i, hi⟩).y.get ⟨j, hj⟩) - 12))) :=
  projectors_roundtrip npExp (pystr "2 1\n0\n0.5 1.0 3.0\n1.5 2.0 4.0")
    [mkProjector [⟨5, -1⟩, ⟨15, -1⟩] [⟨3, 0⟩, ⟨4, 0⟩] 0] (by decide) (by decide)
